import Mathlib

/-!
# kew `directorytree.c`: a shallow embedding

The definitions below follow `src/directorytree.c` function by function.

Conventions of the embedding.

* A C string is the list of its characters before the terminating NUL
  (`CString`); every `Char` stands for one byte.
* C `int` values are mathematical integers (`Int`) with the range of `int`
  made explicit where the source can leave it: `sscanf` stores what `%d`
  stores into an `int` (`storeInt`), and the addition `id + 100` of
  `reconstructTreeFromFile` is a fault (`Fault.intOverflow`) beyond
  `INT_MAX`.  The counter of `createEntry` is taken to stay within `int`.
* `malloc`, `calloc`, `realloc` and `strdup` succeed.
* The text of a file is the list of its characters; it holds no NUL.
* A `FileSystemEntry *` that heads a well-formed tree is a value of the
  inductive type `FileSystemEntry`: `null` is the NULL pointer, and a node
  carries its scalar fields together with the two owning links `children`
  (first child) and `next` (next sibling).  The back-reference `parent` is
  only read by `createEntry`, which receives the parent as an argument.
* `reconstructTreeFromFile` links nodes through an id-indexed table and can
  produce structures that are not trees, so it is embedded over an explicit
  heap of cells (`HeapEntry`) addressed by allocation order.
-/

namespace Kew

/-- A C string: the characters before the terminating NUL. -/
abbrev CString := List Char

/-! ## libc helpers used by the source -/

/-- The `isspace` of the C locale: space, `\t`, `\n`, `\v`, `\f`, `\r`. -/
def isspace (c : Char) : Bool :=
  c == ' ' || c == '\t' || c == '\n' || c == Char.ofNat 11 || c == Char.ofNat 12 || c == '\r'

/-- The `toupper` of the C locale: `a`..`z` are mapped to `A`..`Z`. -/
def toupper (c : Char) : Char :=
  if 'a' ≤ c ∧ c ≤ 'z' then Char.ofNat (c.toNat - 32) else c

/-- The `strcmp` of libc.  C fixes only the sign of the result; the model
returns `-1`, `0` or `1`. -/
def strcmp : CString → CString → Int
  | [], [] => 0
  | [], _ :: _ => -1
  | _ :: _, [] => 1
  | a :: as, b :: bs => if a = b then strcmp as bs else if a < b then -1 else 1

/-! ## Entries -/

/-- Kind of file reported by `stat` in `st_mode`. -/
inductive FileKind where
  | regular
  | directory
  | other
  deriving DecidableEq, Repr

/-- Modelled from the spec: the declaration of `struct FileSystemEntry` lives
in `directorytree.h`, which is not among the sources.  The scalar fields and
their types follow section 3 of the specification (`isDirectory` and
`isEnqueued` are booleans, printed by `%d` as `0` or `1`). -/
structure EntryData where
  id : Int
  name : CString
  fullPath : CString
  isDirectory : Bool
  isEnqueued : Bool
  parentId : Int
  deriving DecidableEq, Repr

/-- A `FileSystemEntry *`: NULL, or a node with its scalar fields, its first
child (`children`) and its next sibling (`next`). -/
inductive FileSystemEntry where
  | null
  | node (d : EntryData) (children next : FileSystemEntry)
  deriving DecidableEq, Repr

namespace FileSystemEntry

/-- The sibling chain that starts at a pointer, front to back. -/
def chain : FileSystemEntry → List FileSystemEntry
  | null => []
  | node d c n => node d c n :: chain n

/-- The field `children` of a node (NULL for NULL). -/
def childrenPtr : FileSystemEntry → FileSystemEntry
  | null => null
  | node _ c _ => c

/-- The child list of a node, front to back. -/
def childList (e : FileSystemEntry) : List FileSystemEntry :=
  chain e.childrenPtr

/-- The scalar fields of a node. -/
def data? : FileSystemEntry → Option EntryData
  | null => none
  | node d _ _ => some d

/-- Number of nodes reachable from a pointer through `children` and `next`. -/
def chainSize : FileSystemEntry → Nat
  | null => 0
  | node _ c n => 1 + chainSize c + chainSize n

/-- Number of entries of the subtree of a node: the node and everything
below it (its own siblings are not part of its subtree). -/
def subtreeSize : FileSystemEntry → Nat
  | null => 0
  | node _ c _ => 1 + chainSize c

/-- All nodes reachable from a pointer through `children` and `next`, in
pre-order. -/
def chainNodes : FileSystemEntry → List FileSystemEntry
  | null => []
  | node d c n => node d c n :: (chainNodes c ++ chainNodes n)

/-- The entries strictly below a node, in pre-order. -/
def descendants (e : FileSystemEntry) : List FileSystemEntry :=
  chainNodes e.childrenPtr

/-- The field `isDirectory` of a node (`false` for NULL). -/
def isDir : FileSystemEntry → Bool
  | null => false
  | node d _ _ => d.isDirectory

/-- The fields `name` and `isDirectory` of a node. -/
def info : FileSystemEntry → CString × Bool
  | null => ([], false)
  | node d _ _ => (d.name, d.isDirectory)

/-- The field `next` of a node (NULL for NULL). -/
def nextPtr : FileSystemEntry → FileSystemEntry
  | null => null
  | node _ _ n => n

/-- Number of nodes with `isDirectory` set that are reachable from a pointer
through `children` and `next`. -/
def chainDirCount : FileSystemEntry → Nat
  | null => 0
  | node d c n => (if d.isDirectory then 1 else 0) + chainDirCount c + chainDirCount n

end FileSystemEntry

open FileSystemEntry

/-- `createEntry(name, isDirectory, parent)` with the static counter
`lastUsedId` passed in and returned.  `createEntry` leaves `fullPath`
unset; the model holds the empty string there until `setFullPath` runs. -/
def createEntry (name : CString) (isDirectory : Bool) (parent : FileSystemEntry)
    (lastUsedId : Int) : FileSystemEntry × Int :=
  let id := lastUsedId + 1
  let parentId : Int :=
    match parent with
    | node pd _ _ => pd.id
    | null => -1
  (node ⟨id, name, [], isDirectory, false, parentId⟩ null null, id)

/-- `addChild(parent, child)`: `child` becomes the first child; the result is
the updated parent. -/
def addChild (parent child : FileSystemEntry) : FileSystemEntry :=
  match parent, child with
  | node pd pc pn, node cd cc _ => node pd (node cd cc pc) pn
  | parent, _ => parent

/-- `setFullPath(entry, parentPath, entryName)`: `"%s/%s"`. -/
def setFullPath (entry : FileSystemEntry) (parentPath entryName : CString) :
    FileSystemEntry :=
  match entry with
  | null => null
  | node d c n => node { d with fullPath := parentPath ++ '/' :: entryName } c n

/-- The loop of `removeEmptyDirectories` over a sibling chain starting at
`currentChild`: the number of removed nodes and the chain that is left.  For
a directory, the recursive call `removeEmptyDirectories(currentChild)` is
this same loop on the children of `currentChild`. -/
def pruneChain : FileSystemEntry → Int × FileSystemEntry
  | null => (0, null)
  | node d c n =>
    if d.isDirectory then
      let sub := pruneChain c
      let rest := pruneChain n
      match sub.2 with
      | null => (sub.1 + 1 + rest.1, rest.2)
      | node d1 c1 n1 => (sub.1 + rest.1, node d (node d1 c1 n1) rest.2)
    else
      let rest := pruneChain n
      (rest.1, node d c rest.2)

/-- `removeEmptyDirectories(node)`: the returned count and the node as the
call leaves it. -/
def removeEmptyDirectories : FileSystemEntry → Int × FileSystemEntry
  | null => (0, null)
  | node d c n => ((pruneChain c).1, node d (pruneChain c).2 n)

/-- `stringToUpperWithoutSpaces`. -/
def stringToUpperWithoutSpaces (str : CString) : CString :=
  (str.filter fun c => !isspace c).map toupper

/-- `compareLibEntries` on the two `d_name`s. -/
def compareLibEntries (a b : CString) : Int :=
  let nameA := stringToUpperWithoutSpaces a
  let nameB := stringToUpperWithoutSpaces b
  if nameA.head? = some '_' ∧ nameB.head? ≠ some '_' then 1
  else if nameA.head? ≠ some '_' ∧ nameB.head? = some '_' then -1
  else strcmp nameB nameA

/-- The normalised form of a name begins with the marker `_`. -/
def hasMarker (name : CString) : Bool :=
  (stringToUpperWithoutSpaces name).head? == some '_'

/-- The sibling order that the specification states for a directory after the
build, following its words: the names whose normalised form begins with `_`
in ascending normalised order, followed by the remaining names in ascending
normalised order. -/
def netOrder (names : List CString) : List CString :=
  (names.filter hasMarker).insertionSort
      (fun a b => strcmp (stringToUpperWithoutSpaces a) (stringToUpperWithoutSpaces b) ≤ 0) ++
    (names.filter fun n => !hasMarker n).insertionSort
      (fun a b => strcmp (stringToUpperWithoutSpaces a) (stringToUpperWithoutSpaces b) ≤ 0)

/-! ## The filesystem seen by `readDirectory` -/

/-- The array `entries` that `scandir(path, &entries, NULL, compareLibEntries)`
fills, in the order in which `scandir` returns it.  Every element carries what
the filesystem answers for `path/d_name`: `stat` is the file kind read from
`st_mode` (`none` when `stat` returns `-1`), `opens` tells whether `opendir`
and `scandir` succeed on it, and `sub` is the array `scandir` returns for it.
Paths are taken to fit in `MAXPATHLEN`. -/
inductive Dirents where
  | nil
  | cons (d_name : CString) (stat : Option FileKind) (opens : Bool)
      (sub : Dirents) (rest : Dirents)
  deriving DecidableEq, Repr

/-- One element of a `scandir` array. -/
structure Dirent where
  d_name : CString
  stat : Option FileKind
  opens : Bool
  sub : Dirents
  deriving DecidableEq, Repr

/-- The elements of a `scandir` array, first to last. -/
def Dirents.toList : Dirents → List Dirent
  | .nil => []
  | .cons name st o sub rest => ⟨name, st, o, sub⟩ :: rest.toList

/-- The array with the given elements. -/
def Dirents.ofList : List Dirent → Dirents
  | [] => .nil
  | e :: es => .cons e.d_name e.stat e.opens e.sub (Dirents.ofList es)

/-- The helpers `extractExtension` and `match_regex` and the pattern
`AUDIO_EXTENSIONS` are declared outside the sources; `readDirectory` takes
them as parameters.  `match_regex` returns `0` on a match. -/
structure AudioMatcher where
  extractExtension : CString → CString
  match_regex : CString → Int

/-- The result of `readDirectory`: the returned count, the parent as the call
leaves it, and the counter `lastUsedId`. -/
structure ReadResult where
  numEntries : Int
  parent : FileSystemEntry
  lastUsedId : Int
  deriving DecidableEq, Repr

/-- The `for` loop of `readDirectory(path, parent)` over the rest of the
`scandir` array, with the running `numEntries`.  A child is attached by
`addChild` before the recursive call fills it; the model attaches the child
once the recursive call has returned, which yields the same structure. -/
def readEntries (M : AudioMatcher) (path : CString) :
    Dirents → FileSystemEntry → Int → Int → ReadResult
  | .nil, parent, numEntries, lastUsedId => ⟨numEntries, parent, lastUsedId⟩
  | .cons d_name st opens sub rest, parent, numEntries, lastUsedId =>
    if d_name.head? ≠ some '.' ∧ strcmp d_name ['.'] ≠ 0 ∧ strcmp d_name ['.', '.'] ≠ 0 then
      match st with
      | none => readEntries M path rest parent numEntries lastUsedId
      | some kind =>
        let isDirectory : Bool := !(kind == FileKind.regular)
        let isAudio := M.match_regex (M.extractExtension d_name)
        if isAudio = 0 ∨ isDirectory = true then
          let created := createEntry d_name isDirectory parent lastUsedId
          let child := setFullPath created.1 path d_name
          if isDirectory = true then
            let childPath := path ++ '/' :: d_name
            let inner : ReadResult :=
              if opens = true then readEntries M childPath sub child 0 created.2
              else ⟨0, child, created.2⟩
            readEntries M path rest (addChild parent inner.parent)
              (numEntries + 1 + inner.numEntries) inner.lastUsedId
          else
            readEntries M path rest (addChild parent child) numEntries created.2
        else readEntries M path rest parent numEntries lastUsedId
    else readEntries M path rest parent numEntries lastUsedId

/-- `readDirectory(path, parent)`: `opens` tells whether `opendir` and
`scandir` succeed on `path`, `entries` is the array `scandir` returns. -/
def readDirectory (M : AudioMatcher) (path : CString) (parent : FileSystemEntry)
    (opens : Bool) (entries : Dirents) (lastUsedId : Int) : ReadResult :=
  if opens = true then readEntries M path entries parent 0 lastUsedId
  else ⟨0, parent, lastUsedId⟩

/-- The entries that `readDirectory` materialises: the name does not begin
with `.`, `stat` succeeds, and the entry is not a regular file or its
extension matches. -/
def qualifies (M : AudioMatcher) (e : Dirent) : Bool :=
  e.d_name.head? != some '.' && e.stat.isSome &&
    (e.stat != some FileKind.regular || M.match_regex (M.extractExtension e.d_name) == 0)

/-- The value of `isDirectory` that `readDirectory` computes for an entry:
set unless `S_ISREG` holds. -/
def classifiedAsDirectory (e : Dirent) : Bool := e.stat != some FileKind.regular

/-- The id that `createEntry` stores in `parentId` for a given parent. -/
def parentIdFor : FileSystemEntry → Int
  | node pd _ _ => pd.id
  | null => -1

/-- The result of `createDirectoryTree`: the returned root, the value stored
in `*numEntries`, and the counter `lastUsedId` when the call returns. -/
structure BuildResult where
  root : FileSystemEntry
  numEntries : Int
  lastUsedId : Int
  deriving DecidableEq, Repr

/-- The tree of `createDirectoryTree` before `removeEmptyDirectories` runs. -/
def buildRaw (M : AudioMatcher) (startPath : CString) (opens : Bool)
    (entries : Dirents) (lastUsedId : Int) : ReadResult :=
  let created := createEntry ['r', 'o', 'o', 't'] true null lastUsedId
  let root := setFullPath created.1 [] []
  readDirectory M startPath root opens entries created.2

/-- `createDirectoryTree(startPath, numEntries)`. -/
def createDirectoryTree (M : AudioMatcher) (startPath : CString) (opens : Bool)
    (entries : Dirents) (lastUsedId : Int) : BuildResult :=
  let built := buildRaw M startPath opens entries lastUsedId
  let pruned := removeEmptyDirectories built.parent
  ⟨pruned.2, built.numEntries - pruned.1, 0⟩

/-! ## Writing the tree -/

/-- Decimal digit `n % 10` as a character. -/
def digitChar (n : Nat) : Char := Char.ofNat (48 + n % 10)

/-- The decimal digits of `n` in front of `acc`; `fuel` bounds the number of
digits. -/
def printNatAux : Nat → Nat → List Char → List Char
  | 0, _, acc => acc
  | fuel + 1, n, acc =>
    if n < 10 then digitChar n :: acc
    else printNatAux fuel (n / 10) (digitChar n :: acc)

/-- What `%d` prints for a natural number. -/
def printNat (n : Nat) : List Char := printNatAux (n + 1) n []

/-- What `%d` prints. -/
def printInt : Int → List Char
  | Int.ofNat n => printNat n
  | Int.negSucc n => '-' :: printNat (n + 1)

/-- The `int` that `%d` receives for a boolean field. -/
def boolToInt (b : Bool) : Int := if b then 1 else 0

/-- The output of `fprintf(file, "%d\t%s\t%d\t%d\n", id, name, isDirectory, parentId)`. -/
def fprintfRecord (id : Int) (name : CString) (isDirectory : Bool) (parentId : Int) :
    List Char :=
  printInt id ++ '\t' :: (name ++ '\t' :: (printInt (boolToInt isDirectory) ++
    '\t' :: (printInt parentId ++ ['\n'])))

/-- The `while (child)` loop of `writeTreeToFile`, started at `child` with
the id of the node that owns the chain: for every sibling, its own record,
then the records of its subtree.  One list element per `fprintf` call. -/
def writeChain : FileSystemEntry → Int → List (List Char)
  | null, _ => []
  | node d c n, parentId =>
    (fprintfRecord d.id d.name d.isDirectory parentId :: writeChain c d.id) ++
      writeChain n parentId

/-- `writeTreeToFile(node, file, parentId)`: the outputs of the `fprintf`
calls, in order. -/
def writeTreeToFile : FileSystemEntry → Int → List (List Char)
  | null, _ => []
  | node d c _, parentId =>
    fprintfRecord d.id d.name d.isDirectory parentId :: writeChain c d.id

/-- `freeAndWriteTree(root, filename)` when the file can be opened: the
content of the file after `fclose`. -/
def freeAndWriteTree (root : FileSystemEntry) : List Char :=
  (writeTreeToFile root (-1)).flatten

/-- The lines of a text: every line ends with its newline, except possibly
the last one. -/
def textLines : List Char → List (List Char)
  | [] => []
  | c :: s =>
    if c = '\n' then [c] :: textLines s
    else
      match textLines s with
      | [] => [[c]]
      | l :: ls => (c :: l) :: ls

/-! ## Reading the file back -/

/-- The values that one successful `sscanf` stores: `id`, `name`,
`isDirectory`, `parentId`. -/
structure Record where
  id : Int
  name : CString
  isDirectory : Int
  parentId : Int
  deriving DecidableEq, Repr

/-- A white-space directive of a `scanf` format (here `\t`): skips any amount
of white space, including none. -/
def skipSpace (s : List Char) : List Char := s.dropWhile isspace

/-- Value of a string of decimal digits. -/
def digitsValue (ds : List Char) : Nat :=
  ds.foldl (fun v c => 10 * v + (c.toNat - 48)) 0

/-- The largest value of a C `int`. -/
def INT_MAX : Int := 2147483647

/-- The largest value of a C `long` (64 bits). -/
def LONG_MAX : Int := 9223372036854775807

/-- The `int` that `%d` stores for a numeral of value `v`: the C library
converts the digits as `strtol` does, which saturates at the ends of `long`,
and assigns the `long` to the `int`, which keeps the low 32 bits.  A value
within `int` is stored as it is. -/
def storeInt (v : Int) : Int :=
  let l : Int := if LONG_MAX < v then LONG_MAX else if v < -LONG_MAX - 1 then -LONG_MAX - 1 else v
  (l + 2147483648) % 4294967296 - 2147483648

/-- The conversion `%d`: skips white space, reads an optional sign and at
least one decimal digit.  Returns the stored `int` and the unread input. -/
def scanInt (s : List Char) : Option (Int × List Char) :=
  let body : Bool × List Char :=
    match skipSpace s with
    | '-' :: t => (true, t)
    | '+' :: t => (false, t)
    | t => (false, t)
  let ds := body.2.takeWhile Char.isDigit
  if ds = [] then none
  else
    some (storeInt (if body.1 then -(digitsValue ds : Int) else (digitsValue ds : Int)),
      body.2.dropWhile Char.isDigit)

/-- The conversion `%255[^\t]`: a non-empty run of at most 255 characters
other than the tab; white space is not skipped. -/
def scanName (s : List Char) : Option (CString × List Char) :=
  let field := (s.takeWhile fun c => c != '\t').take 255
  if field = [] then none else some (field, s.drop field.length)

/-- `sscanf(line, "%d\t%255[^\t]\t%d\t%d", &id, name, &isDirectory, &parentId) == 4`:
the four stored values, or `none` when fewer than four conversions succeed. -/
def sscanfRecord (line : List Char) : Option Record :=
  match scanInt line with
  | none => none
  | some (id, r1) =>
    match scanName (skipSpace r1) with
    | none => none
    | some (name, r2) =>
      match scanInt (skipSpace r2) with
      | none => none
      | some (isDirectory, r3) =>
        match scanInt (skipSpace r3) with
        | none => none
        | some (parentId, _) => some ⟨id, name, isDirectory, parentId⟩

/-- One `fgets(line, size, file)` with `n = size - 1`: the characters stored
(at most `n`, ending after the first newline) and the rest of the file. -/
def fgets : Nat → List Char → List Char × List Char
  | 0, s => ([], s)
  | _ + 1, [] => ([], [])
  | n + 1, c :: s =>
    if c = '\n' then ([c], s) else ((c :: (fgets n s).1), (fgets n s).2)

/-- The successive results of `fgets(line, sizeof(line), file)` with
`char line[1024]` until end of file; `fuel` bounds the number of calls. -/
def readLines : Nat → List Char → List (List Char)
  | 0, _ => []
  | fuel + 1, s =>
    match s with
    | [] => []
    | c :: t => (fgets 1023 (c :: t)).1 :: readLines fuel (fgets 1023 (c :: t)).2

/-- All lines that the `while (fgets(...))` loop sees; every call consumes at
least one character, so `content.length` calls are enough. -/
def fileLines (content : List Char) : List (List Char) :=
  readLines content.length content

/-- A heap cell holding one `FileSystemEntry` allocated by
`reconstructTreeFromFile`.  Pointers are positions in the heap.  A field that
has not been stored since `malloc` (`parentId` always, `fullPath` until
`setFullPath` stores it) is `none`: its content is indeterminate. -/
structure HeapEntry where
  id : Int
  name : CString
  fullPath : Option CString
  isDirectory : Bool
  isEnqueued : Bool
  parentId : Option Int
  parent : Option Nat
  children : Option Nat
  next : Option Nat
  deriving DecidableEq, Repr

/-- Ways in which an execution of `reconstructTreeFromFile` leaves defined
behaviour: an access to `nodes` outside its capacity, a dereference of a
pointer that is not allocated, a sibling walk that does not end, an `int`
addition whose result is beyond `INT_MAX`, a read of a field that has not
been stored since `malloc`. -/
inductive Fault where
  | outOfBounds (index capacity : Int)
  | badPointer
  | endlessWalk
  | intOverflow
  | uninitialisedRead
  deriving DecidableEq, Repr

/-- The local variables of `reconstructTreeFromFile`, the heap, and the
counter behind `numDirectoryEntries`. -/
structure ReconState where
  heap : List HeapEntry
  nodes : List (Option Nat)
  nodesCount : Int
  nodesCapacity : Int
  oldCapacity : Int
  root : Option Nat
  numDirectoryEntries : Int
  deriving DecidableEq, Repr

/-- `resizeNodesArray(nodes, oldSize, newSize)`: `realloc` keeps the old
slots, the slots from `oldSize` on are set to NULL. -/
def resizeNodesArray (nodes : List (Option Nat)) (oldSize newSize : Int) :
    List (Option Nat) :=
  (nodes.take oldSize.toNat).take newSize.toNat ++
    List.replicate (newSize.toNat - oldSize.toNat) none

/-- Store through a pointer: the cell at `p` is replaced by `f` of it. -/
def modifyCell (heap : List HeapEntry) (p : Nat) (f : HeapEntry → HeapEntry) :
    List HeapEntry :=
  match heap[p]? with
  | some e => heap.set p (f e)
  | none => heap

/-- The loop `while (child->next) child = child->next;`: the last cell of
the sibling chain of `child`; `fuel` bounds the number of steps. -/
def lastSibling (heap : List HeapEntry) : Nat → Nat → Option Nat
  | 0, _ => none
  | fuel + 1, child =>
    match heap[child]? with
    | none => none
    | some e =>
      match e.next with
      | none => some child
      | some nx => lastSibling heap fuel nx

/-- `setFullPath(node, parentPath, entryName)` on a heap cell; a NULL
`parentPath` leaves the cell as it is. -/
def setFullPathCell (parentPath : Option CString) (entryName : CString)
    (e : HeapEntry) : HeapEntry :=
  match parentPath with
  | none => e
  | some pp => { e with fullPath := some (pp ++ '/' :: entryName) }

/-- The first statements of the branch `if (parentId >= 0 && nodes[parentId])`:
`node->parent = nodes[parentId]`, then `node` is put at the end of the child
list of `p = nodes[parentId]`.  The heap after them. -/
def linkChild (heap : List HeapEntry) (node p : Nat) : Except Fault (List HeapEntry) :=
  match heap[p]? with
  | none => .error .badPointer
  | some pe =>
    let heap1 := modifyCell heap node fun e => { e with parent := some p }
    match pe.children with
    | some c =>
      match lastSibling heap1 heap1.length c with
      | none => .error .endlessWalk
      | some last => .ok (modifyCell heap1 last fun e => { e with next := some node })
    | none => .ok (modifyCell heap1 p fun e => { e with children := some node })

/-- The branch `if (parentId >= 0 && nodes[parentId])` taken: `node` is linked
below `p = nodes[parentId]`, then `setFullPath(node, nodes[parentId]->fullPath,
node->name)` reads the `fullPath` of `p`, which must have been stored, and
the counter is incremented for a directory. -/
def attachChild (s : ReconState) (node p : Nat) (r : Record) : Except Fault ReconState :=
  match linkChild s.heap node p with
  | .error f => .error f
  | .ok heap2 =>
    match heap2[p]? with
    | none => .error .badPointer
    | some pe2 =>
      match pe2.fullPath with
      | none => .error .uninitialisedRead
      | some parentPath =>
        .ok { s with
          heap := modifyCell heap2 node (setFullPathCell (some parentPath) r.name)
          numDirectoryEntries :=
            if r.isDirectory ≠ 0 then s.numDirectoryEntries + 1 else s.numDirectoryEntries }

/-- The `else` branch: `node` becomes the root. -/
def makeRoot (startMusicPath : CString) (s : ReconState) (node : Nat) : ReconState :=
  { s with
    root := some node
    heap := modifyCell s.heap node (setFullPathCell (some startMusicPath) []) }

/-- The block `if (id >= nodesCapacity) { ... }`: the table grows to
`id + 100` slots. -/
def growTable (s : ReconState) (id : Int) : ReconState :=
  if id ≥ s.nodesCapacity then
    { s with
      oldCapacity := s.nodesCapacity
      nodesCapacity := id + 100
      nodes := resizeNodesArray s.nodes s.nodesCapacity (id + 100) }
  else s

/-- The body of the `while` loop of `reconstructTreeFromFile` for one line on
which `sscanf` returned 4.  The new capacity `id + 100` is computed in `int`:
when the table has to grow for an id above `INT_MAX - 100` the addition
overflows. -/
def reconstructRecord (startMusicPath : CString) (s : ReconState) (r : Record) :
    Except Fault ReconState :=
  if s.nodesCapacity ≤ r.id ∧ INT_MAX < r.id + 100 then .error .intOverflow
  else
  let s1 : ReconState := growTable s r.id
  let node := s1.heap.length
  let cell : HeapEntry :=
    { id := r.id, name := r.name, fullPath := none, isDirectory := decide (r.isDirectory ≠ 0),
      isEnqueued := false, parentId := none, parent := none, children := none, next := none }
  if 0 ≤ r.id ∧ r.id < s1.nodes.length then
    let s2 : ReconState :=
      { s1 with
        heap := s1.heap ++ [cell]
        nodes := s1.nodes.set r.id.toNat (some node)
        nodesCount := s1.nodesCount + 1 }
    if r.parentId ≥ 0 then
      if r.parentId < s2.nodes.length then
        match s2.nodes.getD r.parentId.toNat none with
        | some p => attachChild s2 node p r
        | none => .ok (makeRoot startMusicPath s2 node)
      else .error (.outOfBounds r.parentId s2.nodes.length)
    else .ok (makeRoot startMusicPath s2 node)
  else .error (.outOfBounds r.id s1.nodes.length)

/-- The `while` loop over the records of the lines on which `sscanf`
returned 4. -/
def reconstructRecords (startMusicPath : CString) :
    List Record → ReconState → Except Fault ReconState
  | [], s => .ok s
  | r :: rs, s =>
    match reconstructRecord startMusicPath s r with
    | .ok s1 => reconstructRecords startMusicPath rs s1
    | .error f => .error f

/-- The state before the first `fgets`: `calloc(1000, ...)` gives 1000 NULL
slots. -/
def initialState (numDirectoryEntries : Int) : ReconState :=
  { heap := [], nodes := List.replicate 1000 none, nodesCount := 0, nodesCapacity := 1000,
    oldCapacity := 0, root := none, numDirectoryEntries := numDirectoryEntries }

/-- `reconstructTreeFromFile(filename, startMusicPath, numDirectoryEntries)`
for a file that can be opened and has the given content.  The final state
holds the returned `root`, the heap it points into and the counter; the
lines on which `sscanf` does not return 4 are skipped. -/
def reconstructTreeFromFile (content : List Char) (startMusicPath : CString)
    (numDirectoryEntries : Int) : Except Fault ReconState :=
  reconstructRecords startMusicPath ((fileLines content).filterMap sscanfRecord)
    (initialState numDirectoryEntries)

/-- The child list of the cell at `p`, front to back, as pointers: follows
`children` and then `next`; `none` when a pointer is not allocated or the
walk does not end within `fuel` steps. -/
def walkChain (heap : List HeapEntry) : Nat → Option Nat → Option (List Nat)
  | _, none => some []
  | 0, some _ => none
  | fuel + 1, some q =>
    match heap[q]? with
    | none => none
    | some e =>
      match walkChain heap fuel e.next with
      | none => none
      | some l => some (q :: l)

/-- The child list of the cell at `p`. -/
def childrenOf (heap : List HeapEntry) (p : Nat) : Option (List Nat) :=
  match heap[p]? with
  | none => none
  | some e => walkChain heap heap.length e.children

/-! ## Vocabulary for statements about the build -/

/-- The field `fullPath` of a node (empty for NULL). -/
def fullPathOf : FileSystemEntry → CString
  | null => []
  | node d _ _ => d.fullPath

/-- The field `name` of a node (empty for NULL). -/
def nameOf : FileSystemEntry → CString
  | null => []
  | node d _ _ => d.name

/-- The entries reachable from a pointer in the order in which `readDirectory`
created them: `addChild` puts the newest child in front, so the siblings
behind a node were created before it and its children after it. -/
def creationChain : FileSystemEntry → List EntryData
  | null => []
  | node d c n => creationChain n ++ d :: creationChain c

/-- The `n` ids that follow the counter value `c`: `c + 1`, ..., `c + n`. -/
def idRange (c : Int) (n : Nat) : List Int :=
  (List.range n).map fun (k : Nat) => c + 1 + (k : Int)

/-- Every node reachable from the pointer stores in `parentId` the id of the
node that owns it and has a greater id than its owner; `owner` is the id of
the owner of the chain. -/
def OwnedBy : Int → FileSystemEntry → Prop
  | _, null => True
  | owner, node d c n => d.parentId = owner ∧ owner < d.id ∧ OwnedBy d.id c ∧ OwnedBy owner n

/-! ## Vocabulary for statements about pruning -/

/-- Some entry that is not a directory is reachable from the pointer through
`children` and `next`. -/
def chainHasFile : FileSystemEntry → Bool
  | null => false
  | node d c n => !d.isDirectory || chainHasFile c || chainHasFile n

/-- The pruned chain in the words of the specification: an entry is kept
exactly when it is not a directory or its subtree contains an entry that is
not a directory; the kept entries keep their fields and their order. -/
def pruneSpec : FileSystemEntry → FileSystemEntry
  | null => null
  | node d c n =>
    if !d.isDirectory || chainHasFile c then node d (pruneSpec c) (pruneSpec n)
    else pruneSpec n

/-- The loop of `removeEmptyDirectories` keeps the child `e`: it is not a
directory, or it has a child after its own pruning. -/
def survivesPruning (e : FileSystemEntry) : Bool :=
  !e.isDir || (pruneChain e.childrenPtr).2 != null

/-- The field `children` of the child `e` after the loop: pruned for a
directory, untouched otherwise. -/
def prunedChildren (e : FileSystemEntry) : FileSystemEntry :=
  if e.isDir then (pruneChain e.childrenPtr).2 else e.childrenPtr

/-! ## Vocabulary for statements about the round trip -/

/-- The scalar fields of all nodes reachable from a pointer through
`children` and `next`, in pre-order. -/
def chainData : FileSystemEntry → List EntryData
  | null => []
  | node d c n => d :: (chainData c ++ chainData n)

/-- The scalar fields of the entries of the subtree of a node, in pre-order,
the node first. -/
def subtreeData : FileSystemEntry → List EntryData
  | null => []
  | node d c _ => d :: chainData c

/-- The nodes reachable from a pointer, in pre-order, each as the record of
its id, name, `isDirectory` and the id of the node that owns it; `owner` is
the id of the owner of the chain. -/
def chainRecords : FileSystemEntry → Int → List Record
  | null, _ => []
  | node d c n, owner =>
    ⟨d.id, d.name, boolToInt d.isDirectory, owner⟩ ::
      (chainRecords c d.id ++ chainRecords n owner)

/-- The entries of the subtree of a node, in pre-order, each as the record of
its id, name, `isDirectory` and the id of the node that owns it; the root
has `owner`. -/
def treeRecords : FileSystemEntry → Int → List Record
  | null, _ => []
  | node d c _, owner => ⟨d.id, d.name, boolToInt d.isDirectory, owner⟩ :: chainRecords c d.id

/-- The field `id` of a node (0 for NULL). -/
def idOf : FileSystemEntry → Int
  | null => 0
  | node d _ _ => d.id

/-- All names of a `scandir` array and of the arrays below it. -/
def Dirents.names : Dirents → List CString
  | .nil => []
  | .cons d_name _ _ sub rest => d_name :: (sub.names ++ rest.names)

/-- Every node reachable from the pointer has the `fullPath` that
`readDirectory` gives it when the chain belongs to the directory `path`:
`path/name`, and below a node the directory is the `fullPath` of the node. -/
def PathsUnder : CString → FileSystemEntry → Prop
  | _, null => True
  | path, node d c n =>
    d.fullPath = path ++ '/' :: d.name ∧ PathsUnder d.fullPath c ∧ PathsUnder path n

/-- A name that survives the file format: not empty, at most 255 bytes, no
tab, no newline, and no white space in front. -/
def PersistableName (name : CString) : Prop :=
  name ≠ [] ∧ name.length ≤ 255 ∧ '\t' ∉ name ∧ '\n' ∉ name ∧
    name.head?.map isspace ≠ some true

instance (name : CString) : Decidable (PersistableName name) := by
  unfold PersistableName
  exact inferInstance

/-! ## Vocabulary for statements about the heap -/

/-- The field `next` of the cell at `q`, when `q` is allocated. -/
def nextOf (heap : List HeapEntry) (q : Nat) : Option (Option Nat) :=
  (heap[q]?).map fun e => e.next

/-- The pointer `p` heads the sibling chain `l`: `l` lists the cells reached
from `p` by following `next` up to NULL. -/
def IsChain (heap : List HeapEntry) : Option Nat → List Nat → Prop
  | p, [] => p = none
  | p, q :: l => p = some q ∧ ∃ nx, nextOf heap q = some nx ∧ IsChain heap nx l

/-- The positions of the records whose `parentId` is `pid`, in file order. -/
def kids (recs : List Record) (pid : Int) : List Nat :=
  (recs.enum.filter fun p => p.2.parentId == pid).map Prod.fst

/-- A well-formed file, as records: pairwise distinct ids between 0 and
`INT_MAX - 100`, the first record has `parentId` -1, and the `parentId` of
every later record is the id of an earlier record. -/
def WellFormedRecords (recs : List Record) : Prop :=
  (recs.map fun r => r.id).Nodup ∧
    (∀ r ∈ recs, 0 ≤ r.id ∧ r.id ≤ INT_MAX - 100) ∧
    (∀ r, recs[0]? = some r → r.parentId = -1) ∧
    (∀ (i : Nat) (r : Record), 0 < i → recs[i]? = some r →
      ∃ (j : Nat) (rj : Record), j < i ∧ recs[j]? = some rj ∧ rj.id = r.parentId)

/-- The number of records after the first whose `isDirectory` is not 0. -/
def attachedDirectories (recs : List Record) : Int :=
  Int.ofNat (recs.tail.filter fun r => r.isDirectory != 0).length

/-- What `reconstructTreeFromFile` has built after the records `done` of a
well-formed file: cell `i` holds record `i`; the table maps every id to its
cell; the child list of a cell is the list of the records naming it as
parent, in file order; the first cell is the root with `fullPath`
`startMusicPath/`, every other cell points to its parent and has `fullPath`
`parent->fullPath/name`. -/
structure ReconInv (sp : CString) (k0 : Int) (done : List Record) (s : ReconState) : Prop where
  len : s.heap.length = done.length
  cap : s.nodesCapacity = (s.nodes.length : Int)
  table : ∀ (i : Nat) (r : Record), done[i]? = some r →
    s.nodes[r.id.toNat]? = some (some i)
  root : s.root = if done = [] then none else some 0
  count : s.numDirectoryEntries = k0 + attachedDirectories done
  cell : ∀ (i : Nat) (r : Record), done[i]? = some r →
    ∃ e : HeapEntry, s.heap[i]? = some e ∧ e.id = r.id ∧ e.name = r.name ∧
      e.isDirectory = decide (r.isDirectory ≠ 0) ∧
      IsChain s.heap e.children (kids done r.id) ∧
      (i = 0 → e.parent = none ∧ e.fullPath = some (sp ++ ['/'])) ∧
      (0 < i → ∃ (j : Nat) (rj : Record) (ej : HeapEntry) (pp : CString), j < i ∧ done[j]? = some rj ∧ rj.id = r.parentId ∧
        e.parent = some j ∧ s.heap[j]? = some ej ∧ ej.fullPath = some pp ∧
        e.fullPath = some (pp ++ '/' :: r.name))

/-- The cell at `q` is the first child or the next sibling of the cell
at `p`. -/
def Linked (heap : List HeapEntry) (p q : Nat) : Prop :=
  ∃ e : HeapEntry, heap[p]? = some e ∧ (e.children = some q ∨ e.next = some q)

/-- No cell is reachable from itself by following `children` and `next`. -/
def Acyclic (heap : List HeapEntry) : Prop :=
  ∀ p, ¬ Relation.TransGen (Linked heap) p p

/-- No cell is its own parent. -/
def NoOwnParent (heap : List HeapEntry) : Prop :=
  ∀ (p : Nat) (e : HeapEntry), heap[p]? = some e → e.parent ≠ some p

/-- The pointers of the cell `e` at position `p` of a heap of `size` cells
respect the order of allocation: `children` and `next` point to cells
allocated later, `parent` to a cell allocated earlier. -/
def CellForward (size p : Nat) (e : HeapEntry) : Prop :=
  (∀ q, e.children = some q → p < q ∧ q < size) ∧
    (∀ q, e.next = some q → p < q ∧ q < size) ∧
    (∀ q, e.parent = some q → q < p)

/-- Every cell of the heap respects the order of allocation. -/
def HeapForward (heap : List HeapEntry) : Prop :=
  ∀ (p : Nat) (e : HeapEntry), heap[p]? = some e → CellForward heap.length p e

/-- Records that `reconstructTreeFromFile` processes within the table and
within `int`: every id lies between 0 and `INT_MAX - 100`, no record names
itself as parent, and every `parentId` is negative, below 1000, or the id of
an earlier record.  Ids may repeat, and a parent below 1000 may be missing or
come later. -/
def IndexableRecords (recs : List Record) : Prop :=
  (∀ r ∈ recs, 0 ≤ r.id ∧ r.id ≤ INT_MAX - 100 ∧ r.parentId ≠ r.id) ∧
    ∀ p ∈ recs.enum, p.2.parentId < 1000 ∨
      p.2.parentId ∈ (recs.take p.1).map fun r => r.id

instance (recs : List Record) : Decidable (IndexableRecords recs) := by
  unfold IndexableRecords
  exact inferInstance

/-- What `reconstructTreeFromFile` maintains for indexable records: the
table has its capacity, at least 1000 slots, its entries are allocated
cells, the heap respects the order of allocation, and every cell has its
`fullPath` stored. -/
structure LinksForward (s : ReconState) : Prop where
  cap : s.nodesCapacity = (s.nodes.length : Int)
  capMin : 1000 ≤ s.nodes.length
  table : ∀ (k p : Nat), s.nodes[k]? = some (some p) → p < s.heap.length
  heap : HeapForward s.heap
  paths : ∀ (p : Nat) (e : HeapEntry), s.heap[p]? = some e → e.fullPath ≠ none

/-- The file of one line whose record names itself as its parent. -/
def fileOwnParent : List Char := "5\tx\t1\t5\n".toList

/-- A file in which the ids 1500 and 7 are repeated and name each other as
parent. -/
def fileRepeatedId : List Char :=
  "1500\ta\t1\t7\n7\tb\t1\t1500\n1500\tc\t0\t7\n7\td\t1\t1500\n".toList

/-! ## Example inputs -/

/-- A stand-in for the helpers declared outside the sources: the extension
is what follows the last `.` of the name, and it matches when it is `mp3`. -/
def exampleMatcher : AudioMatcher where
  extractExtension := fun name =>
    (name.reverse.takeWhile fun c => c != '.').reverse
  match_regex := fun ext => if ext = ['m', 'p', '3'] then 0 else 1

/-- A directory that holds the single regular file `a.mp3`. -/
def listingOneAudioFile : Dirents :=
  .cons ['a', '.', 'm', 'p', '3'] (some FileKind.regular) false .nil .nil

/-- A directory that holds a single FIFO named `p`: `stat` succeeds and
reports neither a regular file nor a directory, `opendir` fails on it. -/
def listingOneFifo : Dirents :=
  .cons ['p'] (some FileKind.other) false .nil .nil

/-- A directory with the hidden file `.x`, the audio file `a.mp3`, the text
file `n.txt`, the directory `S` and the dangling link `l`. -/
def listingMixed : Dirents :=
  .cons ['.', 'x'] (some FileKind.regular) false .nil
    (.cons ['a', '.', 'm', 'p', '3'] (some FileKind.regular) false .nil
      (.cons ['n', '.', 't', 'x', 't'] (some FileKind.regular) false .nil
        (.cons ['S'] (some FileKind.directory) true .nil
          (.cons ['l'] none false .nil .nil))))

/-- A directory entry that is an empty directory with the given name. -/
def emptyDir (name : CString) : Dirent := ⟨name, some FileKind.directory, true, .nil⟩

/-- The listing of the ordering example: `_z`, `_a`, `m`, `Z`, `a`. -/
def listingOrderExample : List Dirent :=
  [emptyDir ['_', 'z'], emptyDir ['_', 'a'], emptyDir ['m'], emptyDir ['Z'], emptyDir ['a']]

/-- The listing of the ordering example as `scandir` returns it, sorted with
`compareLibEntries`: `Z`, `m`, `a`, `_z`, `_a`. -/
def listingOrderExampleSorted : List Dirent :=
  [emptyDir ['Z'], emptyDir ['m'], emptyDir ['a'], emptyDir ['_', 'z'], emptyDir ['_', 'a']]

/-- The records of the file with ids 1 and 1050 in which the record of id 1
names 1050 as its parent and comes first. -/
def recordsParentOutOfRange : List Record :=
  [⟨1, ['a'], 0, 1050⟩, ⟨1050, ['b'], 1, -1⟩]

/-- The text of the file of `recordsParentOutOfRange`. -/
def fileParentOutOfRange : List Char :=
  "1\ta\t0\t1050\n1050\tb\t1\t-1\n".toList

/-- The records of the sparse-id example: id 1 is the root, 1050 its child. -/
def recordsSparse : List Record :=
  [⟨1, ['r'], 1, -1⟩, ⟨1050, ['b'], 1, 1⟩]

/-- A root directory `r` that holds the file whose name is a space followed
by `a`. -/
def treeLeadingSpace : FileSystemEntry :=
  node ⟨1, ['r'], ['/'], true, false, -1⟩
    (node ⟨2, [' ', 'a'], ['m', '/', ' ', 'a'], false, false, 1⟩ null null) null

/-- A start directory with the audio file `a.mp3` and the directory `S`
that holds the audio file `b.mp3`. -/
def listingNested : Dirents :=
  .cons ['a', '.', 'm', 'p', '3'] (some FileKind.regular) false .nil
    (.cons ['S'] (some FileKind.directory) true
      (.cons ['b', '.', 'm', 'p', '3'] (some FileKind.regular) false .nil .nil) .nil)

/-- A line of 1033 characters: 1023 times `x`, then the text of the record
`5 a 1 -1`, then the newline. -/
def longMalformedLine : List Char :=
  List.replicate 1023 'x' ++ "5\ta\t1\t-1\n".toList

/-- The line of the record with id 1, the root directory `r`. -/
def lineRecordOne : List Char := "1\tr\t1\t-1\n".toList

/-- The line of the record with id 2, the file `a` below the entry 1. -/
def lineRecordTwo : List Char := "2\ta\t0\t1\n".toList

/-- A line with two fields only. -/
def lineTwoFields : List Char := "x\ty\n".toList

/-- A single root whose id is `INT_MAX`. -/
def treeLargestId : FileSystemEntry :=
  node ⟨2147483647, ['r'], ['/'], true, false, -1⟩ null null

/-- The one record of a root whose id is `INT_MAX`. -/
def recordsLargestId : List Record := [⟨2147483647, ['r'], 1, -1⟩]

/-- A single root whose name is `a`, a newline, `b`. -/
def treeNewlineName : FileSystemEntry :=
  node ⟨1, ['a', '\n', 'b'], ['/'], true, false, -1⟩ null null

/-- The synthetic root as `createDirectoryTree` creates it. -/
def freshRoot : FileSystemEntry :=
  node ⟨1, ['r', 'o', 'o', 't'], ['/'], true, false, -1⟩ null null

/-- A root directory that holds the file `f`, below which hangs the
directory `d` without children. -/
def treeFileWithEmptyDir : FileSystemEntry :=
  node ⟨1, ['r'], ['/'], true, false, -1⟩
    (node ⟨2, ['f'], ['/', 'f'], false, false, 1⟩
      (node ⟨3, ['d'], ['/', 'f', '/', 'd'], true, false, 2⟩ null null) null) null

/-- A root directory with an empty directory `d`, a directory `m` that holds
the file `s`, and the file `t`. -/
def treeWithEmptyDir : FileSystemEntry :=
  node ⟨1, ['r'], ['/'], true, false, -1⟩
    (node ⟨2, ['d'], ['/', 'd'], true, false, 1⟩ null
      (node ⟨3, ['m'], ['/', 'm'], true, false, 1⟩
        (node ⟨4, ['s'], ['/', 'm', '/', 's'], false, false, 3⟩ null null)
        (node ⟨5, ['t'], ['/', 't'], false, false, 1⟩ null null))) null

end Kew

/-! # Theorems -/

namespace Kew

open FileSystemEntry

/-! ## Pruning -/

theorem pruneChain_size (t : FileSystemEntry) :
    (pruneChain t).1 + (chainSize (pruneChain t).2 : Int) = chainSize t := by
  induction t with
  | null => simp [pruneChain, chainSize]
  | node d c n ihc ihn =>
    unfold pruneChain
    by_cases hd : d.isDirectory = true
    · simp only [hd, if_true]
      cases hsub : (pruneChain c).2 with
      | null =>
        rw [hsub] at ihc
        simp only [chainSize] at ihc ⊢
        push_cast at ihc ⊢
        omega
      | node d1 c1 n1 =>
        rw [hsub] at ihc
        simp only [chainSize] at ihc ⊢
        push_cast at ihc ⊢
        omega
    · simp only [hd, Bool.false_eq_true, if_false, chainSize]
      push_cast
      omega

theorem pruneChain_dirCount (t : FileSystemEntry) :
    (pruneChain t).1 + (chainDirCount (pruneChain t).2 : Int) = chainDirCount t := by
  induction t with
  | null => simp [pruneChain, chainDirCount]
  | node d c n ihc ihn =>
    unfold pruneChain
    by_cases hd : d.isDirectory = true
    · simp only [hd, if_true]
      cases hsub : (pruneChain c).2 with
      | null =>
        rw [hsub] at ihc
        simp only [chainDirCount, hd, if_true] at ihc ⊢
        push_cast at ihc ⊢
        omega
      | node d1 c1 n1 =>
        rw [hsub] at ihc
        simp only [chainDirCount, hd, if_true] at ihc ⊢
        push_cast at ihc ⊢
        omega
    · simp only [hd, Bool.false_eq_true, if_false, chainDirCount]
      push_cast
      omega

theorem pruneChain_nonneg (t : FileSystemEntry) : 0 ≤ (pruneChain t).1 := by
  induction t with
  | null => simp [pruneChain]
  | node d c n ihc ihn =>
    unfold pruneChain
    by_cases hd : d.isDirectory = true
    · simp only [hd, if_true]
      cases hsub : (pruneChain c).2 <;> simp only <;> omega
    · simp only [hd, Bool.false_eq_true, if_false]
      exact ihn

/-- After the pruning loop, every directory that is left on the chain or
below it has a child, provided files had no children before. -/
theorem pruneChain_no_empty_dir (t : FileSystemEntry)
    (h : ∀ e ∈ chainNodes t, e.isDir = false → e.childrenPtr = null) :
    ∀ e ∈ chainNodes (pruneChain t).2, e.isDir = true → e.childrenPtr ≠ null := by
  induction t with
  | null => simp [pruneChain, chainNodes]
  | node d c n ihc ihn =>
    have hc : ∀ e ∈ chainNodes c, e.isDir = false → e.childrenPtr = null := by
      intro e he
      exact h e (by simp [chainNodes, he])
    have hn : ∀ e ∈ chainNodes n, e.isDir = false → e.childrenPtr = null := by
      intro e he
      exact h e (by simp [chainNodes, he])
    have hself := h (node d c n) (by simp [chainNodes])
    unfold pruneChain
    by_cases hd : d.isDirectory = true
    · simp only [hd, if_true]
      cases hsub : (pruneChain c).2 with
      | null => exact ihn hn
      | node d1 c1 n1 =>
        intro e he
        simp only [chainNodes, List.mem_cons, List.mem_append] at he
        rcases he with rfl | he | he
        · intro _
          simp [childrenPtr]
        · have := ihc hc
          rw [hsub] at this
          exact this e (by simpa [chainNodes] using he)
        · exact ihn hn e he
    · simp only [hd, Bool.false_eq_true, if_false]
      intro e he
      simp only [chainNodes, List.mem_cons, List.mem_append] at he
      have hcnull : c = null := by
        have := hself (by simpa [isDir] using hd)
        simpa [childrenPtr] using this
      rcases he with rfl | he | he
      · intro hdir
        simp [isDir] at hdir
        exact absurd hdir hd
      · subst hcnull
        simp [chainNodes] at he
      · exact ihn hn e he

/-- C6, as stated, fails: in `treeFileWithEmptyDir` the directory `d` hangs
below the file `f`; `removeEmptyDirectories` does not descend into files, so
after the call `d` is still a directory without children. -/
theorem removeEmptyDirectories_keeps_empty_dir_below_file :
    ∃ e ∈ descendants (removeEmptyDirectories treeFileWithEmptyDir).2,
      e.isDir = true ∧ e.childrenPtr = null := by
  decide

/-- C6 (amended): for every tree in which the entries below the root that are
not directories have no children, after `removeEmptyDirectories(root)` every
entry below the root with `isDirectory` set has a child, at any depth; the
root node itself is kept with its fields unchanged, whatever is left of its
child list. -/
theorem removeEmptyDirectories_no_empty_directory (t : FileSystemEntry)
    (h : ∀ e ∈ descendants t, e.isDir = false → e.childrenPtr = null) :
    (∀ e ∈ descendants (removeEmptyDirectories t).2, e.isDir = true → e.childrenPtr ≠ null) ∧
      (∀ d c n, t = node d c n → ∃ c1, (removeEmptyDirectories t).2 = node d c1 n) := by
  cases t with
  | null => simp [removeEmptyDirectories, descendants, childrenPtr, chainNodes]
  | node d c n =>
    refine ⟨?_, ?_⟩
    · simpa [removeEmptyDirectories, descendants, childrenPtr] using
        pruneChain_no_empty_dir c (by simpa [descendants, childrenPtr] using h)
    · intro d1 c1 n1 heq
      cases heq
      exact ⟨_, rfl⟩

/-- Witness of C6 (amended) on `treeWithEmptyDir`. -/
theorem removeEmptyDirectories_no_empty_directory_witness :
    (∀ e ∈ descendants treeWithEmptyDir, e.isDir = false → e.childrenPtr = null) ∧
      ((∀ e ∈ descendants (removeEmptyDirectories treeWithEmptyDir).2,
          e.isDir = true → e.childrenPtr ≠ null) ∧
        (∀ d c n, treeWithEmptyDir = node d c n →
          ∃ c1, (removeEmptyDirectories treeWithEmptyDir).2 = node d c1 n)) :=
  ⟨by decide, removeEmptyDirectories_no_empty_directory treeWithEmptyDir (by decide)⟩

/-- C7: `removeEmptyDirectories(node)` returns the number of entries of the
subtree of `node` before the call minus the number after the call; all removed
entries are directories (the number of directories below `node` drops by the
same amount); for a NULL node it returns 0. -/
theorem removeEmptyDirectories_returns_removed (t : FileSystemEntry) :
    (removeEmptyDirectories t).1 =
        (subtreeSize t : Int) - subtreeSize (removeEmptyDirectories t).2 ∧
      (removeEmptyDirectories t).1 =
        (chainDirCount t.childrenPtr : Int) -
          chainDirCount (removeEmptyDirectories t).2.childrenPtr ∧
      0 ≤ (removeEmptyDirectories t).1 ∧
      removeEmptyDirectories null = (0, null) := by
  cases t with
  | null => simp [removeEmptyDirectories, subtreeSize, chainDirCount, childrenPtr]
  | node d c n =>
    have h1 := pruneChain_size c
    have h2 := pruneChain_dirCount c
    have h3 := pruneChain_nonneg c
    simp only [removeEmptyDirectories, subtreeSize, childrenPtr]
    push_cast
    refine ⟨by omega, by omega, h3, trivial⟩

/-! ## Building -/

theorem strcmp_ne_zero_of_head (a b : CString) (h : a.head? ≠ b.head?) : strcmp a b ≠ 0 := by
  cases a with
  | nil =>
    cases b with
    | nil => simp at h
    | cons y ys => simp [strcmp]
  | cons x xs =>
    cases b with
    | nil => simp [strcmp]
    | cons y ys =>
      have hxy : x ≠ y := by simpa using h
      simp only [strcmp, hxy, if_false]
      split <;> simp

/-- One round of the `for` loop of `readDirectory`. -/
theorem readEntries_cons_eq (M : AudioMatcher) (path name : CString) (st : Option FileKind)
    (o : Bool) (sub rest : Dirents) (parent : FileSystemEntry) (n c : Int) :
    readEntries M path (.cons name st o sub rest) parent n c =
      if qualifies M ⟨name, st, o, sub⟩ = true then
        if classifiedAsDirectory ⟨name, st, o, sub⟩ = true then
          readEntries M path rest
            (addChild parent (readDirectory M (path ++ '/' :: name)
              (node ⟨c + 1, name, path ++ '/' :: name, true, false, parentIdFor parent⟩ null null)
              o sub (c + 1)).parent)
            (n + 1 + (readDirectory M (path ++ '/' :: name)
              (node ⟨c + 1, name, path ++ '/' :: name, true, false, parentIdFor parent⟩ null null)
              o sub (c + 1)).numEntries)
            (readDirectory M (path ++ '/' :: name)
              (node ⟨c + 1, name, path ++ '/' :: name, true, false, parentIdFor parent⟩ null null)
              o sub (c + 1)).lastUsedId
        else
          readEntries M path rest
            (addChild parent
              (node ⟨c + 1, name, path ++ '/' :: name, false, false, parentIdFor parent⟩ null null))
            n (c + 1)
      else readEntries M path rest parent n c := by
  have hpid : ∀ p : FileSystemEntry,
      (match p with
        | node pd _ _ => pd.id
        | null => (-1 : Int)) = parentIdFor p := by
    intro p; cases p <;> rfl
  have hk1 : (FileKind.directory == FileKind.regular) = false := by decide
  have hk2 : (FileKind.other == FileKind.regular) = false := by decide
  conv_lhs => unfold readEntries
  by_cases hdot : name.head? = some '.'
  · simp [qualifies, hdot]
  · have h1 : strcmp name ['.'] ≠ 0 := strcmp_ne_zero_of_head _ _ (by simpa using hdot)
    have h2 : strcmp name ['.', '.'] ≠ 0 := strcmp_ne_zero_of_head _ _ (by simpa using hdot)
    cases st with
    | none => simp [qualifies, hdot, h1, h2]
    | some kind =>
      cases kind <;> by_cases hm : M.match_regex (M.extractExtension name) = 0 <;>
        cases o <;>
        simp [qualifies, classifiedAsDirectory, hdot, h1, h2, hm, createEntry, setFullPath,
          readDirectory, hpid, hk1, hk2]

theorem readDirectory_parent_shape (M : AudioMatcher) (ents : Dirents) :
    ∀ (path : CString) (pd : EntryData) (pc pn : FileSystemEntry) (o : Bool) (c : Int),
      ∃ pc1, (readDirectory M path (node pd pc pn) o ents c).parent = node pd pc1 pn := by
  have key : ∀ (ents : Dirents) (path : CString) (pd : EntryData) (pc pn : FileSystemEntry)
      (n c : Int), ∃ pc1, (readEntries M path ents (node pd pc pn) n c).parent = node pd pc1 pn := by
    intro ents
    induction ents with
    | nil => intro path pd pc pn n c; exact ⟨pc, rfl⟩
    | cons name st o sub rest ihs ihr =>
      intro path pd pc pn n c
      rw [readEntries_cons_eq]
      by_cases hq : qualifies M ⟨name, st, o, sub⟩ = true
      · rw [if_pos hq]
        by_cases hd : classifiedAsDirectory ⟨name, st, o, sub⟩ = true
        · rw [if_pos hd]
          have hsh : ∃ cc, (readDirectory M (path ++ '/' :: name)
              (node ⟨c + 1, name, path ++ '/' :: name, true, false,
                parentIdFor (node pd pc pn)⟩ null null) o sub (c + 1)).parent =
              node ⟨c + 1, name, path ++ '/' :: name, true, false,
                parentIdFor (node pd pc pn)⟩ cc null := by
            unfold readDirectory
            by_cases ho : o = true
            · simp only [ho, if_true]
              exact ihs ..
            · simp only [ho]
              exact ⟨null, rfl⟩
          obtain ⟨cc, hcc⟩ := hsh
          rw [hcc]
          exact ihr ..
        · rw [if_neg hd]
          exact ihr ..
      · rw [if_neg hq]
        exact ihr ..
  intro path pd pc pn o c
  unfold readDirectory
  by_cases ho : o = true
  · simp only [ho, if_true]
    exact key ..
  · simp only [ho]
    exact ⟨pc, rfl⟩

/-- The child list that the `for` loop leaves: the qualifying elements of the
array, last processed first, in front of the children the parent had. -/
theorem readEntries_children (M : AudioMatcher) (path : CString) (pd : EntryData)
    (pn : FileSystemEntry) (ents : Dirents) :
    ∀ (pc : FileSystemEntry) (n c : Int),
      (childList (readEntries M path ents (node pd pc pn) n c).parent).map info =
        ((ents.toList.filter (qualifies M)).map
          fun e => (e.d_name, classifiedAsDirectory e)).reverse ++ (chain pc).map info := by
  induction ents with
  | nil => intro pc n c; simp [readEntries, Dirents.toList, childList, childrenPtr]
  | cons name st o sub rest _ ihr =>
    intro pc n c
    rw [readEntries_cons_eq]
    by_cases hq : qualifies M ⟨name, st, o, sub⟩ = true
    · rw [if_pos hq]
      by_cases hd : classifiedAsDirectory ⟨name, st, o, sub⟩ = true
      · rw [if_pos hd]
        obtain ⟨cc, hcc⟩ := readDirectory_parent_shape M sub (path ++ '/' :: name)
          ⟨c + 1, name, path ++ '/' :: name, true, false, parentIdFor (node pd pc pn)⟩
          null null o (c + 1)
        rw [hcc]
        simp only [addChild]
        rw [ihr]
        simp [Dirents.toList, hq, hd, chain, info]
      · rw [if_neg hd]
        simp only [addChild]
        rw [ihr]
        simp [Dirents.toList, hq, hd, chain, info]
    · rw [if_neg hq]
      rw [ihr]
      simp [Dirents.toList, hq]

/-- The count that the `for` loop returns grows by the number of directory
nodes that the loop puts below the parent. -/
theorem readEntries_count (M : AudioMatcher) (ents : Dirents) :
    ∀ (path : CString) (pd : EntryData) (pc pn : FileSystemEntry) (n c : Int),
      (readEntries M path ents (node pd pc pn) n c).numEntries + chainDirCount pc =
        n + chainDirCount (readEntries M path ents (node pd pc pn) n c).parent.childrenPtr := by
  induction ents with
  | nil => intro path pd pc pn n c; simp [readEntries, childrenPtr]
  | cons name st o sub rest ihs ihr =>
    intro path pd pc pn n c
    rw [readEntries_cons_eq]
    by_cases hq : qualifies M ⟨name, st, o, sub⟩ = true
    · rw [if_pos hq]
      by_cases hd : classifiedAsDirectory ⟨name, st, o, sub⟩ = true
      · rw [if_pos hd]
        obtain ⟨cc, hcc⟩ := readDirectory_parent_shape M sub (path ++ '/' :: name)
          ⟨c + 1, name, path ++ '/' :: name, true, false, parentIdFor (node pd pc pn)⟩
          null null o (c + 1)
        have hcnt : (readDirectory M (path ++ '/' :: name)
            (node ⟨c + 1, name, path ++ '/' :: name, true, false,
              parentIdFor (node pd pc pn)⟩ null null) o sub (c + 1)).numEntries =
            chainDirCount cc := by
          have hcc1 := hcc
          unfold readDirectory at hcc1 ⊢
          by_cases ho : o = true
          · simp only [ho, if_true] at hcc1 ⊢
            have := ihs (path ++ '/' :: name)
              ⟨c + 1, name, path ++ '/' :: name, true, false, parentIdFor (node pd pc pn)⟩
              null null 0 (c + 1)
            rw [hcc1] at this
            simpa [chainDirCount, childrenPtr] using this
          · simp only [ho] at hcc1 ⊢
            cases hcc1
            simp [chainDirCount]
        rw [hcc, hcnt]
        simp only [addChild]
        have := ihr path pd (node ⟨c + 1, name, path ++ '/' :: name, true, false,
              parentIdFor (node pd pc pn)⟩ cc pc) pn (n + 1 + chainDirCount cc)
          (readDirectory M (path ++ '/' :: name)
            (node ⟨c + 1, name, path ++ '/' :: name, true, false,
              parentIdFor (node pd pc pn)⟩ null null) o sub (c + 1)).lastUsedId
        simp only [chainDirCount, if_true] at this
        push_cast at this
        omega
      · rw [if_neg hd]
        simp only [addChild]
        have := ihr path pd (node ⟨c + 1, name, path ++ '/' :: name, false, false,
              parentIdFor (node pd pc pn)⟩ null pc) pn n (c + 1)
        simp only [chainDirCount] at this
        simp only [Bool.false_eq_true, if_false] at this
        push_cast at this
        omega
    · rw [if_neg hq]
      exact ihr ..

theorem chainDirCount_eq_filter (t : FileSystemEntry) :
    chainDirCount t = ((chainNodes t).filter isDir).length := by
  induction t with
  | null => rfl
  | node d c n ihc ihn =>
    by_cases hd : d.isDirectory = true
    · simp [chainDirCount, chainNodes, List.filter_cons, isDir, hd, ihc, ihn]
      omega
    · simp [chainDirCount, chainNodes, List.filter_cons, isDir, hd, ihc, ihn]

/-- C4, as stated, fails: for a start directory that holds one audio file,
`readDirectory` returns 0 although one entry is materialised below the
root. -/
theorem readDirectory_does_not_count_files :
    (buildRaw exampleMatcher ['m'] true listingOneAudioFile 0).numEntries = 0 ∧
      (descendants (buildRaw exampleMatcher ['m'] true listingOneAudioFile 0).parent).length
        = 1 := by
  decide

/-- C4 (amended): the value returned by `readDirectory(startPath, root)`, for
a root without children, is the number of entries with `isDirectory` set that
the call materialises below the root (files are created but not counted). -/
theorem readDirectory_counts_directories (M : AudioMatcher) (path : CString)
    (pd : EntryData) (pn : FileSystemEntry) (opens : Bool) (entries : Dirents) (c : Int) :
    (readDirectory M path (node pd null pn) opens entries c).numEntries =
      ((descendants (readDirectory M path (node pd null pn) opens entries c).parent).filter
        isDir).length := by
  unfold readDirectory
  by_cases ho : opens = true
  · rw [if_pos ho]
    have := readEntries_count M entries path pd null pn 0 c
    unfold descendants
    rw [← chainDirCount_eq_filter]
    simpa [chainDirCount] using this
  · rw [if_neg ho]
    simp [descendants, childrenPtr, chainNodes]

/-- C5, as stated, fails: a FIFO is neither a directory nor a regular file,
yet `readDirectory` attaches it, with `isDirectory` set. -/
theorem readDirectory_attaches_fifo_as_directory :
    (childList (readDirectory exampleMatcher ['m'] freshRoot true listingOneFifo 1).parent).map
        info = [(['p'], true)] ∧
      listingOneFifo.toList.map (fun e => e.stat) = [some FileKind.other] := by
  decide

/-- C5 (amended): for every listing and every matcher, the children that
`readDirectory` attaches to a parent without children are exactly the listed
entries whose name does not begin with `.`, whose `stat` succeeds, and which
are either not a regular file (a directory or any other kind, whatever the
name) or a regular file whose extension matches; they appear in the child
list in the reverse of the listing order, a regular file whose extension does
not match is never attached, and an attached entry has `isDirectory` set
exactly when `stat` reports something other than a regular file. -/
theorem readDirectory_attaches_qualifying (M : AudioMatcher) (path : CString)
    (pd : EntryData) (pn : FileSystemEntry) (entries : Dirents) (c : Int) :
    (childList (readDirectory M path (node pd null pn) true entries c).parent).map info =
        ((entries.toList.filter (qualifies M)).map
          fun e => (e.d_name, classifiedAsDirectory e)).reverse ∧
      (∀ e : Dirent, qualifies M e = true ↔
        e.d_name.head? ≠ some '.' ∧
          ∃ k, e.stat = some k ∧
            (k ≠ FileKind.regular ∨ M.match_regex (M.extractExtension e.d_name) = 0)) ∧
      (∀ e : Dirent, classifiedAsDirectory e = true ↔ e.stat ≠ some FileKind.regular) := by
  refine ⟨?_, ?_, ?_⟩
  · unfold readDirectory
    rw [if_pos rfl, readEntries_children]
    simp [chain]
  · intro e
    rcases e with ⟨name, st, o, sub⟩
    cases st with
    | none => simp [qualifies]
    | some k => cases k <;> simp [qualifies]
  · intro e
    simp [classifiedAsDirectory]

/-! ## The comparator -/

theorem strcmp_eq_zero_iff (a b : CString) : strcmp a b = 0 ↔ a = b := by
  induction a generalizing b with
  | nil => cases b <;> simp [strcmp]
  | cons x xs ih =>
    cases b with
    | nil => simp [strcmp]
    | cons y ys =>
      by_cases hxy : x = y
      · simp [strcmp, hxy, ih]
      · simp only [strcmp, hxy, if_false, List.cons.injEq, false_and, iff_false]
        split <;> simp

theorem strcmp_swap (a b : CString) : strcmp b a = -strcmp a b := by
  induction a generalizing b with
  | nil => cases b <;> simp [strcmp]
  | cons x xs ih =>
    cases b with
    | nil => simp [strcmp]
    | cons y ys =>
      by_cases hxy : x = y
      · subst hxy
        simp [strcmp, ih]
      · have hyx : ¬y = x := fun h => hxy h.symm
        by_cases hlt : x < y
        · have : ¬y < x := not_lt.mpr hlt.le
          simp [strcmp, hxy, hyx, hlt, this]
        · have : y < x := lt_of_le_of_ne (not_lt.mp hlt) hyx
          simp [strcmp, hxy, hyx, hlt, this]

theorem strcmp_le_trans (a b c : CString) (h1 : strcmp a b ≤ 0) (h2 : strcmp b c ≤ 0) :
    strcmp a c ≤ 0 := by
  induction a generalizing b c with
  | nil => cases c <;> simp [strcmp]
  | cons x xs ih =>
    cases b with
    | nil => simp [strcmp] at h1
    | cons y ys =>
      cases c with
      | nil => simp [strcmp] at h2
      | cons z zs =>
        by_cases hxy : x = y
        · subst hxy
          by_cases hxz : x = z
          · subst hxz
            simp only [strcmp, if_true] at h1 h2 ⊢
            exact ih _ _ h1 h2
          · simp only [strcmp, hxz, if_false] at h2 ⊢
            exact h2
        · have hlt : x < y := by
            by_contra hcon
            simp [strcmp, hxy, hcon] at h1
          by_cases hyz : y = z
          · subst hyz
            simp [strcmp, hxy, hlt]
          · have hlt2 : y < z := by
              by_contra hcon
              simp [strcmp, hyz, hcon] at h2
            have hxz : x < z := lt_trans hlt hlt2
            simp [strcmp, ne_of_lt hxz, hxz]

theorem strcmp_total (a b : CString) : strcmp a b ≤ 0 ∨ strcmp b a ≤ 0 := by
  rw [strcmp_swap a b]
  omega

/-- The normalised form of a name begins with the marker `_`. -/
theorem compareLibEntries_eq (a b : CString) :
    compareLibEntries a b =
      if (stringToUpperWithoutSpaces a).head? = some '_' then
        if (stringToUpperWithoutSpaces b).head? = some '_' then
          strcmp (stringToUpperWithoutSpaces b) (stringToUpperWithoutSpaces a)
        else 1
      else
        if (stringToUpperWithoutSpaces b).head? = some '_' then -1
        else strcmp (stringToUpperWithoutSpaces b) (stringToUpperWithoutSpaces a) := by
  unfold compareLibEntries
  by_cases ha : (stringToUpperWithoutSpaces a).head? = some '_' <;>
    by_cases hb : (stringToUpperWithoutSpaces b).head? = some '_' <;> simp [ha, hb]

theorem compareLibEntries_swap (a b : CString) :
    compareLibEntries b a = -compareLibEntries a b := by
  rw [compareLibEntries_eq, compareLibEntries_eq a b]
  by_cases ha : (stringToUpperWithoutSpaces a).head? = some '_' <;>
    by_cases hb : (stringToUpperWithoutSpaces b).head? = some '_' <;>
    simp [ha, hb, strcmp_swap (stringToUpperWithoutSpaces b)]

theorem compareLibEntries_le_trans (a b c : CString) (h1 : compareLibEntries a b ≤ 0)
    (h2 : compareLibEntries b c ≤ 0) : compareLibEntries a c ≤ 0 := by
  rw [compareLibEntries_eq] at h1 h2 ⊢
  by_cases ha : (stringToUpperWithoutSpaces a).head? = some '_' <;>
    by_cases hb : (stringToUpperWithoutSpaces b).head? = some '_' <;>
    by_cases hc : (stringToUpperWithoutSpaces c).head? = some '_' <;>
    simp only [ha, hb, hc, if_true, if_false] at h1 h2 ⊢ <;>
    first
      | exact strcmp_le_trans _ _ _ h2 h1
      | omega

theorem compareLibEntries_eq_zero_iff (a b : CString) :
    compareLibEntries a b = 0 ↔ stringToUpperWithoutSpaces a = stringToUpperWithoutSpaces b := by
  rw [compareLibEntries_eq]
  by_cases ha : (stringToUpperWithoutSpaces a).head? = some '_' <;>
    by_cases hb : (stringToUpperWithoutSpaces b).head? = some '_' <;>
    simp only [ha, hb, if_true, if_false, strcmp_eq_zero_iff]
  · exact eq_comm
  · constructor
    · intro h; omega
    · intro h; rw [h] at ha; exact absurd ha hb
  · constructor
    · intro h; omega
    · intro h; rw [h] at ha; exact absurd hb ha
  · exact eq_comm

theorem readDirectory_children_info (M : AudioMatcher) (path : CString)
    (pd : EntryData) (pn : FileSystemEntry) (entries : Dirents) (c : Int) :
    (childList (readDirectory M path (node pd null pn) true entries c).parent).map info =
      ((entries.toList.filter (qualifies M)).map
        fun e => (e.d_name, classifiedAsDirectory e)).reverse := by
  unfold readDirectory
  rw [if_pos rfl, readEntries_children]
  simp [chain]

theorem Dirents.toList_ofList (l : List Dirent) : (Dirents.ofList l).toList = l := by
  induction l with
  | nil => rfl
  | cons e es ih => simp [Dirents.ofList, Dirents.toList, ih]

/-- A list sorted for a relation that is antisymmetric on its elements is the
only sorted permutation of itself. -/
theorem sorted_perm_unique {α : Type} (r : α → α → Prop) :
    ∀ (l₁ l₂ : List α), l₁.Perm l₂ → l₁.Pairwise r → l₂.Pairwise r →
      (∀ a ∈ l₁, ∀ b ∈ l₁, r a b → r b a → a = b) → l₁ = l₂ := by
  intro l₁
  induction l₁ with
  | nil => intro l₂ hp _ _ _; exact hp.nil_eq
  | cons a t ih =>
    intro l₂ hp h1 h2 hanti
    cases l₂ with
    | nil => exact absurd hp.symm.nil_eq (by simp)
    | cons b u =>
      have hab : a = b := by
        have ha : a ∈ b :: u := hp.subset (List.mem_cons_self _ _)
        have hb : b ∈ a :: t := hp.symm.subset (List.mem_cons_self _ _)
        rcases List.mem_cons.mp ha with h | h
        · exact h
        · rcases List.mem_cons.mp hb with h' | h'
          · exact h'.symm
          · exact hanti a (List.mem_cons_self _ _) b hb
              ((List.pairwise_cons.mp h1).1 b h') ((List.pairwise_cons.mp h2).1 a h)
      subst hab
      have hp' : t.Perm u := (List.perm_cons a).mp hp
      rw [ih u hp' (List.pairwise_cons.mp h1).2 (List.pairwise_cons.mp h2).2
        (fun x hx y hy => hanti x (List.mem_cons_of_mem _ hx) y (List.mem_cons_of_mem _ hy))]

/-- The order of the specification, read back to front, is sorted for
`compareLibEntries`. -/
theorem netOrder_pairwise (names : List CString) :
    (netOrder names).Pairwise fun a b => compareLibEntries b a ≤ 0 := by
  unfold netOrder
  have htot : IsTotal CString
      (fun a b => strcmp (stringToUpperWithoutSpaces a) (stringToUpperWithoutSpaces b) ≤ 0) :=
    ⟨fun a b => strcmp_total _ _⟩
  have htr : IsTrans CString
      (fun a b => strcmp (stringToUpperWithoutSpaces a) (stringToUpperWithoutSpaces b) ≤ 0) :=
    ⟨fun a b c h1 h2 => strcmp_le_trans _ _ _ h1 h2⟩
  have hmemA : ∀ a ∈ (names.filter hasMarker).insertionSort
      (fun a b => strcmp (stringToUpperWithoutSpaces a) (stringToUpperWithoutSpaces b) ≤ 0),
      (stringToUpperWithoutSpaces a).head? = some '_' := by
    intro a ha
    have := (List.perm_insertionSort _ _).subset ha
    simpa [hasMarker] using (List.mem_filter.mp this).2
  have hmemB : ∀ a ∈ (names.filter fun n => !hasMarker n).insertionSort
      (fun a b => strcmp (stringToUpperWithoutSpaces a) (stringToUpperWithoutSpaces b) ≤ 0),
      (stringToUpperWithoutSpaces a).head? ≠ some '_' := by
    intro a ha
    have := (List.perm_insertionSort _ _).subset ha
    simpa [hasMarker] using (List.mem_filter.mp this).2
  rw [List.pairwise_append]
  refine ⟨?_, ?_, ?_⟩
  · refine List.Pairwise.imp_of_mem ?_ (List.sorted_insertionSort _ _)
    intro a b ha hb hab
    rw [compareLibEntries_eq, if_pos (hmemA b hb), if_pos (hmemA a ha)]
    exact hab
  · refine List.Pairwise.imp_of_mem ?_ (List.sorted_insertionSort _ _)
    intro a b ha hb hab
    rw [compareLibEntries_eq, if_neg (hmemB b hb), if_neg (hmemB a ha)]
    exact hab
  · intro a ha b hb
    rw [compareLibEntries_eq, if_neg (hmemB b hb), if_pos (hmemA a ha)]
    decide

theorem netOrder_perm (names : List CString) : (netOrder names).Perm names := by
  unfold netOrder
  exact ((List.perm_insertionSort _ _).append (List.perm_insertionSort _ _)).trans
    (List.filter_append_perm hasMarker names)

/-- C3: for every directory listing `raw` in which all entries qualify and
have pairwise distinct normalised names, whatever array `sorted` `scandir`
returns for it (a permutation of the listing that is sorted for
`compareLibEntries`), the child list that `readDirectory` builds with
`addChild` is, front to back: the names whose normalised form begins with `_`
in ascending normalised order, followed by the remaining names in ascending
normalised order. -/
theorem readDirectory_net_sibling_order (M : AudioMatcher) (path : CString) (pd : EntryData)
    (pn : FileSystemEntry) (c : Int) (raw sorted : List Dirent)
    (hperm : sorted.Perm raw)
    (hsorted : sorted.Pairwise fun a b => compareLibEntries a.d_name b.d_name ≤ 0)
    (hqual : ∀ e ∈ raw, qualifies M e = true)
    (hdistinct : (raw.map fun e => stringToUpperWithoutSpaces e.d_name).Nodup) :
    (childList (readDirectory M path (node pd null pn) true (Dirents.ofList sorted) c).parent).map
        (fun e => (info e).1) = netOrder (raw.map fun e => e.d_name) := by
  have hchildren := (readDirectory_children_info M path pd pn (Dirents.ofList sorted) c)
  rw [Dirents.toList_ofList] at hchildren
  have hfilter : sorted.filter (qualifies M) = sorted :=
    List.filter_eq_self.mpr fun e he => hqual e (hperm.subset he)
  rw [hfilter] at hchildren
  have hnames : (childList (readDirectory M path (node pd null pn) true
      (Dirents.ofList sorted) c).parent).map (fun e => (info e).1) =
      (sorted.map fun e => e.d_name).reverse := by
    have := congrArg (List.map Prod.fst) hchildren
    simpa [List.map_reverse, Function.comp_def] using this
  rw [hnames]
  have hnodup : ((sorted.map fun e => e.d_name).map stringToUpperWithoutSpaces).Nodup := by
    have : (sorted.map fun e => stringToUpperWithoutSpaces e.d_name).Perm
        (raw.map fun e => stringToUpperWithoutSpaces e.d_name) := hperm.map _
    simpa [List.map_map, Function.comp_def] using this.nodup_iff.mpr hdistinct
  have hS : (sorted.map fun e => e.d_name).Pairwise fun a b => compareLibEntries a b ≤ 0 := by
    rw [List.pairwise_map]
    exact hsorted
  have hT : (netOrder (raw.map fun e => e.d_name)).reverse.Pairwise
      fun a b => compareLibEntries a b ≤ 0 := by
    rw [List.pairwise_reverse]
    exact netOrder_pairwise _
  have hpermT : (sorted.map fun e => e.d_name).Perm
      (netOrder (raw.map fun e => e.d_name)).reverse :=
    ((hperm.map _).trans (netOrder_perm _).symm).trans (List.reverse_perm _).symm
  have heq := sorted_perm_unique (fun a b => compareLibEntries a b ≤ 0) _ _ hpermT hS hT
    (by
      intro a ha b hb hab hba
      have h0 : compareLibEntries a b = 0 := by
        have := compareLibEntries_swap a b
        omega
      exact List.inj_on_of_nodup_map hnodup ha hb ((compareLibEntries_eq_zero_iff a b).mp h0))
  rw [heq, List.reverse_reverse]

/-- Witness of C3, the example of the specification: the entries `_z`, `_a`,
`m`, `Z`, `a` give the child order `_a`, `_z`, `a`, `m`, `Z`. -/
theorem readDirectory_net_sibling_order_witness :
    listingOrderExampleSorted.Perm listingOrderExample ∧
      (listingOrderExampleSorted.Pairwise fun a b => compareLibEntries a.d_name b.d_name ≤ 0) ∧
      (∀ e ∈ listingOrderExample, qualifies exampleMatcher e = true) ∧
      (listingOrderExample.map fun e => stringToUpperWithoutSpaces e.d_name).Nodup ∧
      (childList (readDirectory exampleMatcher ['m'] freshRoot true
          (Dirents.ofList listingOrderExampleSorted) 1).parent).map (fun e => (info e).1) =
        [['_', 'a'], ['_', 'z'], ['a'], ['m'], ['Z']] :=
  ⟨by decide, by decide, by decide, by decide,
    (readDirectory_net_sibling_order exampleMatcher ['m'] _ null 1 listingOrderExample
      listingOrderExampleSorted (by decide) (by decide) (by decide) (by decide)).trans
      (by decide)⟩

/-! ## Writing -/

theorem writeChain_eq_flatMap (t : FileSystemEntry) (p : Int) :
    writeChain t p = (chain t).flatMap fun ch => writeTreeToFile ch p := by
  induction t generalizing p with
  | null => rfl
  | node d c n _ ihn =>
    show (fprintfRecord d.id d.name d.isDirectory p :: writeChain c d.id) ++ writeChain n p = _
    rw [ihn]
    rfl

theorem writeChain_length (t : FileSystemEntry) (p : Int) :
    (writeChain t p).length = chainSize t := by
  induction t generalizing p with
  | null => rfl
  | node d c n ihc ihn =>
    simp only [writeChain, chainSize, List.length_append, List.length_cons, ihc, ihn]
    omega

/-! ## Reading back -/

theorem fileParentOutOfRange_records :
    (fileLines fileParentOutOfRange).filterMap sscanfRecord = recordsParentOutOfRange := by
  decide

set_option maxRecDepth 100000 in
/-- C10 fails on its own witness: for the record of id 1 with `parentId` 1050
the test `nodes[parentId]` reads slot 1050 of a table that has 1000 slots. -/
theorem reconstruct_reads_beyond_capacity :
    reconstructRecords ['m'] recordsParentOutOfRange (initialState 0) =
        .error (.outOfBounds 1050 1000) ∧
      reconstructTreeFromFile fileParentOutOfRange ['m'] 0 = .error (.outOfBounds 1050 1000) :=
  ⟨rfl, rfl⟩

theorem modifyCell_length (heap : List HeapEntry) (p : Nat) (f : HeapEntry → HeapEntry) :
    (modifyCell heap p f).length = heap.length := by
  unfold modifyCell
  split <;> simp

theorem getElem?_modifyCell (heap : List HeapEntry) (p q : Nat) (f : HeapEntry → HeapEntry) :
    (modifyCell heap p f)[q]? = if q = p then (heap[q]?).map f else heap[q]? := by
  unfold modifyCell
  by_cases hqp : q = p
  · subst hqp
    cases h : heap[q]? with
    | none => simp [h]
    | some e =>
      have hlt : q < heap.length := (List.getElem?_eq_some_iff.mp h).1
      simp [h, List.getElem?_set, hlt]
  · cases h : heap[p]? with
    | none => simp [hqp]
    | some e =>
      simp only [hqp, if_false]
      rw [List.getElem?_set_ne (fun h' => hqp h'.symm)]

theorem IsChain.frame {heap heap1 : List HeapEntry} :
    ∀ {l : List Nat} {p : Option Nat}, IsChain heap p l →
      (∀ q ∈ l, nextOf heap1 q = nextOf heap q) → IsChain heap1 p l := by
  intro l
  induction l with
  | nil => intro p h _; exact h
  | cons q l ih =>
    intro p h hfr
    obtain ⟨hp, nx, hnx, hrest⟩ := h
    refine ⟨hp, nx, ?_, ih hrest fun q' hq' => hfr q' (List.mem_cons_of_mem _ hq')⟩
    rw [hfr q (List.mem_cons_self _ _)]
    exact hnx

theorem IsChain.nil_of_none {heap : List HeapEntry} {l : List Nat}
    (h : IsChain heap none l) : l = [] := by
  cases l with
  | nil => rfl
  | cons q l => exact absurd h.1 (by simp)

/-- Appending a cell to a chain by storing it in the `next` of the last
cell. -/
theorem IsChain.snoc {heap heap1 : List HeapEntry} {n : Nat} :
    ∀ {l : List Nat} {p : Option Nat} (hne : l ≠ []), IsChain heap p l → l.Nodup → n ∉ l →
      (∀ q ∈ l, q ≠ l.getLast hne → nextOf heap1 q = nextOf heap q) →
      nextOf heap1 (l.getLast hne) = some (some n) → nextOf heap1 n = some none →
      IsChain heap1 p (l ++ [n]) := by
  intro l
  induction l with
  | nil => intro p hne; exact absurd rfl hne
  | cons q l ih =>
    intro p hne h hnd hn hfr hlast hnew
    obtain ⟨hp, nx, hnx, hrest⟩ := h
    cases l with
    | nil =>
      have : nx = none := hrest
      subst this
      refine ⟨hp, some n, ?_, rfl, none, hnew, rfl⟩
      simpa using hlast
    | cons q1 l1 =>
      have hq : q ≠ (q :: q1 :: l1).getLast hne := by
        intro heq
        have hmem : (q :: q1 :: l1).getLast hne ∈ q1 :: l1 := by
          rw [List.getLast_cons (by simp)]
          exact List.getLast_mem _
        rw [← heq] at hmem
        exact (List.nodup_cons.mp hnd).1 hmem
      refine ⟨hp, nx, ?_, ?_⟩
      · rw [hfr q (List.mem_cons_self _ _) hq]
        exact hnx
      · have hne1 : q1 :: l1 ≠ [] := by simp
        have hlasteq : (q :: q1 :: l1).getLast hne = (q1 :: l1).getLast hne1 :=
          List.getLast_cons hne1
        refine ih hne1 hrest (List.nodup_cons.mp hnd).2
          (fun h' => hn (List.mem_cons_of_mem _ h')) ?_ ?_ hnew
        · intro q' hq' hne'
          exact hfr q' (List.mem_cons_of_mem _ hq') (by rw [hlasteq]; exact hne')
        · rw [← hlasteq]
          exact hlast

theorem lastSibling_of_chain {heap : List HeapEntry} :
    ∀ {l : List Nat} {c : Nat} (hne : l ≠ []) (fuel : Nat), IsChain heap (some c) l →
      l.length ≤ fuel → lastSibling heap fuel c = some (l.getLast hne) := by
  intro l
  induction l with
  | nil => intro c hne; exact absurd rfl hne
  | cons q l ih =>
    intro c hne fuel h hlen
    obtain ⟨hp, nx, hnx, hrest⟩ := h
    have hcq : c = q := by simpa using hp
    subst hcq
    cases fuel with
    | zero => simp at hlen
    | succ fuel =>
      unfold nextOf at hnx
      cases hcell : heap[c]? with
      | none => simp [hcell] at hnx
      | some e =>
        have hen : e.next = nx := by simpa [hcell] using hnx
        cases l with
        | nil =>
          have : nx = none := hrest
          simp [lastSibling, hcell, hen, this]
        | cons q1 l1 =>
          have hnx1 : nx = some q1 := hrest.1
          have := ih (c := q1) (by simp) fuel (hnx1 ▸ hrest) (by simpa using hlen)
          simp only [lastSibling, hcell, hen, hnx1]
          rw [this]
          exact congrArg some (List.getLast_cons (by simp)).symm

theorem walkChain_of_chain {heap : List HeapEntry} :
    ∀ {l : List Nat} {p : Option Nat} (fuel : Nat), IsChain heap p l →
      l.length ≤ fuel → walkChain heap fuel p = some l := by
  intro l
  induction l with
  | nil =>
    intro p fuel h _
    have : p = none := h
    subst this
    cases fuel <;> rfl
  | cons q l ih =>
    intro p fuel h hlen
    obtain ⟨hp, nx, hnx, hrest⟩ := h
    subst hp
    cases fuel with
    | zero => simp at hlen
    | succ fuel =>
      unfold nextOf at hnx
      cases hcell : heap[q]? with
      | none => simp [hcell] at hnx
      | some e =>
        have hen : e.next = nx := by simpa [hcell] using hnx
        simp [walkChain, hcell, hen, ih fuel hrest (by simpa using hlen)]

theorem kids_snoc (done : List Record) (r : Record) (pid : Int) :
    kids (done ++ [r]) pid =
      kids done pid ++ if r.parentId = pid then [done.length] else [] := by
  unfold kids
  rw [List.enum_append, List.enumFrom_singleton, List.filter_append, List.map_append]
  by_cases h : r.parentId = pid <;> simp [List.filter_cons, h]

theorem mem_kids {done : List Record} {pid : Int} {i : Nat} :
    i ∈ kids done pid ↔ ∃ r, done[i]? = some r ∧ r.parentId = pid := by
  unfold kids
  simp only [List.mem_map, List.mem_filter, Prod.exists, List.mk_mem_enum_iff_getElem?,
    beq_iff_eq]
  constructor
  · rintro ⟨a, b, ⟨h1, h2⟩, rfl⟩
    exact ⟨b, h1, h2⟩
  · rintro ⟨r, h1, h2⟩
    exact ⟨i, r, ⟨h1, h2⟩, rfl⟩

theorem kids_nodup (done : List Record) (pid : Int) : (kids done pid).Nodup := by
  unfold kids
  have h : (done.enum.map Prod.fst).Nodup := by simp [List.nodup_range]
  exact (List.Sublist.map Prod.fst (List.filter_sublist _)).nodup h

theorem kids_length_le (done : List Record) (pid : Int) :
    (kids done pid).length ≤ done.length := by
  unfold kids
  rw [List.length_map]
  exact (List.length_filter_le _ _).trans (by simp)

theorem kids_lt {done : List Record} {pid : Int} {i : Nat} (h : i ∈ kids done pid) :
    i < done.length := by
  obtain ⟨r, hr, _⟩ := mem_kids.mp h
  exact (List.getElem?_eq_some_iff.mp hr).1

theorem nextOf_modifyCell_of_next_eq (heap : List HeapEntry) (p q : Nat)
    (f : HeapEntry → HeapEntry) (hf : ∀ e, (f e).next = e.next) :
    nextOf (modifyCell heap p f) q = nextOf heap q := by
  unfold nextOf
  rw [getElem?_modifyCell]
  by_cases hqp : q = p
  · simp only [hqp, if_true, Option.map_map]
    congr 1
    funext e
    exact hf e
  · simp only [hqp, if_false]

theorem nextOf_modifyCell_ne (heap : List HeapEntry) (p q : Nat)
    (f : HeapEntry → HeapEntry) (hqp : q ≠ p) :
    nextOf (modifyCell heap p f) q = nextOf heap q := by
  unfold nextOf
  rw [getElem?_modifyCell, if_neg hqp]

theorem nextOf_append_lt (H : List HeapEntry) (cell : HeapEntry) (q : Nat) (h : q < H.length) :
    nextOf (H ++ [cell]) q = nextOf H q := by
  unfold nextOf
  rw [List.getElem?_append_left h]

/-- The linking step of `reconstructTreeFromFile` on a heap whose cell `j`
heads the chain `l`: the new cell `n` ends up at the end of that chain, and no
other link changes. -/
theorem attachChild_spec (s2 : ReconState) (H : List HeapEntry) (cell : HeapEntry)
    (n j : Nat) (r : Record) (ej : HeapEntry) (l : List Nat) (pp : CString)
    (hheap : s2.heap = H ++ [cell]) (hn : H.length = n) (hj : H[j]? = some ej)
    (hcn : cell.next = none)
    (hchain : IsChain H ej.children l) (hnd : l.Nodup) (hlt : ∀ q ∈ l, q < n)
    (hlen : l.length ≤ n) (hpp : ej.fullPath = some pp) :
    ∃ H1, attachChild s2 n j r = .ok { s2 with
        heap := H1
        numDirectoryEntries :=
          if r.isDirectory ≠ 0 then s2.numDirectoryEntries + 1 else s2.numDirectoryEntries } ∧
      H1.length = n + 1 ∧
      H1[n]? = some { cell with parent := some j, fullPath := some (pp ++ '/' :: r.name) } ∧
      (∀ q e, q < n → H[q]? = some e → ∃ e1, H1[q]? = some e1 ∧ e1.id = e.id ∧
        e1.name = e.name ∧ e1.isDirectory = e.isDirectory ∧ e1.parent = e.parent ∧
        e1.fullPath = e.fullPath ∧ (q ≠ j → e1.children = e.children) ∧
        (q ∉ l → e1.next = e.next)) ∧
      (∃ ej1, H1[j]? = some ej1 ∧ IsChain H1 ej1.children (l ++ [n])) := by
  have hjn : j < n := hn ▸ (List.getElem?_eq_some_iff.mp hj).1
  have hjn1 : j ≠ n := Nat.ne_of_lt hjn
  have hnj : n ≠ j := Nat.ne_of_gt hjn
  have hj0 : (H ++ [cell])[j]? = some ej := by
    rw [List.getElem?_append_left (hn ▸ hjn)]; exact hj
  have hn0 : (H ++ [cell])[n]? = some cell := by
    rw [← hn]; simp
  have hlt0 : ∀ q, q < n → (H ++ [cell])[q]? = H[q]? := fun q hq =>
    List.getElem?_append_left (hn ▸ hq)
  unfold attachChild linkChild
  rw [hheap, hj0]
  simp only
  cases hch : ej.children with
  | none =>
    have hl : l = [] := by
      rw [hch] at hchain
      exact hchain.nil_of_none
    subst hl
    have hj2 : (modifyCell (modifyCell (H ++ [cell]) n fun e => { e with parent := some j }) j
        fun e => { e with children := some n })[j]? = some { ej with children := some n } := by
      simp [getElem?_modifyCell, hjn1, hj0]
    simp only [hj2, hpp]
    refine ⟨_, rfl, ?_, ?_, ?_, ?_⟩
    · simp [modifyCell_length, hn]
    · simp [getElem?_modifyCell, hn0, hjn1, hnj, hj0, setFullPathCell, hpp]
    · intro q e hq hqe
      have hqn : q ≠ n := Nat.ne_of_lt hq
      by_cases hqj : q = j
      · subst hqj
        rw [hj] at hqe
        cases hqe
        simp [getElem?_modifyCell, hqn, hj0]
      · simp [getElem?_modifyCell, hqn, hqj, hlt0 q hq, hqe]
    · refine ⟨{ ej with children := some n }, ?_, ?_⟩
      · simp [getElem?_modifyCell, hjn1, hnj, hj0]
      · refine ⟨rfl, none, ?_, rfl⟩
        simp [nextOf, getElem?_modifyCell, hn0, hjn1, hnj, setFullPathCell, hj0, hpp, hcn]
  | some c =>
    rw [hch] at hchain
    have hne : l ≠ [] := by
      intro h; subst h
      exact absurd hchain (by simp [IsChain])
    have hchain1 : IsChain (modifyCell (H ++ [cell]) n fun e => { e with parent := some j })
        (some c) l := by
      refine hchain.frame fun q hq => ?_
      rw [nextOf_modifyCell_ne _ _ _ _ (Nat.ne_of_lt (hlt q hq)),
        nextOf_append_lt _ _ _ (hn ▸ hlt q hq)]
    have hlast := lastSibling_of_chain hne
      (modifyCell (H ++ [cell]) n fun e => { e with parent := some j }).length hchain1
      (by rw [modifyCell_length, List.length_append, hn]; omega)
    simp only [hlast]
    have hlastmem : l.getLast hne ∈ l := List.getLast_mem hne
    have hlastlt : l.getLast hne < n := hlt _ hlastmem
    have hlastne : l.getLast hne ≠ n := Nat.ne_of_lt hlastlt
    have hnlast : n ≠ l.getLast hne := Nat.ne_of_gt hlastlt
    obtain ⟨elast, helast⟩ : ∃ e, H[l.getLast hne]? = some e := by
      have hlt2 : l.getLast hne < H.length := hn ▸ hlastlt
      exact ⟨H[l.getLast hne], List.getElem?_eq_getElem hlt2⟩
    obtain ⟨ej2, hj2, hpp2⟩ : ∃ ej2, (modifyCell (modifyCell (H ++ [cell]) n
        fun e => { e with parent := some j }) (l.getLast hne)
        fun e => { e with next := some n })[j]? = some ej2 ∧ ej2.fullPath = some pp := by
      by_cases hjl : j = l.getLast hne
      · exact ⟨{ ej with next := some n }, by simp [getElem?_modifyCell, hjn1, hj0, ← hjl], hpp⟩
      · exact ⟨ej, by simp [getElem?_modifyCell, hjn1, hj0, hjl], hpp⟩
    simp only [hj2, hpp2]
    refine ⟨_, rfl, ?_, ?_, ?_, ?_⟩
    · simp [modifyCell_length, hn]
    · by_cases hjl : j = l.getLast hne
      · simp [getElem?_modifyCell, hn0, hjn1, hnj, hj0, setFullPathCell, hpp, hnlast, ← hjl]
      · simp [getElem?_modifyCell, hn0, hjn1, hnj, hj0, setFullPathCell, hpp, hnlast, hjl]
    · intro q e hq hqe
      have hqn : q ≠ n := Nat.ne_of_lt hq
      by_cases hql : q = l.getLast hne
      · subst hql
        refine ⟨{ e with next := some n }, ?_, rfl, rfl, rfl, rfl, rfl, fun _ => rfl, ?_⟩
        · simp [getElem?_modifyCell, hqn, hqe, hlt0 _ hq]
        · intro hnot
          exact absurd hlastmem hnot
      · refine ⟨e, ?_, rfl, rfl, rfl, rfl, rfl, fun _ => rfl, fun _ => rfl⟩
        simp [getElem?_modifyCell, hqn, hql, hlt0 q hq, hqe]
    · have hnext : ∀ q, q < n → q ≠ l.getLast hne →
          nextOf (modifyCell (modifyCell (modifyCell (H ++ [cell]) n
            fun e => { e with parent := some j }) (l.getLast hne)
            fun e => { e with next := some n }) n
            (setFullPathCell (some pp) r.name)) q = nextOf H q := by
        intro q hq hql
        rw [nextOf_modifyCell_ne _ _ _ _ (Nat.ne_of_lt hq), nextOf_modifyCell_ne _ _ _ _ hql,
          nextOf_modifyCell_ne _ _ _ _ (Nat.ne_of_lt hq), nextOf_append_lt _ _ _ (hn ▸ hq)]
      by_cases hjl : j = l.getLast hne
      · refine ⟨{ ej with next := some n }, ?_, ?_⟩
        · simp [getElem?_modifyCell, hjn1, hnj, hj0, ← hjl]
        · show IsChain _ ej.children (l ++ [n])
          rw [hch]
          refine IsChain.snoc hne hchain hnd (fun h => absurd (hlt n h) (lt_irrefl n))
            (fun q hq hql => hnext q (hlt q hq) hql) ?_ ?_
          · simp [nextOf, getElem?_modifyCell, hlastne, hlt0 _ hlastlt, helast]
          · simp [nextOf, getElem?_modifyCell, hn0, hjn1, hnj, hj0, setFullPathCell, hpp,
              hnlast, ← hjl, hcn]
      · refine ⟨ej, ?_, ?_⟩
        · simp [getElem?_modifyCell, hjn1, hnj, hj0, hjl]
        · rw [hch]
          refine IsChain.snoc hne hchain hnd (fun h => absurd (hlt n h) (lt_irrefl n))
            (fun q hq hql => hnext q (hlt q hq) hql) ?_ ?_
          · simp [nextOf, getElem?_modifyCell, hlastne, hlt0 _ hlastlt, helast]
          · simp [nextOf, getElem?_modifyCell, hn0, hjn1, hnj, hj0, setFullPathCell, hpp,
              hnlast, hjl, hcn]

theorem getElem?_snoc_cases {α : Type} {l : List α} {a x : α} {i : Nat}
    (h : (l ++ [a])[i]? = some x) :
    (i < l.length ∧ l[i]? = some x) ∨ (i = l.length ∧ x = a) := by
  by_cases hi : i < l.length
  · left
    rw [List.getElem?_append_left hi] at h
    exact ⟨hi, h⟩
  · right
    have hi1 : l.length ≤ i := not_lt.mp hi
    rw [List.getElem?_append_right hi1] at h
    have hlt := (List.getElem?_eq_some_iff.mp h).1
    have h0 : i - l.length = 0 := by simpa using hlt
    rw [h0] at h
    refine ⟨by omega, ?_⟩
    simpa using h.symm

theorem getElem?_snoc_lt {α : Type} {l : List α} {a x : α} {i : Nat}
    (h : l[i]? = some x) : (l ++ [a])[i]? = some x := by
  rw [List.getElem?_append_left (List.getElem?_eq_some_iff.mp h).1]
  exact h

theorem resizeNodesArray_grow (nodes : List (Option Nat)) (id : Int)
    (h : (nodes.length : Int) ≤ id) :
    resizeNodesArray nodes nodes.length (id + 100) =
      nodes ++ List.replicate ((id + 100).toNat - nodes.length) none := by
  unfold resizeNodesArray
  have h1 : ((nodes.length : Int)).toNat = nodes.length := Int.toNat_ofNat _
  rw [h1, List.take_length]
  rw [List.take_of_length_le (by omega)]

theorem attachedDirectories_snoc (done : List Record) (r : Record) (h : done ≠ []) :
    attachedDirectories (done ++ [r]) =
      attachedDirectories done + if r.isDirectory ≠ 0 then 1 else 0 := by
  unfold attachedDirectories
  cases done with
  | nil => exact absurd rfl h
  | cons a t =>
    by_cases hd : r.isDirectory = 0 <;> simp [List.filter_append, List.filter_cons, hd]

theorem toNat_ne_of_ne {a b : Int} (ha : 0 ≤ a) (hb : 0 ≤ b) (h : a ≠ b) :
    a.toNat ≠ b.toNat := by
  omega

theorem growTable_spec (s : ReconState) (id : Int)
    (hcap : s.nodesCapacity = (s.nodes.length : Int)) :
    (growTable s id).heap = s.heap ∧ (growTable s id).root = s.root ∧
      (growTable s id).numDirectoryEntries = s.numDirectoryEntries ∧
      (growTable s id).nodesCapacity = ((growTable s id).nodes.length : Int) ∧
      id < ((growTable s id).nodes.length : Int) ∧
      (∀ (k : Nat) (v : Option Nat), s.nodes[k]? = some v →
        (growTable s id).nodes[k]? = some v) := by
  unfold growTable
  by_cases hge : id ≥ s.nodesCapacity
  · rw [if_pos hge]
    have hle : (s.nodes.length : Int) ≤ id := hcap ▸ hge
    simp only [hcap, resizeNodesArray_grow _ _ hle]
    refine ⟨trivial, trivial, trivial, ?_, ?_, ?_⟩
    · simp only [List.length_append, List.length_replicate]
      omega
    · simp only [List.length_append, List.length_replicate]
      omega
    · intro k v hk
      rw [List.getElem?_append_left (List.getElem?_eq_some_iff.mp hk).1]
      exact hk
  · rw [if_neg hge]
    exact ⟨rfl, rfl, rfl, hcap, by omega, fun k v hk => hk⟩

theorem records_index_unique (l : List Record) (hnd : (l.map fun r => r.id).Nodup)
    (i j : Nat) (x y : Record) (hx : l[i]? = some x) (hy : l[j]? = some y)
    (hxy : x.id = y.id) : i = j := by
  have hi := (List.getElem?_eq_some_iff.mp hx)
  have hj := (List.getElem?_eq_some_iff.mp hy)
  have hi1 : i < (l.map fun r => r.id).length := by simpa using hi.1
  have hj1 : j < (l.map fun r => r.id).length := by simpa using hj.1
  have key : (l.map fun r => r.id).get ⟨i, hi1⟩ = (l.map fun r => r.id).get ⟨j, hj1⟩ := by
    simp only [List.get_eq_getElem, List.getElem_map]
    rw [hi.2, hj.2]
    exact hxy
  have := List.nodup_iff_injective_get.mp hnd key
  simpa using congrArg Fin.val this

/-- One round of the loop of `reconstructTreeFromFile` on a record that
continues a well-formed file keeps `ReconInv`. -/
theorem reconstructRecord_step (sp : CString) (k0 : Int) (done : List Record)
    (s : ReconState) (r : Record) (hinv : ReconInv sp k0 done s)
    (hid : 0 ≤ r.id) (hmax : r.id ≤ INT_MAX - 100) (hids : ∀ x ∈ done, 0 ≤ x.id)
    (hnodup : ((done ++ [r]).map fun x => x.id).Nodup)
    (hnokids : ∀ x ∈ done ++ [r], x.parentId ≠ r.id)
    (hpar : (done = [] ∧ r.parentId = -1) ∨
      ∃ (j : Nat) (rj : Record), done[j]? = some rj ∧ rj.id = r.parentId) :
    ∃ s1, reconstructRecord sp s r = .ok s1 ∧ ReconInv sp k0 (done ++ [r]) s1 := by
  obtain ⟨gheap, groot, gcount, gcap, glt, gkeep⟩ := growTable_spec s r.id hinv.cap
  have hfresh : ∀ x ∈ done, x.id ≠ r.id := by
    intro x hx heq
    rw [List.map_append, List.nodup_append] at hnodup
    exact hnodup.2.2 (List.mem_map.mpr ⟨x, hx, rfl⟩) (by simp [heq])
  have hnd : (done.map fun x => x.id).Nodup := by
    rw [List.map_append] at hnodup
    exact (List.nodup_append.mp hnodup).1
  have hidx : ∀ (i j : Nat) (x y : Record), done[i]? = some x → done[j]? = some y →
      x.id = y.id → i = j := fun i j x y hx hy hxy =>
    records_index_unique done hnd i j x y hx hy hxy
  have hkidsNew : kids (done ++ [r]) r.id = [] := by
    rw [List.eq_nil_iff_forall_not_mem]
    intro i hi
    obtain ⟨x, hx, hxp⟩ := mem_kids.mp hi
    exact hnokids x (List.getElem?_mem hx) hxp
  have hidlt : r.id.toNat < (growTable s r.id).nodes.length := by omega
  have hset_self : ((growTable s r.id).nodes.set r.id.toNat (some s.heap.length))[r.id.toNat]? =
      some (some s.heap.length) := by
    rw [List.getElem?_set_self hidlt]
  have hset_old : ∀ (i : Nat) (x : Record), done[i]? = some x →
      ((growTable s r.id).nodes.set r.id.toNat (some s.heap.length))[x.id.toNat]? =
        some (some i) := by
    intro i x hx
    have hxm : x ∈ done := List.getElem?_mem hx
    rw [List.getElem?_set_ne (toNat_ne_of_ne hid (hids x hxm) (Ne.symm (hfresh x hxm)))]
    exact gkeep _ _ (hinv.table i x hx)
  have hguard : ¬ (s.nodesCapacity ≤ r.id ∧ INT_MAX < r.id + 100) := fun h =>
    absurd h.2 (by omega)
  unfold reconstructRecord
  rw [if_neg hguard]
  simp only [gheap]
  rw [if_pos ⟨hid, glt⟩]
  rcases hpar with ⟨hdone, hroot⟩ | ⟨j, rj, hj, hrj⟩
  · -- the first record: the root
    subst hdone
    have hlen0 : s.heap = [] := List.eq_nil_of_length_eq_zero (by simpa using hinv.len)
    have hneg : ¬ (r.parentId ≥ 0) := by omega
    rw [if_neg hneg]
    refine ⟨_, rfl, ?_⟩
    refine ⟨?_, ?_, ?_, ?_, ?_, ?_⟩
    · simp [makeRoot, modifyCell_length, hlen0]
    · simp [makeRoot, gcap]
    · intro i x hx
      have hi : i = 0 ∧ x = r := by
        rcases getElem?_snoc_cases hx with ⟨h, _⟩ | ⟨h, h1⟩
        · simp at h
        · exact ⟨by simpa using h, h1⟩
      obtain ⟨rfl, rfl⟩ := hi
      simpa [makeRoot, hlen0] using hset_self
    · simp [makeRoot, hlen0]
    · simp [makeRoot, gcount, hinv.count, attachedDirectories]
    · intro i x hx
      have hi : i = 0 ∧ x = r := by
        rcases getElem?_snoc_cases hx with ⟨h, _⟩ | ⟨h, h1⟩
        · simp at h
        · exact ⟨by simpa using h, h1⟩
      obtain ⟨rfl, rfl⟩ := hi
      refine ⟨⟨x.id, x.name, some (sp ++ ['/']), decide (x.isDirectory ≠ 0), false, none,
        none, none, none⟩, ?_, rfl, rfl, rfl, ?_, ?_, ?_⟩
      · simp [makeRoot, hlen0, modifyCell, setFullPathCell]
      · simp only [List.nil_append] at hkidsNew
        simp only [List.nil_append, hkidsNew]
        rfl
      · intro _
        exact ⟨rfl, rfl⟩
      · intro h
        exact absurd h (lt_irrefl 0)
  · -- a later record: attached below the cell of its parent
    have hjm : rj ∈ done := List.getElem?_mem hj
    have hdone : done ≠ [] := List.ne_nil_of_mem hjm
    have hpos : r.parentId ≥ 0 := hrj ▸ hids rj hjm
    have hlook := hset_old j rj hj
    rw [hrj] at hlook
    have hplt : r.parentId < ((growTable s r.id).nodes.set r.id.toNat
        (some s.heap.length)).length := by
      have := (List.getElem?_eq_some_iff.mp hlook).1
      omega
    rw [if_pos hpos, if_pos hplt]
    have hgetD : ((growTable s r.id).nodes.set r.id.toNat (some s.heap.length)).getD
        r.parentId.toNat none = some j := by
      rw [List.getD_eq_getElem?_getD, hlook]
      rfl
    rw [hgetD]
    simp only
    obtain ⟨ej, hej, _, _, _, hchj, hroot0, hpos0⟩ := hinv.cell j rj hj
    have hppj : ∃ pp, ej.fullPath = some pp := by
      rcases Nat.eq_zero_or_pos j with h0 | h0
      · exact ⟨_, (hroot0 h0).2⟩
      · obtain ⟨_, _, _, pp, _, _, _, _, _, _, hfp⟩ := hpos0 h0
        exact ⟨_, hfp⟩
    obtain ⟨pp, hpp⟩ := hppj
    obtain ⟨H1, hrun, hlen1, hnew, hold, ej1, hej1, hchain1⟩ :=
      attachChild_spec
        { growTable s r.id with
          heap := s.heap ++ [⟨r.id, r.name, none, decide (r.isDirectory ≠ 0), false, none,
            none, none, none⟩]
          nodes := (growTable s r.id).nodes.set r.id.toNat (some s.heap.length)
          nodesCount := (growTable s r.id).nodesCount + 1 }
        s.heap _ s.heap.length j r ej (kids done rj.id) pp rfl rfl hej rfl hchj
        (kids_nodup _ _) (fun q hq => hinv.len ▸ kids_lt hq)
        (hinv.len ▸ kids_length_le _ _) hpp
    refine ⟨_, hrun, ?_⟩
    have hnextOld : ∀ q, q < s.heap.length → q ∉ kids done rj.id →
        nextOf H1 q = nextOf s.heap q := by
      intro q hq hnot
      obtain ⟨e, he⟩ : ∃ e, s.heap[q]? = some e := ⟨s.heap[q], List.getElem?_eq_getElem _⟩
      obtain ⟨e1, he1, _, _, _, _, _, _, hnx⟩ := hold q e hq he
      simp [nextOf, he, he1, hnx hnot]
    refine ⟨?_, ?_, ?_, ?_, ?_, ?_⟩
    · simp [hlen1, hinv.len]
    · simp [gcap]
    · intro i x hx
      rcases getElem?_snoc_cases hx with ⟨_, h⟩ | ⟨h, rfl⟩
      · exact hset_old i x h
      · rw [h, ← hinv.len]
        exact hset_self
    · simp [groot, hinv.root, hdone]
    · simp only [gcount, hinv.count, attachedDirectories_snoc done r hdone]
      split <;> omega
    · intro i x hx
      rcases getElem?_snoc_cases hx with ⟨hi, hx0⟩ | ⟨hi, rfl⟩
      · -- an old cell
        obtain ⟨e, he, hid0, hname0, hdir0, hch0, hr0, hp0⟩ := hinv.cell i x hx0
        have hilt : i < s.heap.length := hinv.len ▸ hi
        obtain ⟨e1, he1, hid1, hname1, hdir1, hpar1, hfp1, hchild1, _⟩ := hold i e hilt he
        refine ⟨e1, he1, hid1.trans hid0, hname1.trans hname0, hdir1.trans hdir0, ?_, ?_, ?_⟩
        · rw [kids_snoc]
          by_cases hxp : r.parentId = x.id
          · have hij : i = j := hidx i j x rj hx0 hj (by rw [hrj, hxp])
            subst hij
            have hxr : x = rj := by rw [hx0] at hj; exact Option.some.inj hj
            subst hxr
            rw [if_pos hxp, hinv.len.symm]
            rw [hej1] at he1
            cases he1
            exact hchain1
          · rw [if_neg hxp, List.append_nil]
            have hij : i ≠ j := by
              rintro rfl
              rw [hx0] at hj
              cases hj
              exact hxp hrj.symm
            rw [hchild1 hij]
            refine hch0.frame fun q hq => hnextOld q (hinv.len ▸ kids_lt hq) ?_
            intro hq2
            obtain ⟨y, hy, hyp⟩ := mem_kids.mp hq
            obtain ⟨y2, hy2, hyp2⟩ := mem_kids.mp hq2
            rw [hy] at hy2
            cases hy2
            exact hxp (by rw [← hrj, ← hyp2, hyp])
        · intro h0
          rw [hpar1, hfp1]
          exact hr0 h0
        · intro h0
          obtain ⟨j2, rj2, ej2, pp2, hj2, hdj2, hrj2, hpj2, hej2, hfpj2, hfp2⟩ := hp0 h0
          obtain ⟨ej3, hej3, _, _, _, _, hfp3, _, _⟩ :=
            hold j2 ej2 (lt_trans hj2 hilt) hej2
          exact ⟨j2, rj2, ej3, pp2, hj2, getElem?_snoc_lt hdj2, hrj2, hpar1.trans hpj2, hej3,
            hfp3.trans hfpj2, hfp1.trans hfp2⟩
      · -- the new cell
        rw [hi, ← hinv.len]
        refine ⟨_, hnew, rfl, rfl, rfl, ?_, ?_, ?_⟩
        · rw [hkidsNew]
          rfl
        · intro h0
          have hl := hinv.len
          have : done.length = 0 := by omega
          exact absurd (List.eq_nil_of_length_eq_zero this) hdone
        · intro _
          have hjlt : j < s.heap.length := hinv.len ▸ (List.getElem?_eq_some_iff.mp hj).1
          obtain ⟨ej3, hej3, _, _, _, _, hfp3, _, _⟩ := hold j ej hjlt hej
          exact ⟨j, rj, ej3, pp, hjlt, getElem?_snoc_lt hj, hrj, rfl, hej3,
            hfp3.trans hpp, rfl⟩

theorem reconInv_initial (sp : CString) (k0 : Int) : ReconInv sp k0 [] (initialState k0) := by
  refine ⟨rfl, ?_, ?_, rfl, ?_, ?_⟩
  · show (1000 : Int) = ((List.replicate 1000 none).length : Int)
    rw [List.length_replicate]
    rfl
  · intro i r h
    simp at h
  · show k0 = k0 + attachedDirectories []
    simp [attachedDirectories]
  · intro i r h
    simp at h

/-- The loop of `reconstructTreeFromFile` runs through a well-formed file
without a fault and keeps `ReconInv`. -/
theorem reconstructRecords_wf (sp : CString) (k0 : Int) :
    ∀ (todo done : List Record) (s : ReconState), ReconInv sp k0 done s →
      WellFormedRecords (done ++ todo) →
      ∃ s1, reconstructRecords sp todo s = .ok s1 ∧ ReconInv sp k0 (done ++ todo) s1 := by
  intro todo
  induction todo with
  | nil =>
    intro done s hinv _
    exact ⟨s, rfl, by simpa using hinv⟩
  | cons r todo ih =>
    intro done s hinv hwf
    obtain ⟨hnd, hnonneg, hfirst, hlater⟩ := hwf
    have hsplit : done ++ r :: todo = (done ++ [r]) ++ todo := by simp
    have hr : (done ++ r :: todo)[done.length]? = some r := by
      rw [List.getElem?_append_right (le_refl _)]
      simp
    have hdone : ∀ (j : Nat) (x : Record), done[j]? = some x →
        (done ++ r :: todo)[j]? = some x := by
      intro j x hx
      rw [List.getElem?_append_left (List.getElem?_eq_some_iff.mp hx).1]
      exact hx
    have hinj : ∀ (i j : Nat) (x y : Record), (done ++ r :: todo)[i]? = some x →
        (done ++ r :: todo)[j]? = some y → x.id = y.id → i = j := by
      intro i j x y hx hy hxy
      exact records_index_unique _ hnd i j x y hx hy hxy
    have hid : 0 ≤ r.id := (hnonneg r (by simp)).1
    have hstep := reconstructRecord_step sp k0 done s r hinv hid (hnonneg r (by simp)).2
      (fun x hx => (hnonneg x (by simp [hx])).1)
      (by
        rw [hsplit, List.map_append] at hnd
        exact (List.nodup_append.mp hnd).1)
      (by
        intro x hx hxp
        obtain ⟨i, hi, hxi⟩ := List.getElem_of_mem hx
        have hi1 : i ≤ done.length := by
          simp at hi
          omega
        have hxi1 : (done ++ r :: todo)[i]? = some x := by
          rw [hsplit, List.getElem?_append_left hi, List.getElem?_eq_getElem hi, hxi]
        rcases Nat.eq_zero_or_pos i with h0 | h0
        · subst h0
          have := hfirst x hxi1
          omega
        · obtain ⟨j, rj, hj, hrj, hrjid⟩ := hlater i x h0 hxi1
          have := hinj j done.length rj r hrj hr (hrjid.trans hxp)
          omega)
      (by
        rcases Nat.eq_zero_or_pos done.length with h0 | h0
        · left
          have hd : done = [] := List.eq_nil_of_length_eq_zero h0
          refine ⟨hd, hfirst r ?_⟩
          rw [← h0]
          exact hr
        · right
          obtain ⟨j, rj, hj, hrj, hrjid⟩ := hlater done.length r h0 hr
          refine ⟨j, rj, ?_, hrjid⟩
          rw [List.getElem?_append_left hj] at hrj
          exact hrj)
    obtain ⟨s1, hrun, hinv1⟩ := hstep
    obtain ⟨s2, hrun2, hinv2⟩ := ih (done ++ [r]) s1 hinv1 (hsplit ▸ ⟨hnd, hnonneg, hfirst, hlater⟩)
    refine ⟨s2, ?_, hsplit ▸ hinv2⟩
    simp only [reconstructRecords, hrun]
    exact hrun2

theorem childrenOf_of_chain {heap : List HeapEntry} {p : Nat} {e : HeapEntry} {l : List Nat}
    (he : heap[p]? = some e) (hc : IsChain heap e.children l) (hlen : l.length ≤ heap.length) :
    childrenOf heap p = some l := by
  unfold childrenOf
  rw [he]
  exact walkChain_of_chain _ hc hlen

set_option maxRecDepth 100000 in
/-- C9, as stated, fails: the new capacity `id + 100` is computed in `int`.
The single record with id `INT_MAX` and `parentId` -1 is a sequence with
distinct non-negative ids whose first record has `parentId` -1, but the
table has to grow for it and the addition overflows. -/
theorem reconstruct_overflows_at_largest_id :
    (recordsLargestId.map fun r => r.id).Nodup ∧
      (∀ r ∈ recordsLargestId, 0 ≤ r.id ∧ r.id ≤ INT_MAX) ∧
      recordsLargestId.map (fun r => r.parentId) = [-1] ∧
      reconstructRecords ['m'] recordsLargestId (initialState 0) = .error .intOverflow :=
  ⟨by decide, by decide, rfl, rfl⟩

/-- C9 (amended): for every sequence of records with pairwise distinct ids
between 0 and `INT_MAX - 100`, whose first record has `parentId` -1 and in which the
`parentId` of every later record is the id of an earlier record,
`reconstructTreeFromFile` runs without a fault and returns the cell of the
first record as root, with `fullPath` `startPath/`; cell `i` holds record
`i`; the table still maps every id to its cell (nothing is lost when it
grows); the child list of every cell is the list of the records naming it as
parent, in file order; every later cell points to the cell of its `parentId`,
is in that cell's child list, and has `fullPath` `parent->fullPath/name`. -/
theorem reconstruct_well_formed (sp : CString) (k0 : Int) (recs : List Record)
    (hwf : WellFormedRecords recs) (hne : recs ≠ []) :
    ∃ s, reconstructRecords sp recs (initialState k0) = .ok s ∧
      s.root = some 0 ∧ s.heap.length = recs.length ∧
      ∀ (i : Nat) (r : Record), recs[i]? = some r →
        ∃ e : HeapEntry, s.heap[i]? = some e ∧ e.id = r.id ∧ e.name = r.name ∧
          e.isDirectory = decide (r.isDirectory ≠ 0) ∧
          s.nodes[r.id.toNat]? = some (some i) ∧
          childrenOf s.heap i = some (kids recs r.id) ∧
          (i = 0 → e.parent = none ∧ e.fullPath = some (sp ++ ['/'])) ∧
          (0 < i → ∃ (j : Nat) (rj : Record) (ej : HeapEntry) (pp : CString),
            j < i ∧ recs[j]? = some rj ∧ rj.id = r.parentId ∧ e.parent = some j ∧
            i ∈ kids recs rj.id ∧ s.heap[j]? = some ej ∧ ej.fullPath = some pp ∧
            e.fullPath = some (pp ++ '/' :: r.name)) := by
  obtain ⟨s, hrun, hinv⟩ := reconstructRecords_wf sp k0 recs [] (initialState k0)
    (reconInv_initial sp k0) (by simpa using hwf)
  simp only [List.nil_append] at hinv
  refine ⟨s, hrun, ?_, hinv.len, ?_⟩
  · rw [hinv.root, if_neg hne]
  · intro i r hr
    obtain ⟨e, he, hid, hname, hdir, hch, hr0, hp0⟩ := hinv.cell i r hr
    refine ⟨e, he, hid, hname, hdir, hinv.table i r hr, ?_, hr0, ?_⟩
    · exact childrenOf_of_chain he hch (hinv.len ▸ kids_length_le _ _)
    · intro h0
      obtain ⟨j, rj, ej, pp, hj, hrj, hrjid, hpar, hej, hpp, hfp⟩ := hp0 h0
      exact ⟨j, rj, ej, pp, hj, hrj, hrjid, hpar, mem_kids.mpr ⟨r, hr, hrjid.symm⟩, hej, hpp, hfp⟩

theorem recordsSparse_wf : WellFormedRecords recordsSparse := by
  refine ⟨by decide, by decide, ?_, ?_⟩
  · intro r h
    simp [recordsSparse] at h
    subst h
    rfl
  · intro i r hi h
    match i, hi, h with
    | 1, _, h =>
      simp [recordsSparse] at h
      subst h
      exact ⟨0, ⟨1, ['r'], 1, -1⟩, by decide, rfl, rfl⟩
    | n + 2, _, h => simp [recordsSparse] at h

/-- Witness of C9 (amended): the records (1, parent -1) and (1050, parent 1); the
child list of the root (id 1, cell 0) is the single cell 1, which holds the
record of id 1050. -/
theorem reconstruct_well_formed_witness :
    WellFormedRecords recordsSparse ∧ recordsSparse ≠ [] ∧ kids recordsSparse 1 = [1] ∧
      ∃ s, reconstructRecords ['m'] recordsSparse (initialState 0) = .ok s ∧
        s.root = some 0 ∧ s.heap.length = recordsSparse.length ∧
        ∀ (i : Nat) (r : Record), recordsSparse[i]? = some r →
          ∃ e : HeapEntry, s.heap[i]? = some e ∧ e.id = r.id ∧ e.name = r.name ∧
            e.isDirectory = decide (r.isDirectory ≠ 0) ∧
            s.nodes[r.id.toNat]? = some (some i) ∧
            childrenOf s.heap i = some (kids recordsSparse r.id) ∧
            (i = 0 → e.parent = none ∧ e.fullPath = some (['m'] ++ ['/'])) ∧
            (0 < i → ∃ (j : Nat) (rj : Record) (ej : HeapEntry) (pp : CString),
              j < i ∧ recordsSparse[j]? = some rj ∧ rj.id = r.parentId ∧ e.parent = some j ∧
              i ∈ kids recordsSparse rj.id ∧ s.heap[j]? = some ej ∧ ej.fullPath = some pp ∧
              e.fullPath = some (pp ++ '/' :: r.name)) :=
  ⟨recordsSparse_wf, by decide, by decide,
    reconstruct_well_formed ['m'] 0 recordsSparse recordsSparse_wf (by decide)⟩

/-! ## The text of a record -/

theorem printNatAux_acc (fuel n : Nat) (acc : List Char) :
    printNatAux fuel n acc = printNatAux fuel n [] ++ acc := by
  induction fuel generalizing n acc with
  | zero => rfl
  | succ fuel ih =>
    unfold printNatAux
    by_cases h : n < 10
    · simp [h]
    · simp only [h, if_false]
      rw [ih (n / 10) (digitChar n :: acc), ih (n / 10) [digitChar n]]
      simp

theorem printNatAux_fuel (fuel1 fuel2 n : Nat) (acc : List Char) (h1 : n < fuel1)
    (h2 : n < fuel2) : printNatAux fuel1 n acc = printNatAux fuel2 n acc := by
  induction fuel1 generalizing fuel2 n acc with
  | zero => omega
  | succ fuel1 ih =>
    cases fuel2 with
    | zero => omega
    | succ fuel2 =>
      unfold printNatAux
      by_cases h : n < 10
      · simp [h]
      · simp only [h, if_false]
        exact ih fuel2 (n / 10) _ (by omega) (by omega)

theorem printNat_eq (n : Nat) :
    printNat n = if n < 10 then [digitChar n] else printNat (n / 10) ++ [digitChar n] := by
  unfold printNat
  conv_lhs => unfold printNatAux
  by_cases h : n < 10
  · simp [h]
  · simp only [h, if_false]
    rw [printNatAux_acc, printNatAux_fuel n (n / 10 + 1) (n / 10) [] (by omega) (by omega)]

theorem digitChar_facts : ∀ m, m < 10 →
    (Char.ofNat (48 + m)).isDigit = true ∧ (Char.ofNat (48 + m)).toNat - 48 = m ∧
      isspace (Char.ofNat (48 + m)) = false ∧ Char.ofNat (48 + m) ≠ '-' ∧
      Char.ofNat (48 + m) ≠ '+' := by
  decide

theorem digitChar_isDigit (n : Nat) : (digitChar n).isDigit = true :=
  (digitChar_facts (n % 10) (Nat.mod_lt _ (by decide))).1

theorem digitChar_value (n : Nat) : (digitChar n).toNat - 48 = n % 10 :=
  (digitChar_facts (n % 10) (Nat.mod_lt _ (by decide))).2.1

theorem printNat_ne_nil (n : Nat) : printNat n ≠ [] := by
  rw [printNat_eq]
  split <;> simp

theorem printNat_digits (n : Nat) : ∀ c ∈ printNat n, c.isDigit = true := by
  induction n using Nat.strong_induction_on with
  | _ n ih =>
    rw [printNat_eq]
    by_cases h : n < 10
    · simp [h, digitChar_isDigit]
    · simp only [h, if_false, List.mem_append, List.mem_singleton]
      rintro c (hc | rfl)
      · exact ih (n / 10) (by omega) c hc
      · exact digitChar_isDigit n

theorem digitsValue_snoc (ds : List Char) (c : Char) :
    digitsValue (ds ++ [c]) = 10 * digitsValue ds + (c.toNat - 48) := by
  simp [digitsValue, List.foldl_append]

theorem digitsValue_printNat (n : Nat) : digitsValue (printNat n) = n := by
  induction n using Nat.strong_induction_on with
  | _ n ih =>
    rw [printNat_eq]
    by_cases h : n < 10
    · simp only [h, if_true]
      have := digitChar_value n
      simp only [digitsValue, List.foldl_cons, List.foldl_nil]
      omega
    · simp only [h, if_false]
      rw [digitsValue_snoc, ih (n / 10) (by omega), digitChar_value]
      omega

theorem printNat_length (n k : Nat) (hk : 0 < k) (h : n < 10 ^ k) : (printNat n).length ≤ k := by
  induction k generalizing n with
  | zero => omega
  | succ k ih =>
    rw [printNat_eq]
    by_cases h10 : n < 10
    · simp [h10]
    · simp only [h10, if_false, List.length_append, List.length_singleton]
      have hk1 : 0 < k := by
        rcases Nat.eq_zero_or_pos k with h0 | h0
        · subst h0
          simp at h
          omega
        · exact h0
      have : n / 10 < 10 ^ k := by
        rw [Nat.div_lt_iff_lt_mul (by decide)]
        rw [Nat.pow_succ] at h
        exact h
      have := ih (n / 10) hk1 this
      omega

theorem isDigit_not_special (c : Char) (h : c.isDigit = true) :
    isspace c = false ∧ c ≠ '\t' ∧ c ≠ '-' ∧ c ≠ '+' ∧ c ≠ '\n' := by
  have key : ∀ x : Char, x.isDigit = false → c ≠ x := by
    intro x hx hcx
    rw [hcx, hx] at h
    exact absurd h (by simp)
  refine ⟨?_, key _ (by decide), key _ (by decide), key _ (by decide), key _ (by decide)⟩
  simp only [isspace, Bool.or_eq_false_iff, beq_eq_false_iff_ne, ne_eq]
  exact ⟨⟨⟨⟨⟨key _ (by decide), key _ (by decide)⟩, key _ (by decide)⟩, key _ (by decide)⟩,
    key _ (by decide)⟩, key _ (by decide)⟩

theorem printInt_head (v : Int) :
    ∃ c t, printInt v = c :: t ∧ isspace c = false ∧ c ≠ '\t' := by
  cases v with
  | ofNat n =>
    simp only [printInt]
    cases hp : printNat n with
    | nil => exact absurd hp (printNat_ne_nil n)
    | cons c t =>
      have hd := isDigit_not_special c (printNat_digits n c (by simp [hp]))
      exact ⟨c, t, rfl, hd.1, hd.2.1⟩
  | negSucc n => exact ⟨'-', _, rfl, by decide, by decide⟩

theorem takeWhile_append_stop {α : Type} (p : α → Bool) (l rest : List α) (x : α)
    (hl : ∀ a ∈ l, p a = true) (hx : p x = false) :
    (l ++ x :: rest).takeWhile p = l ∧ (l ++ x :: rest).dropWhile p = x :: rest := by
  induction l with
  | nil => simp [List.takeWhile, List.dropWhile, hx]
  | cons a l ih =>
    have ha := hl a (List.mem_cons_self _ _)
    have := ih fun b hb => hl b (List.mem_cons_of_mem _ hb)
    simp [List.takeWhile, List.dropWhile, ha, this.1, this.2]

/-- A value within `int` is stored as it is. -/
theorem storeInt_of_int (v : Int) (h1 : -2147483648 ≤ v) (h2 : v ≤ 2147483647) :
    storeInt v = v := by
  unfold storeInt LONG_MAX
  simp only
  rw [if_neg (by omega), if_neg (by omega)]
  omega

/-- `%d` reads back what `%d` printed, when a character that is not a digit
follows. -/
theorem scanInt_printInt (v : Int) (x : Char) (rest : List Char) (hx : x.isDigit = false) :
    scanInt (printInt v ++ x :: rest) = some (storeInt v, x :: rest) := by
  cases v with
  | ofNat n =>
    obtain ⟨c, t, hct, hsp, _⟩ := printInt_head (Int.ofNat n)
    have hd := printNat_digits n
    have hc : c.isDigit = true := hd c (by
      have : printNat n = c :: t := hct
      simp [this])
    have hns := isDigit_not_special c hc
    have htw := takeWhile_append_stop Char.isDigit (printNat n) rest x hd hx
    have hskip : skipSpace (printInt (Int.ofNat n) ++ x :: rest) =
        printNat n ++ x :: rest := by
      show List.dropWhile isspace (printNat n ++ x :: rest) = _
      have : printNat n = c :: t := hct
      rw [this]
      simp [List.dropWhile, hsp]
    unfold scanInt
    rw [hskip]
    have hbody : (match printNat n ++ x :: rest with
        | '-' :: t => (true, t)
        | '+' :: t => (false, t)
        | t => (false, t)) = (false, printNat n ++ x :: rest) := by
      have : printNat n = c :: t := hct
      rw [this]
      simp only [List.cons_append]
      split
      · rename_i heq
        exact absurd (List.cons.inj heq).1 hns.2.2.1
      · rename_i heq
        exact absurd (List.cons.inj heq).1 hns.2.2.2.1
      · rfl
    simp only [hbody, htw.1, htw.2, printNat_ne_nil, if_false, digitsValue_printNat]
    rfl
  | negSucc n =>
    have hd := printNat_digits (n + 1)
    have htw := takeWhile_append_stop Char.isDigit (printNat (n + 1)) rest x hd hx
    unfold scanInt
    have hskip : skipSpace (printInt (Int.negSucc n) ++ x :: rest) =
        '-' :: (printNat (n + 1) ++ x :: rest) := by
      show List.dropWhile isspace ('-' :: (printNat (n + 1) ++ x :: rest)) = _
      simp [List.dropWhile, show isspace '-' = false by decide]
    rw [hskip]
    simp only [htw.1, htw.2, printNat_ne_nil, if_false, digitsValue_printNat]
    rfl

theorem scanName_name (name rest : List Char) (hne : name ≠ []) (hlen : name.length ≤ 255)
    (htab : '\t' ∉ name) :
    scanName (name ++ '\t' :: rest) = some (name, '\t' :: rest) := by
  have htw := takeWhile_append_stop (fun c => c != '\t') name rest '\t'
    (by
      intro a ha
      have : a ≠ '\t' := fun h => htab (h ▸ ha)
      simpa using this)
    (by decide)
  unfold scanName
  simp only [htw.1, List.take_of_length_le hlen, hne, if_false, List.drop_left]

theorem skipSpace_tab (s : List Char) (c : Char) (t : List Char) (hs : s = c :: t)
    (hc : isspace c = false) : skipSpace ('\t' :: s) = s := by
  subst hs
  simp [skipSpace, List.dropWhile, hc, show isspace '\t' = true by decide]

/-- `sscanf` reads back the four values of a record that `fprintf` wrote,
when the name is persistable. -/
theorem sscanfRecord_fprintfRecord (id : Int) (name : CString) (b : Bool) (pid : Int)
    (hid : -2147483648 ≤ id ∧ id ≤ 2147483647) (hpid : -2147483648 ≤ pid ∧ pid ≤ 2147483647)
    (hname : PersistableName name) :
    sscanfRecord (fprintfRecord id name b pid) = some ⟨id, name, boolToInt b, pid⟩ := by
  have hsb : storeInt (boolToInt b) = boolToInt b := by cases b <;> decide
  obtain ⟨hne, hlen, htab, _, hhead⟩ := hname
  obtain ⟨c, t, hct⟩ : ∃ c t, name = c :: t := by
    cases name with
    | nil => exact absurd rfl hne
    | cons c t => exact ⟨c, t, rfl⟩
  have hcs : isspace c = false := by simpa [hct] using hhead
  obtain ⟨c1, t1, h1, hs1, _⟩ := printInt_head (boolToInt b)
  obtain ⟨c2, t2, h2, hs2, _⟩ := printInt_head pid
  unfold sscanfRecord fprintfRecord
  rw [scanInt_printInt id '\t' _ (by decide)]
  simp only
  rw [skipSpace_tab _ c (t ++ '\t' :: (printInt (boolToInt b) ++ '\t' :: (printInt pid ++ ['\n'])))
    (by rw [hct]; rfl) hcs]
  rw [scanName_name name _ hne hlen htab]
  simp only
  rw [skipSpace_tab _ c1 (t1 ++ '\t' :: (printInt pid ++ ['\n'])) (by rw [h1]; rfl) hs1]
  rw [scanInt_printInt (boolToInt b) '\t' _ (by decide)]
  simp only
  rw [skipSpace_tab _ c2 (t2 ++ ['\n']) (by rw [h2]; rfl) hs2]
  rw [scanInt_printInt pid '\n' [] (by decide)]
  simp only [storeInt_of_int id hid.1 hid.2, storeInt_of_int pid hpid.1 hpid.2, hsb]

theorem fgets_line (body rest : List Char) :
    ∀ n, '\n' ∉ body → body.length < n →
      fgets n (body ++ '\n' :: rest) = (body ++ ['\n'], rest) := by
  induction body with
  | nil =>
    intro n _ hn
    cases n with
    | zero => omega
    | succ n => simp [fgets]
  | cons a body ih =>
    intro n hnl hn
    cases n with
    | zero => omega
    | succ n =>
      have ha : a ≠ '\n' := fun h => hnl (by simp [h])
      have := ih n (fun h => hnl (List.mem_cons_of_mem _ h)) (by simpa using hn)
      simp [fgets, ha, this]

/-- The loop `while (fgets(...))` sees exactly the records that were written,
when every record is a line of at most 1023 characters. -/
theorem readLines_flatten (lines : List (List Char)) :
    ∀ fuel, (∀ l ∈ lines, ∃ body, l = body ++ ['\n'] ∧ '\n' ∉ body ∧ body.length < 1023) →
      lines.flatten.length ≤ fuel → readLines fuel lines.flatten = lines := by
  induction lines with
  | nil =>
    intro fuel _ _
    cases fuel <;> rfl
  | cons l lines ih =>
    intro fuel hl hfuel
    obtain ⟨body, rfl, hnl, hlen⟩ := hl _ (List.mem_cons_self _ _)
    have hflat : ((body ++ ['\n']) :: lines).flatten = body ++ '\n' :: lines.flatten := by simp
    rw [hflat] at hfuel ⊢
    cases fuel with
    | zero => simp at hfuel
    | succ fuel =>
      have hfg := fgets_line body lines.flatten 1023 hnl hlen
      have hrest := ih fuel (fun l hl' => hl l (List.mem_cons_of_mem _ hl'))
        (by simp only [List.length_append, List.length_cons] at hfuel; omega)
      cases hb : body ++ '\n' :: lines.flatten with
      | nil => simp at hb
      | cons c t =>
        rw [hb] at hfg
        simp only [readLines, hfg, hrest]

theorem printInt_no_newline (v : Int) : '\n' ∉ printInt v := by
  intro h
  cases v with
  | ofNat n => exact (isDigit_not_special _ (printNat_digits n _ h)).2.2.2.2 rfl
  | negSucc n =>
    simp only [printInt, List.mem_cons] at h
    rcases h with h | h
    · exact absurd h (by decide)
    · exact (isDigit_not_special _ (printNat_digits (n + 1) _ h)).2.2.2.2 rfl

theorem printInt_length (v : Int) (h1 : -10000000000 < v) (h2 : v < 10000000000) :
    (printInt v).length ≤ 11 := by
  cases v with
  | ofNat n =>
    have : n < 10 ^ 10 := by
      have : (n : Int) < 10000000000 := h2
      norm_num
      omega
    have := printNat_length n 10 (by decide) this
    simp only [printInt]
    omega
  | negSucc n =>
    have : n + 1 < 10 ^ 10 := by
      have h3 : -10000000000 < Int.negSucc n := h1
      rw [Int.negSucc_eq] at h3
      norm_num
      omega
    have := printNat_length (n + 1) 10 (by decide) this
    simp only [printInt, List.length_cons]
    omega

theorem boolToInt_range (b : Bool) : -10000000000 < boolToInt b ∧ boolToInt b < 10000000000 := by
  cases b <;> decide

/-- A record written by `fprintf` is one line of fewer than 1024 characters. -/
theorem fprintfRecord_line (id : Int) (name : CString) (b : Bool) (pid : Int)
    (hid : -10000000000 < id ∧ id < 10000000000)
    (hpid : -10000000000 < pid ∧ pid < 10000000000)
    (hname : PersistableName name) :
    ∃ body, fprintfRecord id name b pid = body ++ ['\n'] ∧ '\n' ∉ body ∧ body.length < 1023 := by
  obtain ⟨_, hlen, _, hnl, _⟩ := hname
  refine ⟨printInt id ++ '\t' :: (name ++ '\t' :: (printInt (boolToInt b) ++
    '\t' :: printInt pid)), ?_, ?_, ?_⟩
  · simp [fprintfRecord]
  · have h1 := printInt_no_newline id
    have h2 := printInt_no_newline (boolToInt b)
    have h3 := printInt_no_newline pid
    simp only [List.mem_append, List.mem_cons, not_or]
    exact ⟨h1, by decide, hnl, by decide, h2, by decide, h3⟩
  · have h1 := printInt_length id hid.1 hid.2
    have h2 := printInt_length (boolToInt b) (boolToInt_range b).1 (boolToInt_range b).2
    have h3 := printInt_length pid hpid.1 hpid.2
    simp only [List.length_append, List.length_cons]
    omega

/-- What the reader parses from the lines written for a chain. -/
theorem writeChain_lines (t : FileSystemEntry) :
    ∀ p : Int, (-2147483648 ≤ p ∧ p ≤ 2147483647) →
      (∀ d ∈ chainData t, (-2147483648 ≤ d.id ∧ d.id ≤ 2147483647) ∧ PersistableName d.name) →
      (writeChain t p).map sscanfRecord = (chainRecords t p).map some ∧
        ∀ l ∈ writeChain t p, ∃ body, l = body ++ ['\n'] ∧ '\n' ∉ body ∧ body.length < 1023 := by
  induction t with
  | null => intro p _ _; simp [writeChain, chainRecords]
  | node d c n ihc ihn =>
    intro p hp hd
    have hself := hd d (by simp [chainData])
    have hc := ihc d.id hself.1 fun x hx => hd x (by simp [chainData, hx])
    have hn := ihn p hp fun x hx => hd x (by simp [chainData, hx])
    constructor
    · simp only [writeChain, chainRecords, List.map_cons, List.map_append, List.cons_append,
        hc.1, hn.1, sscanfRecord_fprintfRecord _ _ _ _ hself.1 hp hself.2]
    · intro l hl
      simp only [writeChain, List.cons_append, List.mem_cons, List.mem_append] at hl
      rcases hl with rfl | hl | hl
      · exact fprintfRecord_line _ _ _ _ ⟨by omega, by omega⟩ ⟨by omega, by omega⟩ hself.2
      · exact hc.2 l hl
      · exact hn.2 l hl

theorem filterMap_of_map_some {α β : Type} (f : α → Option β) (l : List α) (r : List β)
    (h : l.map f = r.map some) : l.filterMap f = r := by
  induction l generalizing r with
  | nil =>
    cases r with
    | nil => rfl
    | cons b r => simp at h
  | cons a l ih =>
    cases r with
    | nil => simp at h
    | cons b r =>
      simp only [List.map_cons, List.cons.injEq] at h
      simp [List.filterMap_cons, h.1, ih r h.2]

/-- The records that `reconstructTreeFromFile` processes for the file that
`freeAndWriteTree` wrote are the records of the tree in pre-order. -/
theorem fileLines_freeAndWriteTree (t : FileSystemEntry)
    (hd : ∀ d ∈ subtreeData t, (0 ≤ d.id ∧ d.id ≤ INT_MAX) ∧ PersistableName d.name) :
    (fileLines (freeAndWriteTree t)).filterMap sscanfRecord = treeRecords t (-1) := by
  cases t with
  | null => rfl
  | node d c n =>
    have hr : ∀ x ∈ subtreeData (node d c n),
        (-2147483648 ≤ x.id ∧ x.id ≤ 2147483647) ∧ PersistableName x.name := by
      intro x hx
      have := hd x hx
      simp only [INT_MAX] at this
      exact ⟨⟨by omega, by omega⟩, this.2⟩
    have hself := hr d (by simp [subtreeData])
    have hc := writeChain_lines c d.id hself.1 fun x hx => hr x (by simp [subtreeData, hx])
    have hlines : ∀ l ∈ writeTreeToFile (node d c n) (-1),
        ∃ body, l = body ++ ['\n'] ∧ '\n' ∉ body ∧ body.length < 1023 := by
      intro l hl
      simp only [writeTreeToFile, List.mem_cons] at hl
      rcases hl with rfl | hl
      · exact fprintfRecord_line _ _ _ _ ⟨by omega, by omega⟩ (by decide) hself.2
      · exact hc.2 l hl
    unfold fileLines freeAndWriteTree
    rw [readLines_flatten _ _ hlines (le_refl _)]
    apply filterMap_of_map_some
    simp only [writeTreeToFile, treeRecords, List.map_cons, hc.1,
      sscanfRecord_fprintfRecord d.id d.name d.isDirectory (-1) hself.1 (by decide) hself.2]

/-! ## The lines of the written file -/

theorem textLines_line (body rest : List Char) (h : '\n' ∉ body) :
    textLines (body ++ '\n' :: rest) = (body ++ ['\n']) :: textLines rest := by
  induction body with
  | nil => simp [textLines]
  | cons c b ih =>
    have hc : c ≠ '\n' := fun hc => h (hc ▸ List.mem_cons_self _ _)
    have hb : '\n' ∉ b := fun hb => h (List.mem_cons_of_mem _ hb)
    show textLines (c :: (b ++ '\n' :: rest)) = _
    rw [textLines, if_neg hc, ih hb]
    rfl

theorem textLines_flatten (lines : List (List Char))
    (h : ∀ l ∈ lines, ∃ body, l = body ++ ['\n'] ∧ '\n' ∉ body) :
    textLines lines.flatten = lines := by
  induction lines with
  | nil => rfl
  | cons l lines ih =>
    obtain ⟨body, rfl, hb⟩ := h _ (List.mem_cons_self _ _)
    have hflat : ((body ++ ['\n']) :: lines).flatten = body ++ '\n' :: lines.flatten := by simp
    rw [hflat, textLines_line _ _ hb, ih fun l hl => h l (List.mem_cons_of_mem _ hl)]

theorem fprintfRecord_body (id : Int) (name : CString) (b : Bool) (pid : Int)
    (hname : '\n' ∉ name) :
    ∃ body, fprintfRecord id name b pid = body ++ ['\n'] ∧ '\n' ∉ body := by
  refine ⟨printInt id ++ '\t' :: (name ++ '\t' :: (printInt (boolToInt b) ++
    '\t' :: printInt pid)), ?_, ?_⟩
  · simp [fprintfRecord]
  · have h1 := printInt_no_newline id
    have h2 := printInt_no_newline (boolToInt b)
    have h3 := printInt_no_newline pid
    simp only [List.mem_append, List.mem_cons, not_or]
    exact ⟨h1, by decide, hname, by decide, h2, by decide, h3⟩

theorem writeChain_bodies (t : FileSystemEntry) :
    ∀ p : Int, (∀ d ∈ chainData t, '\n' ∉ d.name) →
      ∀ l ∈ writeChain t p, ∃ body, l = body ++ ['\n'] ∧ '\n' ∉ body := by
  induction t with
  | null => intro p _ l hl; simp [writeChain] at hl
  | node d c n ihc ihn =>
    intro p hd l hl
    simp only [writeChain, List.cons_append, List.mem_cons, List.mem_append] at hl
    rcases hl with rfl | hl | hl
    · exact fprintfRecord_body _ _ _ _ (hd d (by simp [chainData]))
    · exact ihc d.id (fun x hx => hd x (by simp [chainData, hx])) l hl
    · exact ihn p (fun x hx => hd x (by simp [chainData, hx])) l hl

/-- C8, as stated, fails: a name may contain a newline, and then the record
of the node is more than one line of the file.  The single node named `a`,
newline, `b` is written as the two lines `1<TAB>a` and `b<TAB>1<TAB>-1`. -/
theorem writeTreeToFile_name_with_newline :
    subtreeSize treeNewlineName = 1 ∧
      textLines (writeTreeToFile treeNewlineName (-1)).flatten =
        ["1\ta\n".toList, "b\t1\t-1\n".toList] := by
  decide

/-- C8 (amended): for every tree whose names contain no newline, the lines
of the text that `writeTreeToFile(root, file, p)` writes are the outputs of
its `fprintf` calls, one line per node; in every case it emits the record of
the root with parent field `p`, followed, for each child in sibling order,
by everything that `writeTreeToFile(child, file, root->id)` emits (pre-order,
so the record of a node precedes the records of its descendants and every
other node carries the id of its owner); one record per node; a record is
`id<TAB>name<TAB>isDirectory<TAB>parentId<NL>` with `isDirectory` rendered as
`0` or `1`; nothing is emitted for NULL. -/
theorem writeTreeToFile_serialised_form (d : EntryData) (c n : FileSystemEntry) (p : Int) :
    ((∀ x ∈ subtreeData (node d c n), '\n' ∉ x.name) →
        textLines (writeTreeToFile (node d c n) p).flatten =
          writeTreeToFile (node d c n) p) ∧
      writeTreeToFile (node d c n) p =
        fprintfRecord d.id d.name d.isDirectory p ::
          (childList (node d c n)).flatMap (fun ch => writeTreeToFile ch d.id) ∧
      (writeTreeToFile (node d c n) p).length = subtreeSize (node d c n) ∧
      (∀ (id : Int) (name : CString) (b : Bool) (pid : Int),
        fprintfRecord id name b pid =
          printInt id ++ ['\t'] ++ name ++ ['\t'] ++ [if b then '1' else '0'] ++ ['\t'] ++
            printInt pid ++ ['\n']) ∧
      writeTreeToFile null p = [] := by
  refine ⟨?_, ?_, ?_, ?_, rfl⟩
  · intro hnames
    apply textLines_flatten
    intro l hl
    simp only [writeTreeToFile, List.mem_cons] at hl
    rcases hl with rfl | hl
    · exact fprintfRecord_body _ _ _ _ (hnames d (by simp [subtreeData]))
    · exact writeChain_bodies c d.id (fun x hx => hnames x (by simp [subtreeData, hx])) l hl
  · show fprintfRecord d.id d.name d.isDirectory p :: writeChain c d.id = _
    rw [writeChain_eq_flatMap]
    rfl
  · simp only [writeTreeToFile, subtreeSize, List.length_cons, writeChain_length]
    omega
  · intro id name b pid
    have h0 : printInt 0 = ['0'] := by decide
    have h1 : printInt 1 = ['1'] := by decide
    cases b <;> simp [fprintfRecord, boolToInt, h0, h1]

/-- C8 (amended) on `treeWithEmptyDir`: five nodes, five lines. -/
theorem writeTreeToFile_serialised_form_witness :
    (∀ x ∈ subtreeData treeWithEmptyDir, '\n' ∉ x.name) ∧
      textLines (writeTreeToFile treeWithEmptyDir (-1)).flatten =
        writeTreeToFile treeWithEmptyDir (-1) ∧
      (textLines (writeTreeToFile treeWithEmptyDir (-1)).flatten).length = 5 :=
  ⟨by decide,
    (writeTreeToFile_serialised_form ⟨1, ['r'], ['/'], true, false, -1⟩
      (childrenPtr treeWithEmptyDir) null (-1)).1 (by decide),
    by decide⟩

/-! ## The records of a tree form a well-formed file -/

theorem chainRecords_fields (t : FileSystemEntry) (owner : Int) :
    (chainRecords t owner).map (fun r => (r.id, r.name, r.isDirectory)) =
      (chainData t).map fun d => (d.id, d.name, boolToInt d.isDirectory) := by
  induction t generalizing owner with
  | null => rfl
  | node d c n ihc ihn => simp [chainRecords, chainData, ihc, ihn]

theorem treeRecords_fields (t : FileSystemEntry) (owner : Int) :
    (treeRecords t owner).map (fun r => (r.id, r.name, r.isDirectory)) =
      (subtreeData t).map fun d => (d.id, d.name, boolToInt d.isDirectory) := by
  cases t with
  | null => rfl
  | node d c n => simp [treeRecords, subtreeData, chainRecords_fields]

/-- In the records of a chain every record names the owner of the chain or
an earlier record as its parent. -/
theorem chainRecords_parent (t : FileSystemEntry) :
    ∀ (owner : Int) (i : Nat) (r : Record), (chainRecords t owner)[i]? = some r →
      r.parentId = owner ∨
        ∃ (j : Nat) (rj : Record), j < i ∧ (chainRecords t owner)[j]? = some rj ∧
          rj.id = r.parentId := by
  induction t with
  | null => intro owner i r h; simp [chainRecords] at h
  | node d c n ihc ihn =>
    intro owner i r h
    simp only [chainRecords] at h ⊢
    cases i with
    | zero =>
      left
      simp only [List.getElem?_cons_zero, Option.some.injEq] at h
      rw [← h]
    | succ i =>
      rw [List.getElem?_cons_succ] at h
      by_cases hi : i < (chainRecords c d.id).length
      · rw [List.getElem?_append_left hi] at h
        right
        rcases ihc d.id i r h with hp | ⟨j, rj, hj, hrj, hid⟩
        · exact ⟨0, ⟨d.id, d.name, boolToInt d.isDirectory, owner⟩, Nat.succ_pos _,
            List.getElem?_cons_zero, hp.symm⟩
        · refine ⟨j + 1, rj, Nat.succ_lt_succ hj, ?_, hid⟩
          rw [List.getElem?_cons_succ, List.getElem?_append_left (lt_trans hj hi)]
          exact hrj
      · have hi1 : (chainRecords c d.id).length ≤ i := not_lt.mp hi
        rw [List.getElem?_append_right hi1] at h
        rcases ihn owner _ r h with hp | ⟨j, rj, hj, hrj, hid⟩
        · left
          exact hp
        · right
          refine ⟨(chainRecords c d.id).length + j + 1, rj, by omega, ?_, hid⟩
          rw [List.getElem?_cons_succ, List.getElem?_append_right (by omega)]
          rw [show (chainRecords c d.id).length + j - (chainRecords c d.id).length = j by omega]
          exact hrj

theorem treeRecords_wf (t : FileSystemEntry)
    (hnd : ((subtreeData t).map fun d => d.id).Nodup)
    (hnonneg : ∀ d ∈ subtreeData t, 0 ≤ d.id ∧ d.id ≤ INT_MAX - 100) :
    WellFormedRecords (treeRecords t (-1)) := by
  have hids : (treeRecords t (-1)).map (fun r => r.id) = (subtreeData t).map fun d => d.id := by
    have := congrArg (List.map fun x : Int × CString × Int => x.1) (treeRecords_fields t (-1))
    simpa [List.map_map, Function.comp_def] using this
  refine ⟨hids ▸ hnd, ?_, ?_, ?_⟩
  · intro r hr
    have : r.id ∈ (treeRecords t (-1)).map (fun r => r.id) := List.mem_map.mpr ⟨r, hr, rfl⟩
    rw [hids] at this
    obtain ⟨d, hd, hdr⟩ := List.mem_map.mp this
    rw [← hdr]
    exact hnonneg d hd
  · intro r hr
    cases t with
    | null => simp [treeRecords] at hr
    | node d c n =>
      simp only [treeRecords, List.getElem?_cons_zero, Option.some.injEq] at hr
      rw [← hr]
  · intro i r hi hr
    cases t with
    | null => simp [treeRecords] at hr
    | node d c n =>
      cases i with
      | zero => omega
      | succ i =>
        simp only [treeRecords, List.getElem?_cons_succ] at hr ⊢
        rcases chainRecords_parent c d.id i r hr with hp | ⟨j, rj, hj, hrj, hid⟩
        · exact ⟨0, ⟨d.id, d.name, boolToInt d.isDirectory, -1⟩, Nat.succ_pos _,
            List.getElem?_cons_zero, hp.symm⟩
        · exact ⟨j + 1, rj, Nat.succ_lt_succ hj, by simpa using hrj, hid⟩

/-! ## Round trip -/

set_option maxRecDepth 100000 in
/-- C1: the code does not do this.  `treeLeadingSpace` meets the conditions
of the claim (distinct non-negative ids; names non-empty, short, without tab
or newline) and is written verbatim, but the reader, whose `%255[^\t]` is
meant to take the name as it stands, has the white-space directive `\t` in
front of it, which swallows the space that begins the name of the file: the
name is read back as `a`. -/
theorem roundtrip_loses_leading_space :
    ((subtreeData treeLeadingSpace).map fun d => d.id).Nodup ∧
      (∀ d ∈ subtreeData treeLeadingSpace, 0 ≤ d.id ∧ d.name ≠ [] ∧ d.name.length ≤ 255 ∧
        '\t' ∉ d.name ∧ '\n' ∉ d.name) ∧
      (subtreeData treeLeadingSpace).map (fun d => d.name) = [['r'], [' ', 'a']] ∧
      ∃ s, reconstructTreeFromFile (freeAndWriteTree treeLeadingSpace) ['m'] 0 = .ok s ∧
        s.heap.map (fun e => e.name) = [['r'], ['a']] :=
  ⟨by decide, by decide, rfl, _, rfl, rfl⟩

/-- Where the round trip of structure does hold: for every tree whose
entries have pairwise distinct ids between 0 and `INT_MAX - 100` and whose
names are non-empty, at most 255 bytes, contain no tab or newline and do not
begin with a white-space character,
writing it with `writeTreeToFile` (initial `parentId` -1) and reading the file
back with `reconstructTreeFromFile` runs without a fault and yields the root
cell first and one cell per node, in pre-order, with the same id, name and
`isDirectory`; every cell other than the root points to the cell whose id is
the id of its owner in the original tree, and the child list of every cell
consists of the cells of the nodes it owns in the original tree. -/
theorem roundtrip_structure (t : FileSystemEntry) (sp : CString) (k0 : Int)
    (hroot : t ≠ null)
    (hnd : ((subtreeData t).map fun d => d.id).Nodup)
    (hd : ∀ d ∈ subtreeData t, (0 ≤ d.id ∧ d.id ≤ INT_MAX - 100) ∧ PersistableName d.name) :
    ∃ s, reconstructTreeFromFile (freeAndWriteTree t) sp k0 = .ok s ∧ s.root = some 0 ∧
      s.heap.map (fun e => (e.id, e.name, e.isDirectory)) =
        (subtreeData t).map (fun d => (d.id, d.name, d.isDirectory)) ∧
      ∀ (i : Nat) (r : Record), (treeRecords t (-1))[i]? = some r →
        ∃ e : HeapEntry, s.heap[i]? = some e ∧ e.id = r.id ∧
          childrenOf s.heap i = some (kids (treeRecords t (-1)) r.id) ∧
          (i = 0 → e.parent = none) ∧
          (0 < i → ∃ (j : Nat) (ej : HeapEntry), e.parent = some j ∧ s.heap[j]? = some ej ∧
            ej.id = r.parentId) := by
  have hrecs := fileLines_freeAndWriteTree t fun d hd1 =>
    ⟨⟨(hd d hd1).1.1, by have := (hd d hd1).1.2; omega⟩, (hd d hd1).2⟩
  have hwf := treeRecords_wf t hnd fun d hd1 => (hd d hd1).1
  have hne : treeRecords t (-1) ≠ [] := by
    cases t with
    | null => exact absurd rfl hroot
    | node d c n => simp [treeRecords]
  obtain ⟨s, hrun, hinv⟩ := reconstructRecords_wf sp k0 (treeRecords t (-1)) []
    (initialState k0) (reconInv_initial sp k0) (by simpa using hwf)
  simp only [List.nil_append] at hinv
  refine ⟨s, ?_, ?_, ?_, ?_⟩
  · unfold reconstructTreeFromFile
    rw [hrecs]
    exact hrun
  · rw [hinv.root, if_neg hne]
  · have hfields : (treeRecords t (-1)).map
        (fun r => (r.id, r.name, decide (r.isDirectory ≠ 0))) =
        (subtreeData t).map (fun d => (d.id, d.name, d.isDirectory)) := by
      have := congrArg (List.map fun x : Int × CString × Int => (x.1, x.2.1, decide (x.2.2 ≠ 0)))
        (treeRecords_fields t (-1))
      have hb : ∀ b : Bool, (!decide (boolToInt b = 0)) = b := by
        intro b
        cases b <;> decide
      simpa [List.map_map, Function.comp_def, hb] using this
    rw [← hfields]
    apply List.ext_getElem?
    intro i
    rw [List.getElem?_map, List.getElem?_map]
    cases hr : (treeRecords t (-1))[i]? with
    | none =>
      have : s.heap[i]? = none := by
        rw [List.getElem?_eq_none_iff] at hr ⊢
        rw [hinv.len]
        exact hr
      simp [this]
    | some r =>
      obtain ⟨e, he, hid, hname, hdir, _⟩ := hinv.cell i r hr
      simp [he, hid, hname, hdir]
  · intro i r hr
    obtain ⟨e, he, hid, _, _, hch, hr0, hp0⟩ := hinv.cell i r hr
    refine ⟨e, he, hid, childrenOf_of_chain he hch (hinv.len ▸ kids_length_le _ _),
      fun h0 => (hr0 h0).1, ?_⟩
    intro h0
    obtain ⟨j, rj, ej, pp, _, hrj, hrjid, hpar, hej, _, _⟩ := hp0 h0
    obtain ⟨ej1, hej1, hid1, _⟩ := hinv.cell j rj hrj
    rw [hej] at hej1
    cases hej1
    exact ⟨j, ej, hpar, hej, hid1.trans hrjid⟩

/-- The round trip of structure on `treeWithEmptyDir`. -/
theorem roundtrip_structure_witness :
    treeWithEmptyDir ≠ null ∧
      ((subtreeData treeWithEmptyDir).map fun d => d.id).Nodup ∧
      (∀ d ∈ subtreeData treeWithEmptyDir,
        (0 ≤ d.id ∧ d.id ≤ INT_MAX - 100) ∧ PersistableName d.name) ∧
      ∃ s, reconstructTreeFromFile (freeAndWriteTree treeWithEmptyDir) ['m'] 0 = .ok s ∧
        s.root = some 0 ∧
        s.heap.map (fun e => (e.id, e.name, e.isDirectory)) =
          (subtreeData treeWithEmptyDir).map (fun d => (d.id, d.name, d.isDirectory)) ∧
        ∀ (i : Nat) (r : Record), (treeRecords treeWithEmptyDir (-1))[i]? = some r →
          ∃ e : HeapEntry, s.heap[i]? = some e ∧ e.id = r.id ∧
            childrenOf s.heap i = some (kids (treeRecords treeWithEmptyDir (-1)) r.id) ∧
            (i = 0 → e.parent = none) ∧
            (0 < i → ∃ (j : Nat) (ej : HeapEntry), e.parent = some j ∧
              s.heap[j]? = some ej ∧ ej.id = r.parentId) :=
  ⟨by decide, by decide, by decide,
    roundtrip_structure treeWithEmptyDir ['m'] 0 (by decide) (by decide) (by decide)⟩

/-! ## What the builder establishes -/

/-- The nodes that the `for` loop of `readDirectory` puts below the parent:
their ids are fresh and pairwise distinct, their names come from the listing,
and their paths are formed from `path`. -/
theorem readEntries_data (M : AudioMatcher) (ents : Dirents) :
    ∀ (path : CString) (pd : EntryData) (pc pn : FileSystemEntry) (n c : Int),
      ∃ newData : List EntryData,
        chainData (readEntries M path ents (node pd pc pn) n c).parent.childrenPtr =
          newData ++ chainData pc ∧
        c ≤ (readEntries M path ents (node pd pc pn) n c).lastUsedId ∧
        (∀ d ∈ newData, c < d.id ∧
          d.id ≤ (readEntries M path ents (node pd pc pn) n c).lastUsedId ∧
          d.name ∈ ents.names) ∧
        (newData.map fun d => d.id).Nodup ∧
        (PathsUnder path pc →
          PathsUnder path (readEntries M path ents (node pd pc pn) n c).parent.childrenPtr) := by
  induction ents with
  | nil =>
    intro path pd pc pn n c
    exact ⟨[], by simp [readEntries, childrenPtr], le_refl _, by simp, by simp,
      fun h => by simpa [readEntries, childrenPtr] using h⟩
  | cons name st o sub rest ihs ihr =>
    intro path pd pc pn n c
    rw [readEntries_cons_eq]
    by_cases hq : qualifies M ⟨name, st, o, sub⟩ = true
    · rw [if_pos hq]
      by_cases hd : classifiedAsDirectory ⟨name, st, o, sub⟩ = true
      · rw [if_pos hd]
        obtain ⟨cc, hcc⟩ := readDirectory_parent_shape M sub (path ++ '/' :: name)
          ⟨c + 1, name, path ++ '/' :: name, true, false, parentIdFor (node pd pc pn)⟩
          null null o (c + 1)
        have hinner : ∃ subData : List EntryData, chainData cc = subData ∧
            c + 1 ≤ (readDirectory M (path ++ '/' :: name)
              (node ⟨c + 1, name, path ++ '/' :: name, true, false,
                parentIdFor (node pd pc pn)⟩ null null) o sub (c + 1)).lastUsedId ∧
            (∀ d ∈ subData, c + 1 < d.id ∧
              d.id ≤ (readDirectory M (path ++ '/' :: name)
                (node ⟨c + 1, name, path ++ '/' :: name, true, false,
                  parentIdFor (node pd pc pn)⟩ null null) o sub (c + 1)).lastUsedId ∧
              d.name ∈ sub.names) ∧
            (subData.map fun d => d.id).Nodup ∧ PathsUnder (path ++ '/' :: name) cc := by
          have hcc1 := hcc
          unfold readDirectory at hcc1 ⊢
          by_cases ho : o = true
          · rw [if_pos ho] at hcc1 ⊢
            obtain ⟨nd, h1, h2, h3, h4, h5⟩ := ihs (path ++ '/' :: name)
              ⟨c + 1, name, path ++ '/' :: name, true, false, parentIdFor (node pd pc pn)⟩
              null null 0 (c + 1)
            rw [hcc1] at h1 h5
            simp only [childrenPtr, chainData, List.append_nil] at h1
            exact ⟨nd, h1, h2, h3, h4, h5 trivial⟩
          · rw [if_neg ho] at hcc1 ⊢
            cases hcc1
            exact ⟨[], rfl, le_refl _, by simp, by simp, trivial⟩
        obtain ⟨subData, hsd, hle, hsub, hsnd, hspath⟩ := hinner
        rw [hcc]
        simp only [addChild]
        obtain ⟨nd, h1, h2, h3, h4, h5⟩ := ihr path pd
          (node ⟨c + 1, name, path ++ '/' :: name, true, false,
            parentIdFor (node pd pc pn)⟩ cc pc) pn
          (n + 1 + (readDirectory M (path ++ '/' :: name)
            (node ⟨c + 1, name, path ++ '/' :: name, true, false,
              parentIdFor (node pd pc pn)⟩ null null) o sub (c + 1)).numEntries)
          (readDirectory M (path ++ '/' :: name)
            (node ⟨c + 1, name, path ++ '/' :: name, true, false,
              parentIdFor (node pd pc pn)⟩ null null) o sub (c + 1)).lastUsedId
        refine ⟨nd ++ ⟨c + 1, name, path ++ '/' :: name, true, false,
            parentIdFor (node pd pc pn)⟩ :: subData, ?_, by omega, ?_, ?_, ?_⟩
        · rw [h1]
          simp [chainData, hsd]
        · intro d hdm
          rcases List.mem_append.mp hdm with hdm | hdm
          · obtain ⟨a, b, e⟩ := h3 d hdm
            exact ⟨by omega, b, by simp [Dirents.names, e]⟩
          · rcases List.mem_cons.mp hdm with rfl | hdm
            · exact ⟨by simp, by simpa using le_trans hle h2, by simp [Dirents.names]⟩
            · obtain ⟨a, b, e⟩ := hsub d hdm
              exact ⟨by omega, by omega, by simp [Dirents.names, e]⟩
        · rw [List.map_append, List.nodup_append]
          refine ⟨h4, ?_, ?_⟩
          · rw [List.map_cons, List.nodup_cons]
            refine ⟨?_, hsnd⟩
            intro hmem
            obtain ⟨d, hdm, hdid⟩ := List.mem_map.mp hmem
            have := (hsub d hdm).1
            simp only at hdid
            omega
          · intro x hx1 hx2
            obtain ⟨d1, hd1, rfl⟩ := List.mem_map.mp hx1
            obtain ⟨d2, hd2, hd2id⟩ := List.mem_map.mp hx2
            have a1 := (h3 d1 hd1).1
            rcases List.mem_cons.mp hd2 with rfl | hd2
            · simp only at hd2id
              omega
            · have := (hsub d2 hd2).2.1
              omega
        · intro hp
          exact h5 ⟨rfl, hspath, hp⟩
      · rw [if_neg hd]
        simp only [addChild]
        obtain ⟨nd, h1, h2, h3, h4, h5⟩ := ihr path pd
          (node ⟨c + 1, name, path ++ '/' :: name, false, false,
            parentIdFor (node pd pc pn)⟩ null pc) pn n (c + 1)
        refine ⟨nd ++ [⟨c + 1, name, path ++ '/' :: name, false, false,
            parentIdFor (node pd pc pn)⟩], ?_, by omega, ?_, ?_, ?_⟩
        · rw [h1]
          simp [chainData]
        · intro d hdm
          rcases List.mem_append.mp hdm with hdm | hdm
          · obtain ⟨a, b, e⟩ := h3 d hdm
            exact ⟨by omega, b, by simp [Dirents.names, e]⟩
          · rw [List.mem_singleton] at hdm
            subst hdm
            exact ⟨by simp, by simpa using h2, by simp [Dirents.names]⟩
        · rw [List.map_append, List.nodup_append]
          refine ⟨h4, by simp, ?_⟩
          intro x hx1 hx2
          obtain ⟨d1, hd1, rfl⟩ := List.mem_map.mp hx1
          have a1 := (h3 d1 hd1).1
          simp only [List.map_cons, List.map_nil, List.mem_singleton] at hx2
          omega
        · intro hp
          exact h5 ⟨rfl, trivial, hp⟩
    · rw [if_neg hq]
      obtain ⟨nd, h1, h2, h3, h4, h5⟩ := ihr path pd pc pn n c
      exact ⟨nd, h1, h2, fun d hdm => ⟨(h3 d hdm).1, (h3 d hdm).2.1,
        by simp [Dirents.names, (h3 d hdm).2.2]⟩, h4, h5⟩

theorem pruneChain_sublist (t : FileSystemEntry) :
    (chainData (pruneChain t).2).Sublist (chainData t) := by
  induction t with
  | null => simp [pruneChain, chainData]
  | node d c n ihc ihn =>
    unfold pruneChain
    by_cases hd : d.isDirectory = true
    · simp only [hd, if_true]
      cases hsub : (pruneChain c).2 with
      | null =>
        simp only [chainData]
        exact (ihn.trans (List.sublist_append_right _ _)).trans (List.sublist_cons_self _ _)
      | node d1 c1 n1 =>
        rw [hsub] at ihc
        simp only [chainData] at ihc ⊢
        exact (ihc.append ihn).cons₂ d
    · simp only [hd, Bool.false_eq_true, if_false, chainData]
      exact ((List.Sublist.refl _).append ihn).cons₂ d

theorem pruneChain_paths (t : FileSystemEntry) :
    ∀ path : CString, PathsUnder path t → PathsUnder path (pruneChain t).2 := by
  induction t with
  | null => intro path _; simp [pruneChain, PathsUnder]
  | node d c n ihc ihn =>
    intro path hp
    obtain ⟨h1, h2, h3⟩ := hp
    unfold pruneChain
    by_cases hd : d.isDirectory = true
    · simp only [hd, if_true]
      cases hsub : (pruneChain c).2 with
      | null => exact ihn path h3
      | node d1 c1 n1 =>
        have := ihc d.fullPath h2
        rw [hsub] at this
        exact ⟨h1, this, ihn path h3⟩
    · simp only [hd, Bool.false_eq_true, if_false]
      exact ⟨h1, h2, ihn path h3⟩

/-- The tree that `createDirectoryTree` returns: the synthetic root with the
next id and `fullPath` `/`; below it, fresh pairwise distinct ids, names from
the listing and paths formed from the start path. -/
theorem createDirectoryTree_data (M : AudioMatcher) (startPath : CString) (opens : Bool)
    (entries : Dirents) (c0 : Int) :
    ∃ pc, (createDirectoryTree M startPath opens entries c0).root =
        node ⟨c0 + 1, ['r', 'o', 'o', 't'], ['/'], true, false, -1⟩ pc null ∧
      PathsUnder startPath pc ∧
      ((chainData pc).map fun d => d.id).Nodup ∧
      ∀ d ∈ chainData pc, c0 + 1 < d.id ∧
        d.id ≤ (buildRaw M startPath opens entries c0).lastUsedId ∧ d.name ∈ entries.names := by
  unfold createDirectoryTree buildRaw readDirectory
  simp only [createEntry, setFullPath, List.nil_append]
  by_cases ho : opens = true
  · simp only [ho, if_true]
    obtain ⟨pc1, hpc1⟩ := readDirectory_parent_shape M entries startPath
      ⟨c0 + 1, ['r', 'o', 'o', 't'], ['/'], true, false, -1⟩ null null true (c0 + 1)
    simp only [readDirectory, if_true] at hpc1
    obtain ⟨nd, h1, h2, h3, h4, h5⟩ := readEntries_data M entries startPath
      ⟨c0 + 1, ['r', 'o', 'o', 't'], ['/'], true, false, -1⟩ null null 0 (c0 + 1)
    rw [hpc1] at h1 h5 ⊢
    simp only [childrenPtr, chainData, List.append_nil] at h1 h5
    subst h1
    refine ⟨(pruneChain pc1).2, rfl, pruneChain_paths pc1 startPath (h5 trivial), ?_, ?_⟩
    · exact ((pruneChain_sublist pc1).map _).nodup h4
    · intro d hd
      exact h3 d ((pruneChain_sublist pc1).subset hd)
  · simp only [ho]
    refine ⟨null, rfl, trivial, by simp [chainData], ?_⟩
    intro d hd
    simp [chainData] at hd

theorem chainRecords_length (t : FileSystemEntry) (owner : Int) :
    (chainRecords t owner).length = (chainData t).length := by
  have := congrArg List.length (chainRecords_fields t owner)
  simpa using this

/-- In a chain built by `readDirectory`, the `fullPath` of every node is the
directory of the chain or the `fullPath` of its owner, followed by `/name`. -/
theorem chainRecords_paths (t : FileSystemEntry) :
    ∀ (owner : Int) (path : CString), PathsUnder path t →
      ∀ (i : Nat) (r : Record) (d : EntryData), (chainRecords t owner)[i]? = some r →
        (chainData t)[i]? = some d →
        r.id = d.id ∧ r.name = d.name ∧
          ((r.parentId = owner ∧ d.fullPath = path ++ '/' :: d.name) ∨
            ∃ (j : Nat) (rj : Record) (dj : EntryData), j < i ∧
              (chainRecords t owner)[j]? = some rj ∧ (chainData t)[j]? = some dj ∧
              rj.id = r.parentId ∧ d.fullPath = dj.fullPath ++ '/' :: d.name) := by
  induction t with
  | null => intro owner path _ i r d h; simp [chainRecords] at h
  | node d0 c n ihc ihn =>
    intro owner path hp i r d hr hd
    obtain ⟨hp1, hp2, hp3⟩ := hp
    simp only [chainRecords, chainData] at hr hd ⊢
    have hlen := chainRecords_length c d0.id
    cases i with
    | zero =>
      simp only [List.getElem?_cons_zero, Option.some.injEq] at hr hd
      subst hr hd
      exact ⟨rfl, rfl, Or.inl ⟨rfl, hp1⟩⟩
    | succ i =>
      rw [List.getElem?_cons_succ] at hr hd
      by_cases hi : i < (chainRecords c d0.id).length
      · rw [List.getElem?_append_left hi] at hr
        rw [List.getElem?_append_left (hlen ▸ hi)] at hd
        obtain ⟨h1, h2, h3⟩ := ihc d0.id d0.fullPath hp2 i r d hr hd
        refine ⟨h1, h2, Or.inr ?_⟩
        rcases h3 with ⟨hpar, hfp⟩ | ⟨j, rj, dj, hj, hrj, hdj, hid, hfp⟩
        · exact ⟨0, ⟨d0.id, d0.name, boolToInt d0.isDirectory, owner⟩, d0, Nat.succ_pos _,
            List.getElem?_cons_zero, List.getElem?_cons_zero, hpar.symm, hfp⟩
        · refine ⟨j + 1, rj, dj, Nat.succ_lt_succ hj, ?_, ?_, hid, hfp⟩
          · rw [List.getElem?_cons_succ, List.getElem?_append_left (lt_trans hj hi)]
            exact hrj
          · rw [List.getElem?_cons_succ, List.getElem?_append_left (hlen ▸ lt_trans hj hi)]
            exact hdj
      · have hi1 : (chainRecords c d0.id).length ≤ i := not_lt.mp hi
        rw [List.getElem?_append_right hi1] at hr
        rw [List.getElem?_append_right (hlen ▸ hi1), ← hlen] at hd
        obtain ⟨h1, h2, h3⟩ := ihn owner path hp3 _ r d hr hd
        refine ⟨h1, h2, ?_⟩
        rcases h3 with h3 | ⟨j, rj, dj, hj, hrj, hdj, hid, hfp⟩
        · exact Or.inl h3
        · refine Or.inr ⟨(chainRecords c d0.id).length + j + 1, rj, dj, by omega, ?_, ?_, hid, hfp⟩
          · rw [List.getElem?_cons_succ, List.getElem?_append_right (by omega)]
            rw [show (chainRecords c d0.id).length + j - (chainRecords c d0.id).length = j by
              omega]
            exact hrj
          · rw [List.getElem?_cons_succ, List.getElem?_append_right (by omega)]
            rw [show (chainRecords c d0.id).length + j - (chainData c).length = j by omega]
            exact hdj

theorem buildRaw_lastUsedId_ge (M : AudioMatcher) (startPath : CString) (opens : Bool)
    (entries : Dirents) (c0 : Int) :
    c0 + 1 ≤ (buildRaw M startPath opens entries c0).lastUsedId := by
  unfold buildRaw readDirectory
  simp only [createEntry, setFullPath]
  by_cases ho : opens = true
  · simp only [ho, if_true]
    obtain ⟨_, _, h2, _⟩ := readEntries_data M entries startPath
      ⟨c0 + 1, ['r', 'o', 'o', 't'], [] ++ '/' :: [], true, false, -1⟩ null null 0 (c0 + 1)
    exact h2
  · simp only [ho]
    exact le_refl _

/-- C19: for all names `a`, `b`, `c`, `compareLibEntries` satisfies
`sign(cmp(a,b)) = -sign(cmp(b,a))`, is transitive (`cmp(a,b) <= 0` and
`cmp(b,c) <= 0` imply `cmp(a,c) <= 0`), and returns 0 exactly when the
normalised forms computed by `stringToUpperWithoutSpaces` are equal; the
distinct names `a b` and `AB` compare equal in both directions, so the
comparator does not fix their relative order. -/
theorem compareLibEntries_consistent (a b c : CString) :
    Int.sign (compareLibEntries a b) = -Int.sign (compareLibEntries b a) ∧
      (compareLibEntries a b ≤ 0 → compareLibEntries b c ≤ 0 → compareLibEntries a c ≤ 0) ∧
      (compareLibEntries a b = 0 ↔
        stringToUpperWithoutSpaces a = stringToUpperWithoutSpaces b) ∧
      (compareLibEntries ['a', ' ', 'b'] ['A', 'B'] = 0 ∧
        compareLibEntries ['A', 'B'] ['a', ' ', 'b'] = 0 ∧
        (['a', ' ', 'b'] : CString) ≠ ['A', 'B']) := by
  refine ⟨?_, compareLibEntries_le_trans a b c, compareLibEntries_eq_zero_iff a b, ?_⟩
  · rw [compareLibEntries_swap a b, Int.sign_neg, neg_neg]
  · decide

/-! ## The count stored by `createDirectoryTree` -/

/-- C18: the value that `createDirectoryTree` stores in `*numEntries` (the
count of `readDirectory` minus the count of `removeEmptyDirectories`) is the
number of entries with `isDirectory` set, root excluded, of the tree it
returns; it is never negative. -/
theorem createDirectoryTree_numEntries (M : AudioMatcher) (startPath : CString)
    (opens : Bool) (entries : Dirents) (c0 : Int) :
    (createDirectoryTree M startPath opens entries c0).numEntries =
        (((descendants (createDirectoryTree M startPath opens entries c0).root).filter
          isDir).length : Int) ∧
      0 ≤ (createDirectoryTree M startPath opens entries c0).numEntries := by
  have key : (createDirectoryTree M startPath opens entries c0).numEntries =
      (((descendants (createDirectoryTree M startPath opens entries c0).root).filter
        isDir).length : Int) := by
    unfold createDirectoryTree buildRaw readDirectory
    simp only [createEntry, setFullPath]
    by_cases ho : opens = true
    · simp only [ho, if_true]
      obtain ⟨pc1, hpc1⟩ := readDirectory_parent_shape M entries startPath
        ⟨c0 + 1, ['r', 'o', 'o', 't'], [] ++ '/' :: [], true, false, -1⟩ null null true (c0 + 1)
      simp only [readDirectory, if_true] at hpc1
      have hcount := readEntries_count M entries startPath
        ⟨c0 + 1, ['r', 'o', 'o', 't'], [] ++ '/' :: [], true, false, -1⟩ null null 0 (c0 + 1)
      rw [hpc1] at hcount ⊢
      have hprune := pruneChain_dirCount pc1
      simp only [removeEmptyDirectories, descendants, childrenPtr, chainDirCount] at hcount ⊢
      rw [← chainDirCount_eq_filter]
      push_cast at hcount
      omega
    · simp only [ho]
      simp [removeEmptyDirectories, pruneChain, descendants, childrenPtr, chainNodes]
  exact ⟨key, by rw [key]; exact Int.natCast_nonneg _⟩

/-! ## Pruning: frame, characterisation, idempotence -/

theorem pruneChain_chain (t : FileSystemEntry) :
    (chain (pruneChain t).2).map data? = ((chain t).filter survivesPruning).map data? ∧
      (chain (pruneChain t).2).map childrenPtr =
        ((chain t).filter survivesPruning).map prunedChildren := by
  induction t with
  | null => simp [pruneChain, chain]
  | node d c n _ ihn =>
    unfold pruneChain
    by_cases hd : d.isDirectory = true
    · simp only [hd, if_true]
      cases hsub : (pruneChain c).2 with
      | null =>
        have hs : survivesPruning (node d c n) = false := by
          simp [survivesPruning, isDir, childrenPtr, hd, hsub]
        simp only [chain, List.filter_cons, hs]
        exact ihn
      | node d1 c1 n1 =>
        have hs : survivesPruning (node d c n) = true := by
          simp [survivesPruning, isDir, childrenPtr, hd, hsub]
        simp only [chain, List.filter_cons, hs, if_true, List.map_cons, ihn.1, ihn.2]
        simp [data?, childrenPtr, prunedChildren, isDir, hd, hsub]
    · have hs : survivesPruning (node d c n) = true := by
        simp [survivesPruning, isDir, hd]
      simp only [hd, Bool.false_eq_true, if_false, chain, List.filter_cons, hs, if_true,
        List.map_cons, ihn.1, ihn.2]
      simp [data?, childrenPtr, prunedChildren, isDir, hd]

theorem pruneChain_keeps_files (t : FileSystemEntry) :
    (chainData (pruneChain t).2).filter (fun d => !d.isDirectory) =
      (chainData t).filter (fun d => !d.isDirectory) := by
  induction t with
  | null => simp [pruneChain, chainData]
  | node d c n ihc ihn =>
    unfold pruneChain
    by_cases hd : d.isDirectory = true
    · simp only [hd, if_true]
      cases hsub : (pruneChain c).2 with
      | null =>
        rw [hsub] at ihc
        simp only [chainData, List.filter_nil] at ihc
        simp [chainData, List.filter_cons, hd, ← ihc, ihn]
      | node d1 c1 n1 =>
        have e1 : chainData (node d (node d1 c1 n1) (pruneChain n).2) =
            d :: (chainData (pruneChain c).2 ++ chainData (pruneChain n).2) := by
          rw [hsub]
          rfl
        rw [e1, show chainData (node d c n) = d :: (chainData c ++ chainData n) from rfl]
        simp only [List.filter_cons, List.filter_append, hd, ihc, ihn]
    · simp [hd, chainData, List.filter_cons, ihn]

/-- C16: the loop of `removeEmptyDirectories` on the child list of any node
(`pruneChain`), and hence `removeEmptyDirectories(root)` at every depth, never
removes an entry that is not a directory, leaves the fields of the surviving
entries as they were, and keeps them in their order: the child list after the
call is the child list before the call with the removed directories filtered
out, every surviving child carrying its own fields and the pruned child list
of its own; the root keeps its fields and its `next`. -/
theorem removeEmptyDirectories_frame (t : FileSystemEntry) :
    ((chain (pruneChain t).2).map data? = ((chain t).filter survivesPruning).map data? ∧
        (chain (pruneChain t).2).map childrenPtr =
          ((chain t).filter survivesPruning).map prunedChildren) ∧
      (∀ e ∈ chain t, e.isDir = false → survivesPruning e = true ∧ prunedChildren e = e.childrenPtr) ∧
      (chainData (pruneChain t).2).filter (fun d => !d.isDirectory) =
        (chainData t).filter (fun d => !d.isDirectory) ∧
      (chainData (pruneChain t).2).Sublist (chainData t) ∧
      (∀ d c n, removeEmptyDirectories (node d c n) =
        ((pruneChain c).1, node d (pruneChain c).2 n)) := by
  refine ⟨pruneChain_chain t, ?_, pruneChain_keeps_files t, pruneChain_sublist t, ?_⟩
  · intro e _ he
    simp [survivesPruning, prunedChildren, he]
  · intro d c n
    rfl

theorem pruneChain_null_iff (t : FileSystemEntry) :
    (pruneChain t).2 = null ↔ chainHasFile t = false := by
  induction t with
  | null => simp [pruneChain, chainHasFile]
  | node d c n ihc ihn =>
    unfold pruneChain
    by_cases hd : d.isDirectory = true
    · simp only [hd, if_true]
      cases hsub : (pruneChain c).2 with
      | null =>
        have := ihc.mp hsub
        simp [chainHasFile, hd, this, ihn]
      | node d1 c1 n1 =>
        have : chainHasFile c ≠ false := fun h => by
          have := ihc.mpr h
          rw [hsub] at this
          cases this
        simp only [Bool.not_eq_false] at this
        simp [chainHasFile, hd, this]
    · simp [hd, chainHasFile]

theorem pruneChain_eq_pruneSpec (t : FileSystemEntry)
    (h : ∀ e ∈ chainNodes t, e.isDir = false → e.childrenPtr = null) :
    (pruneChain t).2 = pruneSpec t := by
  induction t with
  | null => rfl
  | node d c n ihc ihn =>
    have hc : ∀ e ∈ chainNodes c, e.isDir = false → e.childrenPtr = null := by
      intro e he
      exact h e (by simp [chainNodes, he])
    have hn : ∀ e ∈ chainNodes n, e.isDir = false → e.childrenPtr = null := by
      intro e he
      exact h e (by simp [chainNodes, he])
    have hself := h (node d c n) (by simp [chainNodes])
    unfold pruneChain pruneSpec
    by_cases hd : d.isDirectory = true
    · simp only [hd, if_true, Bool.not_true, Bool.false_or]
      cases hsub : (pruneChain c).2 with
      | null =>
        have := (pruneChain_null_iff c).mp hsub
        simp [this, ihn hn]
      | node d1 c1 n1 =>
        have hf : chainHasFile c = true := by
          by_contra hcon
          have := (pruneChain_null_iff c).mpr (by simpa using hcon)
          rw [hsub] at this
          cases this
        simp only [hf, if_true]
        rw [← ihc hc, hsub, ihn hn]
    · have hcnull : c = null := by
        have := hself (by simpa [isDir] using hd)
        simpa [childrenPtr] using this
      subst hcnull
      simp [hd, ihn hn, pruneSpec]

theorem pruneChain_idempotent (t : FileSystemEntry) :
    pruneChain (pruneChain t).2 = (0, (pruneChain t).2) := by
  induction t with
  | null => rfl
  | node d c n ihc ihn =>
    by_cases hd : d.isDirectory = true
    · cases hsub : (pruneChain c).2 with
      | null =>
        have : (pruneChain (node d c n)).2 = (pruneChain n).2 := by
          conv_lhs => unfold pruneChain
          simp only [hd, if_true, hsub]
        rw [this]
        exact ihn
      | node d1 c1 n1 =>
        have : (pruneChain (node d c n)).2 = node d (node d1 c1 n1) (pruneChain n).2 := by
          conv_lhs => unfold pruneChain
          simp only [hd, if_true, hsub]
        rw [this]
        rw [hsub] at ihc
        conv_lhs => unfold pruneChain
        simp only [hd, if_true, ihc, ihn]
        simp
    · have : (pruneChain (node d c n)).2 = node d c (pruneChain n).2 := by
        conv_lhs => unfold pruneChain
        simp only [hd, Bool.false_eq_true, if_false]
      rw [this]
      conv_lhs => unfold pruneChain
      simp only [hd, Bool.false_eq_true, if_false, ihn]

/-- C17, as stated, fails: in `treeFileWithEmptyDir` the directory `d` is not
the root and its subtree holds no entry that is not a directory, yet it
survives `removeEmptyDirectories(root)`, because it hangs below a file. -/
theorem removeEmptyDirectories_survivor_without_file :
    ∃ e ∈ descendants (removeEmptyDirectories treeFileWithEmptyDir).2,
      e.isDir = true ∧ chainHasFile e.childrenPtr = false ∧
        e ∈ descendants treeFileWithEmptyDir := by
  decide

/-- C17 (amended): for every finite tree in which the entries below the root
that are not directories have no children, `removeEmptyDirectories(root)`
keeps below the root exactly the entries that are not directories or whose
subtree contains an entry that is not a directory (`pruneSpec`); and for
every finite tree a second call of `removeEmptyDirectories` on the pruned
tree returns 0 and leaves the tree unchanged. -/
theorem removeEmptyDirectories_characterisation (t : FileSystemEntry) :
    ((∀ e ∈ descendants t, e.isDir = false → e.childrenPtr = null) →
      ∀ d c n, t = node d c n →
        (removeEmptyDirectories t).2 = node d (pruneSpec c) n) ∧
      removeEmptyDirectories (removeEmptyDirectories t).2 =
        (0, (removeEmptyDirectories t).2) := by
  cases t with
  | null => exact ⟨fun _ d c n h => (by cases h), rfl⟩
  | node d c n =>
    refine ⟨?_, ?_⟩
    · intro h d1 c1 n1 heq
      cases heq
      simp only [removeEmptyDirectories]
      rw [pruneChain_eq_pruneSpec c (by simpa [descendants, childrenPtr] using h)]
    · simp only [removeEmptyDirectories, pruneChain_idempotent]

/-- Witness of C17 (amended) on `treeWithEmptyDir`. -/
theorem removeEmptyDirectories_characterisation_witness :
    (∀ e ∈ descendants treeWithEmptyDir, e.isDir = false → e.childrenPtr = null) ∧
      ((∀ d c n, treeWithEmptyDir = node d c n →
          (removeEmptyDirectories treeWithEmptyDir).2 = node d (pruneSpec c) n) ∧
        removeEmptyDirectories (removeEmptyDirectories treeWithEmptyDir).2 =
          (0, (removeEmptyDirectories treeWithEmptyDir).2)) :=
  ⟨by decide, (removeEmptyDirectories_characterisation treeWithEmptyDir).1 (by decide),
    (removeEmptyDirectories_characterisation treeWithEmptyDir).2⟩

/-! ## Builder: paths and ids -/

theorem pathsUnder_chain (t : FileSystemEntry) (path : CString) (h : PathsUnder path t) :
    ∀ e ∈ chain t, fullPathOf e = path ++ '/' :: nameOf e := by
  induction t with
  | null => simp [chain]
  | node d c n _ ihn =>
    obtain ⟨h1, _, h3⟩ := h
    intro e he
    simp only [chain, List.mem_cons] at he
    rcases he with rfl | he
    · exact h1
    · exact ihn h3 e he

theorem pathsUnder_nodes (t : FileSystemEntry) :
    ∀ path : CString, PathsUnder path t →
      ∀ p ∈ chainNodes t, PathsUnder (fullPathOf p) p.childrenPtr := by
  induction t with
  | null => intro path _ p hp; simp [chainNodes] at hp
  | node d c n ihc ihn =>
    intro path h p hp
    obtain ⟨_, h2, h3⟩ := h
    simp only [chainNodes, List.mem_cons, List.mem_append] at hp
    rcases hp with rfl | hp | hp
    · exact h2
    · exact ihc _ h2 p hp
    · exact ihn _ h3 p hp

theorem idRange_zero (c : Int) : idRange c 0 = [] := rfl

theorem idRange_add (c : Int) (m n : Nat) :
    idRange c (m + n) = idRange c m ++ idRange (c + m) n := by
  unfold idRange
  rw [List.range_add, List.map_append, List.map_map]
  congr 1
  apply List.map_congr_left
  intro k _
  simp only [Function.comp_apply]
  push_cast
  ring

theorem idRange_one (c : Int) : idRange c 1 = [c + 1] := by
  simp [idRange, List.range_succ]

theorem idRange_length (c : Int) (n : Nat) : (idRange c n).length = n := by
  simp [idRange]

/-- The `for` loop of `readDirectory` hands out the ids that follow the
counter, one per created entry in creation order, and stores in every new
entry the id of its owner. -/
theorem readEntries_creation (M : AudioMatcher) (ents : Dirents) :
    ∀ (path : CString) (pd : EntryData) (pc pn : FileSystemEntry) (n c : Int),
      ∃ created : List EntryData,
        creationChain (readEntries M path ents (node pd pc pn) n c).parent.childrenPtr =
          creationChain pc ++ created ∧
        created.map (fun d => d.id) = idRange c created.length ∧
        (readEntries M path ents (node pd pc pn) n c).lastUsedId = c + created.length ∧
        (pd.id ≤ c → OwnedBy pd.id pc →
          OwnedBy pd.id (readEntries M path ents (node pd pc pn) n c).parent.childrenPtr) := by
  induction ents with
  | nil =>
    intro path pd pc pn n c
    exact ⟨[], by simp [readEntries, childrenPtr], rfl, by simp [readEntries],
      fun _ h => by simpa [readEntries, childrenPtr] using h⟩
  | cons name st o sub rest ihs ihr =>
    intro path pd pc pn n c
    rw [readEntries_cons_eq]
    by_cases hq : qualifies M ⟨name, st, o, sub⟩ = true
    · rw [if_pos hq]
      by_cases hd : classifiedAsDirectory ⟨name, st, o, sub⟩ = true
      · rw [if_pos hd]
        obtain ⟨cc, hcc⟩ := readDirectory_parent_shape M sub (path ++ '/' :: name)
          ⟨c + 1, name, path ++ '/' :: name, true, false, parentIdFor (node pd pc pn)⟩
          null null o (c + 1)
        have hinner : ∃ subCreated : List EntryData, creationChain cc = subCreated ∧
            subCreated.map (fun d => d.id) = idRange (c + 1) subCreated.length ∧
            (readDirectory M (path ++ '/' :: name)
              (node ⟨c + 1, name, path ++ '/' :: name, true, false,
                parentIdFor (node pd pc pn)⟩ null null) o sub (c + 1)).lastUsedId =
              c + 1 + subCreated.length ∧
            OwnedBy (c + 1) cc := by
          have hcc1 := hcc
          unfold readDirectory at hcc1 ⊢
          by_cases ho : o = true
          · rw [if_pos ho] at hcc1 ⊢
            obtain ⟨cr, h1, h2, h3, h4⟩ := ihs (path ++ '/' :: name)
              ⟨c + 1, name, path ++ '/' :: name, true, false, parentIdFor (node pd pc pn)⟩
              null null 0 (c + 1)
            rw [hcc1] at h1 h4
            simp only [childrenPtr, creationChain, List.nil_append] at h1
            exact ⟨cr, h1, h2, h3, h4 (le_refl _) trivial⟩
          · rw [if_neg ho] at hcc1 ⊢
            cases hcc1
            exact ⟨[], rfl, rfl, by simp, trivial⟩
        obtain ⟨subCreated, hsc, hsid, hslast, hsown⟩ := hinner
        rw [hcc]
        simp only [addChild]
        obtain ⟨cr, h1, h2, h3, h4⟩ := ihr path pd
          (node ⟨c + 1, name, path ++ '/' :: name, true, false,
            parentIdFor (node pd pc pn)⟩ cc pc) pn
          (n + 1 + (readDirectory M (path ++ '/' :: name)
            (node ⟨c + 1, name, path ++ '/' :: name, true, false,
              parentIdFor (node pd pc pn)⟩ null null) o sub (c + 1)).numEntries)
          (readDirectory M (path ++ '/' :: name)
            (node ⟨c + 1, name, path ++ '/' :: name, true, false,
              parentIdFor (node pd pc pn)⟩ null null) o sub (c + 1)).lastUsedId
        refine ⟨(⟨c + 1, name, path ++ '/' :: name, true, false,
            parentIdFor (node pd pc pn)⟩ :: subCreated) ++ cr, ?_, ?_, ?_, ?_⟩
        · rw [h1]
          simp [creationChain, hsc]
        · rw [List.map_append, List.map_cons, h2, hsid, hslast]
          rw [show ((⟨c + 1, name, path ++ '/' :: name, true, false,
              parentIdFor (node pd pc pn)⟩ :: subCreated) ++ cr).length =
              (1 + subCreated.length) + cr.length by simp; omega]
          rw [idRange_add, idRange_add, idRange_one]
          simp only [List.singleton_append, List.cons_append, Nat.cast_add, Nat.cast_one]
          rw [show c + 1 + (subCreated.length : Int) = c + (1 + (subCreated.length : Int)) by
            ring]
          simp
        · rw [h3, hslast]
          simp only [List.length_append, List.length_cons]
          push_cast
          ring
        · intro hle hown
          refine h4 (by rw [hslast]; omega) ⟨rfl, ?_, hsown, hown⟩
          simp only
          omega
      · rw [if_neg hd]
        simp only [addChild]
        obtain ⟨cr, h1, h2, h3, h4⟩ := ihr path pd
          (node ⟨c + 1, name, path ++ '/' :: name, false, false,
            parentIdFor (node pd pc pn)⟩ null pc) pn n (c + 1)
        refine ⟨⟨c + 1, name, path ++ '/' :: name, false, false,
            parentIdFor (node pd pc pn)⟩ :: cr, ?_, ?_, ?_, ?_⟩
        · rw [h1]
          simp [creationChain]
        · rw [List.map_cons, h2]
          rw [show (⟨c + 1, name, path ++ '/' :: name, false, false,
              parentIdFor (node pd pc pn)⟩ :: cr : List EntryData).length = 1 + cr.length by
            simp; omega]
          rw [idRange_add, idRange_one]
          simp
        · rw [h3]
          simp only [List.length_cons]
          push_cast
          ring
        · intro hle hown
          refine h4 (by omega) ⟨rfl, ?_, trivial, hown⟩
          simp only
          omega
    · rw [if_neg hq]
      exact ihr path pd pc pn n c

theorem pruneChain_ownedBy (t : FileSystemEntry) :
    ∀ owner : Int, OwnedBy owner t → OwnedBy owner (pruneChain t).2 := by
  induction t with
  | null => intro owner _; simp [pruneChain, OwnedBy]
  | node d c n ihc ihn =>
    intro owner hp
    obtain ⟨h1, h2, h3, h4⟩ := hp
    unfold pruneChain
    by_cases hd : d.isDirectory = true
    · simp only [hd, if_true]
      cases hsub : (pruneChain c).2 with
      | null => exact ihn owner h4
      | node d1 c1 n1 =>
        have := ihc d.id h3
        rw [hsub] at this
        exact ⟨h1, h2, this, ihn owner h4⟩
    · simp only [hd, Bool.false_eq_true, if_false]
      exact ⟨h1, h2, h3, ihn owner h4⟩

set_option maxRecDepth 100000 in
/-- C11, as stated, fails: a line of more than 1023 characters is read in
pieces by `fgets`.  The line of 1023 `x` followed by `5 a 1 -1` does not
parse into four fields, yet inserting it into the empty file changes the
result: the second piece parses and becomes the root. -/
theorem reconstruct_long_malformed_line_changes_result :
    sscanfRecord longMalformedLine = none ∧
      '\n' ∉ longMalformedLine.dropLast ∧ longMalformedLine.getLast? = some '\n' ∧
      (∃ s, reconstructTreeFromFile [] ['m'] 0 = .ok s ∧ s.root = none ∧ s.heap = []) ∧
      ∃ s, reconstructTreeFromFile longMalformedLine ['m'] 0 = .ok s ∧ s.root = some 0 ∧
        s.heap.map (fun e => (e.id, e.name)) = [(5, ['a'])] := by
  refine ⟨by decide, by decide, by decide, ⟨_, rfl, rfl, rfl⟩, ⟨_, rfl, rfl, rfl⟩⟩

/-- C11 (amended): in a file whose lines, the inserted one included, have at
most 1023 characters with the newline, inserting a line on which `sscanf`
does not return 4, at any position, does not change the result of
`reconstructTreeFromFile`: the same state, root, heap and counter, or the
same fault. -/
theorem reconstruct_skips_malformed_line (before after : List (List Char)) (m : List Char)
    (sp : CString) (k0 : Int)
    (hlines : ∀ l ∈ before ++ m :: after,
      ∃ body, l = body ++ ['\n'] ∧ '\n' ∉ body ∧ body.length < 1023)
    (hm : sscanfRecord m = none) :
    reconstructTreeFromFile (before ++ m :: after).flatten sp k0 =
      reconstructTreeFromFile (before ++ after).flatten sp k0 := by
  have hlines2 : ∀ l ∈ before ++ after,
      ∃ body, l = body ++ ['\n'] ∧ '\n' ∉ body ∧ body.length < 1023 := by
    intro l hl
    apply hlines l
    rcases List.mem_append.mp hl with h | h
    · exact List.mem_append.mpr (Or.inl h)
    · exact List.mem_append.mpr (Or.inr (List.mem_cons_of_mem _ h))
  unfold reconstructTreeFromFile fileLines
  rw [readLines_flatten _ _ hlines (le_refl _), readLines_flatten _ _ hlines2 (le_refl _)]
  simp [List.filterMap_append, List.filterMap_cons, hm]

set_option maxRecDepth 100000 in
/-- C11 (amended), at an example: the line with two fields between the
records of ids 1 and 2. -/
theorem reconstruct_skips_malformed_line_witness :
    (∀ l ∈ [lineRecordOne] ++ lineTwoFields :: [lineRecordTwo],
      ∃ body, l = body ++ ['\n'] ∧ '\n' ∉ body ∧ body.length < 1023) ∧
    sscanfRecord lineTwoFields = none ∧
    reconstructTreeFromFile
        ([lineRecordOne] ++ lineTwoFields :: [lineRecordTwo]).flatten ['m'] 0 =
      reconstructTreeFromFile ([lineRecordOne] ++ [lineRecordTwo]).flatten ['m'] 0 :=
  have h : ∀ l ∈ [lineRecordOne] ++ lineTwoFields :: [lineRecordTwo],
      ∃ body, l = body ++ ['\n'] ∧ '\n' ∉ body ∧ body.length < 1023 := by
    intro l hl
    have hl2 : l = lineRecordOne ∨ l = lineTwoFields ∨ l = lineRecordTwo := by
      simpa using hl
    rcases hl2 with h | h | h
    · exact ⟨"1\tr\t1\t-1".toList, by rw [h]; rfl, by decide, by decide⟩
    · exact ⟨"x\ty".toList, by rw [h]; rfl, by decide, by decide⟩
    · exact ⟨"2\ta\t0\t1".toList, by rw [h]; rfl, by decide, by decide⟩
  ⟨h, by decide, reconstruct_skips_malformed_line _ _ _ _ _ h (by decide)⟩


/-! ## The field `parentId` after a reload -/

theorem modifyCell_mem {heap : List HeapEntry} {p : Nat} {f : HeapEntry → HeapEntry}
    {e : HeapEntry} (h : e ∈ modifyCell heap p f) : e ∈ heap ∨ ∃ e0 ∈ heap, e = f e0 := by
  unfold modifyCell at h
  split at h
  · rename_i e0 he0
    rcases List.mem_or_eq_of_mem_set h with h1 | h1
    · exact Or.inl h1
    · exact Or.inr ⟨e0, List.getElem?_mem he0, h1⟩
  · exact Or.inl h

theorem modifyCell_parentId {heap : List HeapEntry} (p : Nat) {f : HeapEntry → HeapEntry}
    (hf : ∀ e, (f e).parentId = e.parentId) (h : ∀ e ∈ heap, e.parentId = none) :
    ∀ e ∈ modifyCell heap p f, e.parentId = none := by
  intro e he
  rcases modifyCell_mem he with h1 | ⟨e0, h0, rfl⟩
  · exact h e h1
  · rw [hf]
    exact h e0 h0

theorem setFullPathCell_parentId (pp : Option CString) (name : CString) (e : HeapEntry) :
    (setFullPathCell pp name e).parentId = e.parentId := by
  cases pp <;> rfl

theorem linkChild_parentId {heap heap2 : List HeapEntry} {n p : Nat}
    (h : ∀ e ∈ heap, e.parentId = none) (hs : linkChild heap n p = .ok heap2) :
    ∀ e ∈ heap2, e.parentId = none := by
  have h1 : ∀ e ∈ modifyCell heap n (fun e => { e with parent := some p }),
      e.parentId = none := modifyCell_parentId _ (fun _ => rfl) h
  unfold linkChild at hs
  split at hs
  · cases hs
  · simp only at hs
    split at hs
    · split at hs
      · cases hs
      · injection hs with hs
        subst hs
        exact modifyCell_parentId _ (fun _ => rfl) h1
    · injection hs with hs
      subst hs
      exact modifyCell_parentId _ (fun _ => rfl) h1

theorem attachChild_parentId {s s1 : ReconState} {n p : Nat} {r : Record}
    (h : ∀ e ∈ s.heap, e.parentId = none) (hs : attachChild s n p r = .ok s1) :
    ∀ e ∈ s1.heap, e.parentId = none := by
  unfold attachChild at hs
  split at hs
  · cases hs
  · rename_i heap2 hlink
    split at hs
    · cases hs
    · split at hs
      · cases hs
      · injection hs with hs
        subst hs
        exact modifyCell_parentId _ (setFullPathCell_parentId _ _)
          (linkChild_parentId h hlink)

/-- No statement of the loop body stores the field `parentId`: it is as
`malloc` left it in every cell. -/
theorem reconstructRecord_parentId (sp : CString) (s s1 : ReconState) (r : Record)
    (h : ∀ e ∈ s.heap, e.parentId = none) (hs : reconstructRecord sp s r = .ok s1) :
    ∀ e ∈ s1.heap, e.parentId = none := by
  have hg : (growTable s r.id).heap = s.heap := by
    unfold growTable
    split <;> rfl
  have h2 : ∀ cell : HeapEntry, cell.parentId = none →
      ∀ e ∈ (growTable s r.id).heap ++ [cell], e.parentId = none := by
    intro cell hc e he
    rw [hg] at he
    rcases List.mem_append.mp he with h1 | h1
    · exact h e h1
    · rw [List.mem_singleton.mp h1]
      exact hc
  have hroot : ∀ s2 : ReconState, (∀ e ∈ s2.heap, e.parentId = none) → ∀ n,
      ∀ e ∈ (makeRoot sp s2 n).heap, e.parentId = none := by
    intro s2 h3 n
    exact modifyCell_parentId _ (setFullPathCell_parentId _ _) h3
  unfold reconstructRecord at hs
  split at hs
  · cases hs
  · simp only at hs
    split at hs
    · split at hs
      · split at hs
        · split at hs
          · exact attachChild_parentId (h2 _ rfl) hs
          · injection hs with hs
            subst hs
            exact hroot _ (h2 _ rfl) _
        · cases hs
      · injection hs with hs
        subst hs
        exact hroot _ (h2 _ rfl) _
    · cases hs

theorem reconstructRecords_parentId (sp : CString) :
    ∀ (recs : List Record) (s s1 : ReconState), (∀ e ∈ s.heap, e.parentId = none) →
      reconstructRecords sp recs s = .ok s1 → ∀ e ∈ s1.heap, e.parentId = none := by
  intro recs
  induction recs with
  | nil =>
    intro s s1 h hs
    injection hs with hs
    subst hs
    exact h
  | cons r rs ih =>
    intro s s1 h hs
    unfold reconstructRecords at hs
    split at hs
    · rename_i s2 h2
      exact ih s2 s1 (reconstructRecord_parentId sp s s2 r h h2) hs
    · cases hs

/-- The field `parentId` is stored in no cell of the heap that
`reconstructTreeFromFile` returns, whatever the file. -/
theorem reconstructTreeFromFile_parentId (content : List Char) (sp : CString) (k0 : Int)
    (s : ReconState) (hs : reconstructTreeFromFile content sp k0 = .ok s) :
    ∀ e ∈ s.heap, e.parentId = none :=
  reconstructRecords_parentId sp _ _ s (fun e he => by cases he) hs

set_option maxRecDepth 100000 in
/-- C13: the code does not do this.  `reconstructTreeFromFile` reads
`parentId` into a local variable and uses it to find the parent, but never
stores it in the entry: after the reload of the well-formed file with the
root 1 and its child 2 the field `parentId` holds no stored value in either
entry, neither -1 in the root nor 1 in the child, while the child does point
to the cell of the root with `parent`. -/
theorem reconstruct_leaves_parentId_unset :
    ∃ s, reconstructTreeFromFile (lineRecordOne ++ lineRecordTwo) ['m'] 0 = .ok s ∧
      s.root = some 0 ∧
      s.heap.map (fun e => (e.id, e.parentId, e.parent)) =
        [(1, none, none), (2, none, some 0)] :=
  ⟨_, rfl, rfl, rfl⟩


/-! ## Acyclicity after a reload -/

theorem setFullPathCell_links (pp : Option CString) (name : CString) (e : HeapEntry) :
    (setFullPathCell pp name e).children = e.children ∧
      (setFullPathCell pp name e).next = e.next ∧
      (setFullPathCell pp name e).parent = e.parent := by
  cases pp <;> exact ⟨rfl, rfl, rfl⟩

theorem CellForward.mono {size size1 p : Nat} {e : HeapEntry} (h : CellForward size p e)
    (hle : size ≤ size1) : CellForward size1 p e :=
  ⟨fun q hq => ⟨(h.1 q hq).1, lt_of_lt_of_le (h.1 q hq).2 hle⟩,
    fun q hq => ⟨(h.2.1 q hq).1, lt_of_lt_of_le (h.2.1 q hq).2 hle⟩, h.2.2⟩

/-- A freshly allocated cell, with no links, keeps the heap in allocation
order. -/
theorem heapForward_append {heap : List HeapEntry} (h : HeapForward heap) (cell : HeapEntry)
    (hc : cell.children = none) (hn : cell.next = none) (hp : cell.parent = none) :
    HeapForward (heap ++ [cell]) := by
  intro p e he
  rw [List.length_append, List.length_singleton]
  rcases getElem?_snoc_cases he with ⟨_, h1⟩ | ⟨_, h1⟩
  · exact (h p e h1).mono (Nat.le_succ _)
  · subst h1
    refine ⟨fun q hq => ?_, fun q hq => ?_, fun q hq => ?_⟩
    · rw [hc] at hq; cases hq
    · rw [hn] at hq; cases hq
    · rw [hp] at hq; cases hq

/-- A store through a pointer keeps the heap in allocation order when the
new content of the cell respects it. -/
theorem heapForward_modifyCell {heap : List HeapEntry} (h : HeapForward heap) (p : Nat)
    (f : HeapEntry → HeapEntry)
    (hf : ∀ e, heap[p]? = some e → CellForward heap.length p (f e)) :
    HeapForward (modifyCell heap p f) := by
  intro q e he
  rw [modifyCell_length]
  rw [getElem?_modifyCell] at he
  by_cases hqp : q = p
  · subst hqp
    rw [if_pos rfl] at he
    cases h0 : heap[q]? with
    | none => rw [h0] at he; cases he
    | some e0 =>
      rw [h0] at he
      injection he with he
      subst he
      exact hf e0 h0
  · rw [if_neg hqp] at he
    exact h q e he

/-- In a heap in allocation order the walk to the last sibling ends, at a
cell of the heap. -/
theorem lastSibling_forward {heap : List HeapEntry} (size : Nat) (hsize : size ≤ heap.length)
    (hnext : ∀ (q : Nat) (e : HeapEntry) (x : Nat), heap[q]? = some e → e.next = some x →
      q < x ∧ x < size) :
    ∀ (fuel c : Nat), c < size → size ≤ c + fuel →
      ∃ last e, lastSibling heap fuel c = some last ∧ last < size ∧
        heap[last]? = some e ∧ e.next = none := by
  intro fuel
  induction fuel with
  | zero =>
    intro c hc hf
    omega
  | succ fuel ih =>
    intro c hc hf
    have hlt : c < heap.length := lt_of_lt_of_le hc hsize
    have hget : heap[c]? = some heap[c] := List.getElem?_eq_getElem hlt
    unfold lastSibling
    rw [hget]
    cases hn : heap[c].next with
    | none => exact ⟨c, heap[c], by simp only [hn], hc, hget, hn⟩
    | some nx =>
      have hx := hnext c heap[c] nx hget hn
      simp only [hn]
      exact ih nx hx.2 (by omega)

theorem cellForward_setFullPathCell {size p : Nat} {e : HeapEntry} (pp : Option CString)
    (name : CString) (h : CellForward size p e) :
    CellForward size p (setFullPathCell pp name e) := by
  obtain ⟨h1, h2, h3⟩ := setFullPathCell_links pp name e
  unfold CellForward
  rw [h1, h2, h3]
  exact h

theorem getElem?_modifyCell_fullPath {heap : List HeapEntry} {p q : Nat}
    {f : HeapEntry → HeapEntry} {e : HeapEntry} (hf : ∀ e, (f e).fullPath = e.fullPath)
    (h : (modifyCell heap p f)[q]? = some e) :
    ∃ e0, heap[q]? = some e0 ∧ e.fullPath = e0.fullPath := by
  rw [getElem?_modifyCell] at h
  by_cases hqp : q = p
  · rw [if_pos hqp] at h
    cases h0 : heap[q]? with
    | none => rw [h0] at h; cases h
    | some e0 =>
      rw [h0] at h
      injection h with h
      exact ⟨e0, rfl, by rw [← h, hf]⟩
  · rw [if_neg hqp] at h
    exact ⟨e, h, rfl⟩

/-- Linking a freshly allocated cell below an older cell keeps the heap in
allocation order, and the walk to the end of the child list ends; no
`fullPath` changes. -/
theorem linkChild_forward (H : List HeapEntry) (cell : HeapEntry) (p : Nat)
    (hH : HeapForward H)
    (hc : cell.children = none) (hn : cell.next = none) (hpar : cell.parent = none)
    (hp : p < H.length) :
    ∃ heap2, linkChild (H ++ [cell]) H.length p = .ok heap2 ∧ HeapForward heap2 ∧
      heap2.length = H.length + 1 ∧
      ∀ (q : Nat) (e : HeapEntry), heap2[q]? = some e →
        ∃ e0, (H ++ [cell])[q]? = some e0 ∧ e.fullPath = e0.fullPath := by
  have hF0 : HeapForward (H ++ [cell]) := heapForward_append hH cell hc hn hpar
  have hlen0 : (H ++ [cell]).length = H.length + 1 := by simp
  have hpe : (H ++ [cell])[p]? = some H[p] := by
    rw [List.getElem?_append_left hp]
    exact List.getElem?_eq_getElem hp
  have hF1 : HeapForward (modifyCell (H ++ [cell]) H.length
      fun e => { e with parent := some p }) := by
    apply heapForward_modifyCell hF0
    intro e he
    have := hF0 _ e he
    refine ⟨this.1, this.2.1, fun q hq => ?_⟩
    injection hq with hq
    omega
  have hlen1 : (modifyCell (H ++ [cell]) H.length fun e => { e with parent := some p }).length =
      H.length + 1 := by rw [modifyCell_length, hlen0]
  have hfp : ∀ (x : Nat) (g : HeapEntry → HeapEntry), (∀ e, (g e).fullPath = e.fullPath) →
      ∀ (q : Nat) (e : HeapEntry),
        (modifyCell (modifyCell (H ++ [cell]) H.length fun e => { e with parent := some p })
          x g)[q]? = some e →
        ∃ e0, (H ++ [cell])[q]? = some e0 ∧ e.fullPath = e0.fullPath := by
    intro x g hg q e he
    obtain ⟨e1, he1, h1⟩ := getElem?_modifyCell_fullPath hg he
    obtain ⟨e0, he0, h0⟩ := getElem?_modifyCell_fullPath (by intro _; rfl) he1
    exact ⟨e0, he0, h1.trans h0⟩
  unfold linkChild
  rw [hpe]
  simp only
  cases hch : H[p].children with
  | none =>
    simp only
    have hF2 : HeapForward (modifyCell
        (modifyCell (H ++ [cell]) H.length fun e => { e with parent := some p }) p
        fun e => { e with children := some H.length }) := by
      apply heapForward_modifyCell hF1
      intro e he
      have := hF1 _ e he
      rw [hlen1] at this ⊢
      refine ⟨fun q hq => ?_, this.2.1, this.2.2⟩
      injection hq with hq
      omega
    exact ⟨_, rfl, hF2, (modifyCell_length _ _ _).trans hlen1, hfp _ _ fun _ => rfl⟩
  | some c =>
    simp only
    have hcn : c < H.length := ((hH p H[p] (List.getElem?_eq_getElem hp)).1 c hch).2
    have hnext : ∀ (q : Nat) (e : HeapEntry) (x : Nat),
        (modifyCell (H ++ [cell]) H.length fun e => { e with parent := some p })[q]? = some e →
        e.next = some x → q < x ∧ x < H.length := by
      intro q e x he hx
      rw [getElem?_modifyCell] at he
      by_cases hq : q = H.length
      · rw [if_pos hq, hq] at he
        simp at he
        subst he
        simp only at hx
        rw [hn] at hx
        cases hx
      · rw [if_neg hq] at he
        rcases getElem?_snoc_cases he with ⟨_, h1⟩ | ⟨h1, _⟩
        · exact (hH q e h1).2.1 x hx
        · exact absurd h1 hq
    obtain ⟨last, el, hlast, hlastlt, _, _⟩ :=
      lastSibling_forward H.length (by omega) hnext
        (modifyCell (H ++ [cell]) H.length fun e => { e with parent := some p }).length c hcn
        (by omega)
    rw [hlast]
    simp only
    have hF2 : HeapForward (modifyCell
        (modifyCell (H ++ [cell]) H.length fun e => { e with parent := some p }) last
        fun e => { e with next := some H.length }) := by
      apply heapForward_modifyCell hF1
      intro e he
      have := hF1 _ e he
      rw [hlen1] at this ⊢
      refine ⟨this.1, fun q hq => ?_, this.2.2⟩
      injection hq with hq
      omega
    exact ⟨_, rfl, hF2, (modifyCell_length _ _ _).trans hlen1, hfp _ _ fun _ => rfl⟩

/-- The whole branch that attaches a freshly allocated cell below an older
cell whose `fullPath` is stored: no fault, the heap stays in allocation
order, and the new cell has its `fullPath` stored. -/
theorem attachChild_forward (s2 : ReconState) (H : List HeapEntry) (cell : HeapEntry)
    (p : Nat) (r : Record) (hH : HeapForward H) (hheap : s2.heap = H ++ [cell])
    (hc : cell.children = none) (hn : cell.next = none) (hpar : cell.parent = none)
    (hp : p < H.length)
    (hpaths : ∀ (q : Nat) (e : HeapEntry), H[q]? = some e → e.fullPath ≠ none) :
    ∃ s3, attachChild s2 H.length p r = .ok s3 ∧ HeapForward s3.heap ∧
      s3.heap.length = H.length + 1 ∧ s3.nodes = s2.nodes ∧
      s3.nodesCapacity = s2.nodesCapacity ∧
      ∀ (q : Nat) (e : HeapEntry), s3.heap[q]? = some e → e.fullPath ≠ none := by
  obtain ⟨heap2, hlink, hF2, hlen2, hfp2⟩ := linkChild_forward H cell p hH hc hn hpar hp
  have hplt : p < heap2.length := by omega
  obtain ⟨e0, he0, hfp0⟩ := hfp2 p heap2[p] (List.getElem?_eq_getElem hplt)
  rw [List.getElem?_append_left hp] at he0
  obtain ⟨pp, hpp⟩ : ∃ pp, heap2[p].fullPath = some pp := by
    cases h : heap2[p].fullPath with
    | none => exact absurd (hfp0 ▸ h) (hpaths p e0 he0)
    | some pp => exact ⟨pp, rfl⟩
  unfold attachChild
  rw [hheap, hlink]
  simp only
  rw [List.getElem?_eq_getElem hplt]
  simp only [hpp]
  refine ⟨_, rfl, ?_, ?_, rfl, rfl, ?_⟩
  · exact heapForward_modifyCell hF2 _ _ fun e he =>
      cellForward_setFullPathCell _ _ (hF2 _ e he)
  · show (modifyCell heap2 H.length _).length = _
    rw [modifyCell_length, hlen2]
  · intro q e he
    have he1 : (modifyCell heap2 H.length (setFullPathCell (some pp) r.name))[q]? = some e := he
    rw [getElem?_modifyCell] at he1
    by_cases hq : q = H.length
    · rw [if_pos hq] at he1
      cases h0 : heap2[q]? with
      | none => rw [h0] at he1; cases he1
      | some e1 =>
        rw [h0] at he1
        injection he1 with he1
        rw [← he1]
        simp [setFullPathCell]
    · rw [if_neg hq] at he1
      obtain ⟨e1, he1a, he1b⟩ := hfp2 q e he1
      rcases getElem?_snoc_cases he1a with ⟨_, h1⟩ | ⟨h1, _⟩
      · rw [he1b]
        exact hpaths q e1 h1
      · exact absurd h1 hq
theorem growTable_back (s : ReconState) (id : Int)
    (hcap : s.nodesCapacity = (s.nodes.length : Int)) :
    s.nodes.length ≤ (growTable s id).nodes.length ∧
      ∀ (k p : Nat), (growTable s id).nodes[k]? = some (some p) →
        s.nodes[k]? = some (some p) := by
  unfold growTable
  split
  · rename_i hge
    simp only
    rw [hcap, resizeNodesArray_grow _ _ (by omega)]
    refine ⟨by simp, fun k p h => ?_⟩
    by_cases hk : k < s.nodes.length
    · rw [List.getElem?_append_left hk] at h
      exact h
    · rw [List.getElem?_append_right (not_lt.mp hk)] at h
      have := List.eq_of_mem_replicate (List.getElem?_mem h)
      cases this
  · exact ⟨le_refl _, fun _ _ h => h⟩

/-- One record with an id between 0 and `INT_MAX - 100` that does not name
itself as parent and whose `parentId` lies within the table is processed
without a fault and keeps `LinksForward`; the table does not shrink and has
a slot for the id. -/
theorem reconstructRecord_forward (sp : CString) (s : ReconState) (r : Record)
    (hinv : LinksForward s) (hid : 0 ≤ r.id) (hmax : r.id ≤ INT_MAX - 100)
    (hself : r.parentId ≠ r.id) (hpar : r.parentId < (s.nodes.length : Int)) :
    ∃ s1, reconstructRecord sp s r = .ok s1 ∧ LinksForward s1 ∧
      s.nodes.length ≤ s1.nodes.length ∧ r.id < (s1.nodes.length : Int) := by
  obtain ⟨gheap, _, _, gcap, glt, _⟩ := growTable_spec s r.id hinv.cap
  obtain ⟨gle, gback⟩ := growTable_back s r.id hinv.cap
  have hmin : 1000 ≤ (growTable s r.id).nodes.length := le_trans hinv.capMin gle
  have htable : ∀ (k q : Nat),
      ((growTable s r.id).nodes.set r.id.toNat (some s.heap.length))[k]? = some (some q) →
      q < s.heap.length + 1 := by
    intro k q h
    by_cases hk : r.id.toNat = k
    · subst hk
      have hidlt : r.id.toNat < (growTable s r.id).nodes.length := by omega
      rw [List.getElem?_set_self hidlt] at h
      injection h with h
      injection h with h
      omega
    · rw [List.getElem?_set_ne hk] at h
      exact Nat.lt_succ_of_lt (hinv.table k q (gback k q h))
  have hroot : ∀ s2 : ReconState, s2.heap = s.heap ++
      [{ id := r.id, name := r.name, fullPath := none,
         isDirectory := decide (r.isDirectory ≠ 0), isEnqueued := false,
         parentId := none, parent := none, children := none, next := none }] →
      s2.nodes = (growTable s r.id).nodes.set r.id.toNat (some s.heap.length) →
      s2.nodesCapacity = (growTable s r.id).nodesCapacity →
      LinksForward (makeRoot sp s2 s.heap.length) ∧
        s.nodes.length ≤ (makeRoot sp s2 s.heap.length).nodes.length ∧
        r.id < ((makeRoot sp s2 s.heap.length).nodes.length : Int) := by
    intro s2 h1 h2 h3
    have hF : HeapForward s2.heap := h1 ▸ heapForward_append hinv.heap _ rfl rfl rfl
    have hlen : (makeRoot sp s2 s.heap.length).nodes.length =
        (growTable s r.id).nodes.length := by
      show s2.nodes.length = _
      rw [h2, List.length_set]
    refine ⟨⟨?_, ?_, ?_, ?_, ?_⟩, ?_, ?_⟩
    · show s2.nodesCapacity = ((s2.nodes).length : Int)
      rw [h3, h2, gcap, List.length_set]
    · rw [hlen]
      exact hmin
    · intro k q h
      have h4 : s2.nodes[k]? = some (some q) := h
      rw [h2] at h4
      show q < (modifyCell s2.heap _ _).length
      rw [modifyCell_length, h1, List.length_append, List.length_singleton]
      exact htable k q h4
    · exact heapForward_modifyCell hF _ _ fun e he =>
        cellForward_setFullPathCell _ _ (hF _ e he)
    · intro q e he
      have he1 : (modifyCell s2.heap s.heap.length (setFullPathCell (some sp) []))[q]? =
          some e := he
      rw [getElem?_modifyCell] at he1
      by_cases hq : q = s.heap.length
      · rw [if_pos hq] at he1
        cases h0 : s2.heap[q]? with
        | none => rw [h0] at he1; cases he1
        | some e1 =>
          rw [h0] at he1
          injection he1 with he1
          rw [← he1]
          simp [setFullPathCell]
      · rw [if_neg hq, h1] at he1
        rcases getElem?_snoc_cases he1 with ⟨_, h5⟩ | ⟨h5, _⟩
        · exact hinv.paths q e h5
        · exact absurd h5 hq
    · rw [hlen]
      exact gle
    · rw [hlen]
      exact glt
  have hguard : ¬ (s.nodesCapacity ≤ r.id ∧ INT_MAX < r.id + 100) := fun h =>
    absurd h.2 (by omega)
  unfold reconstructRecord
  rw [if_neg hguard]
  simp only [gheap]
  rw [if_pos ⟨hid, glt⟩]
  by_cases hpos : r.parentId ≥ 0
  · rw [if_pos hpos]
    have hlt : r.parentId <
        (((growTable s r.id).nodes.set r.id.toNat (some s.heap.length)).length : Int) := by
      rw [List.length_set]
      omega
    rw [if_pos hlt]
    cases hlook : ((growTable s r.id).nodes.set r.id.toNat (some s.heap.length)).getD
        r.parentId.toNat none with
    | none => exact ⟨_, rfl, hroot _ rfl rfl rfl⟩
    | some p =>
      simp only
      have hne : r.id.toNat ≠ r.parentId.toNat := by omega
      have hp : p < s.heap.length := by
        rw [List.getD_eq_getElem?_getD] at hlook
        rw [List.length_set] at hlt
        have hplt : r.parentId.toNat < (growTable s r.id).nodes.length := by omega
        rw [List.getElem?_set_ne hne, List.getElem?_eq_getElem hplt] at hlook
        simp only [Option.getD_some] at hlook
        have h2 : (growTable s r.id).nodes[r.parentId.toNat]? = some (some p) := by
          rw [List.getElem?_eq_getElem hplt, hlook]
        exact hinv.table _ p (gback _ p h2)
      obtain ⟨s3, h3, hF3, hl3, hn3, hc3, hp3⟩ := attachChild_forward
        { growTable s r.id with
          heap := s.heap ++
            [{ id := r.id, name := r.name, fullPath := none,
               isDirectory := decide (r.isDirectory ≠ 0), isEnqueued := false,
               parentId := none, parent := none, children := none, next := none }]
          nodes := (growTable s r.id).nodes.set r.id.toNat (some s.heap.length)
          nodesCount := (growTable s r.id).nodesCount + 1 }
        s.heap _ p r hinv.heap rfl rfl rfl rfl hp hinv.paths
      have hlen : s3.nodes.length = (growTable s r.id).nodes.length := by
        rw [hn3]
        show ((growTable s r.id).nodes.set r.id.toNat (some s.heap.length)).length = _
        rw [List.length_set]
      refine ⟨s3, h3, ⟨?_, ?_, ?_, hF3, hp3⟩, ?_, ?_⟩
      · rw [hc3, hlen]
        exact gcap
      · rw [hlen]
        exact hmin
      · intro k q h
        rw [hn3] at h
        rw [hl3]
        exact htable k q h
      · rw [hlen]
        exact gle
      · rw [hlen]
        exact glt
  · rw [if_neg hpos]
    exact ⟨_, rfl, hroot _ rfl rfl rfl⟩

/-- The loop processes indexable records without a fault and keeps the heap
in allocation order. -/
theorem reconstructRecords_forward (sp : CString) :
    ∀ (todo done : List Record) (s : ReconState), LinksForward s →
      (∀ x ∈ done, x.id < (s.nodes.length : Int)) →
      IndexableRecords (done ++ todo) →
      ∃ s1, reconstructRecords sp todo s = .ok s1 ∧ LinksForward s1 := by
  intro todo
  induction todo with
  | nil =>
    intro done s hinv _ _
    exact ⟨s, rfl, hinv⟩
  | cons r rs ih =>
    intro done s hinv hdone h
    obtain ⟨hid, hmax, hself⟩ := h.1 r (by simp)
    have hmem : (done.length, r) ∈ (done ++ r :: rs).enum := by
      rw [List.mk_mem_enum_iff_getElem?, List.getElem?_append_right (le_refl _)]
      simp
    have hpar : r.parentId < (s.nodes.length : Int) := by
      rcases h.2 _ hmem with h1 | h1
      · have h2 : r.parentId < 1000 := h1
        have := hinv.capMin
        omega
      · have h2 : r.parentId ∈ ((done ++ r :: rs).take done.length).map fun x => x.id := h1
        rw [List.take_left] at h2
        obtain ⟨x, hx, hxid⟩ := List.mem_map.mp h2
        have h3 : x.id = r.parentId := hxid
        have := hdone x hx
        omega
    obtain ⟨s1, h1, hinv1, hle, hlt⟩ := reconstructRecord_forward sp s r hinv hid hmax hself hpar
    have hdone1 : ∀ x ∈ done ++ [r], x.id < (s1.nodes.length : Int) := by
      intro x hx
      rcases List.mem_append.mp hx with h2 | h2
      · have := hdone x h2
        omega
      · rw [List.mem_singleton.mp h2]
        exact hlt
    have hsplit : done ++ r :: rs = (done ++ [r]) ++ rs := by simp
    obtain ⟨s2, h2, hinv2⟩ := ih (done ++ [r]) s1 hinv1 hdone1 (hsplit ▸ h)
    refine ⟨s2, ?_, hinv2⟩
    unfold reconstructRecords
    rw [h1]
    exact h2

theorem linksForward_initial (k0 : Int) : LinksForward (initialState k0) := by
  refine ⟨?_, ?_, ?_, ?_, ?_⟩
  · show (1000 : Int) = ((List.replicate 1000 (none : Option Nat)).length : Int)
    rw [List.length_replicate]
    rfl
  · show 1000 ≤ (List.replicate 1000 (none : Option Nat)).length
    rw [List.length_replicate]
  · intro k p h
    have h1 : (List.replicate 1000 (none : Option Nat))[k]? = some (some p) := h
    have := List.eq_of_mem_replicate (List.getElem?_mem h1)
    cases this
  · intro p e he
    have h1 : ([] : List HeapEntry)[p]? = some e := he
    simp at h1
  · intro p e he
    have h1 : ([] : List HeapEntry)[p]? = some e := he
    simp at h1

theorem linked_lt {heap : List HeapEntry} (h : HeapForward heap) {p q : Nat}
    (hl : Linked heap p q) : p < q := by
  obtain ⟨e, he, hq | hq⟩ := hl
  · exact ((h p e he).1 q hq).1
  · exact ((h p e he).2.1 q hq).1

theorem acyclic_of_forward {heap : List HeapEntry} (h : HeapForward heap) :
    Acyclic heap ∧ NoOwnParent heap := by
  constructor
  · intro p hp
    have hlt : ∀ a b, Relation.TransGen (Linked heap) a b → a < b := by
      intro a b hab
      induction hab with
      | single h1 => exact linked_lt h h1
      | tail _ h2 ih => exact lt_trans ih (linked_lt h h2)
    exact lt_irrefl _ (hlt p p hp)
  · intro p e he hpar
    exact lt_irrefl _ ((h p e he).2.2 p hpar)

theorem chainRecords_ids (t : FileSystemEntry) (owner : Int) :
    (chainRecords t owner).map (fun r => r.id) = (chainNodes t).map idOf := by
  induction t generalizing owner with
  | null => rfl
  | node d c n ihc ihn => simp [chainRecords, chainNodes, idOf, ihc, ihn]

theorem chainData_ids (t : FileSystemEntry) :
    (chainData t).map (fun d => d.id) = (chainNodes t).map idOf := by
  induction t with
  | null => rfl
  | node d c n ihc ihn => simp [chainData, chainNodes, idOf, ihc, ihn]

theorem null_not_mem_chainNodes (t : FileSystemEntry) : null ∉ chainNodes t := by
  induction t with
  | null => simp [chainNodes]
  | node d c n ihc ihn => simp [chainNodes, ihc, ihn]

theorem idOf_mem_of_mem_chainNodes {t e : FileSystemEntry} (h : e ∈ chainNodes t) :
    idOf e ∈ (chainData t).map fun d => d.id := by
  rw [chainData_ids]
  exact List.mem_map.mpr ⟨e, h, rfl⟩

/-- The records of a chain that name `pid` as parent, when `pid` is not the
id of a node of the chain, are the records of the top-level nodes if `pid`
is the owner of the chain, and none otherwise. -/
theorem chainRecords_filter_outside (t : FileSystemEntry) :
    ∀ (owner pid : Int), pid ∉ (chainData t).map (fun d => d.id) →
      ((chainRecords t owner).filter fun r => r.parentId == pid).map (fun r => r.id) =
        if owner = pid then (chain t).map idOf else [] := by
  induction t with
  | null =>
    intro owner pid _
    simp [chainRecords, chain]
  | node d c n ihc ihn =>
    intro owner pid hpid
    simp only [chainData, List.map_cons, List.map_append, List.mem_cons, List.mem_append,
      not_or] at hpid
    obtain ⟨h1, h2, h3⟩ := hpid
    have hc := ihc d.id pid h2
    rw [if_neg (Ne.symm h1)] at hc
    have hn := ihn owner pid h3
    rw [chainRecords, List.filter_cons, List.filter_append]
    by_cases ho : owner = pid
    · rw [if_pos ho] at hn
      subst ho
      simp [hc, hn, chain, idOf]
    · rw [if_neg ho] at hn
      simp [ho, hc, hn]

/-- In a chain with pairwise distinct ids, the records that name a node of
the chain as parent are the records of the children of that node, in the
order of its child list. -/
theorem chainRecords_filter_node (t : FileSystemEntry) :
    ∀ (owner : Int) (e : FileSystemEntry), ((chainData t).map fun d => d.id).Nodup →
      e ∈ chainNodes t → owner ≠ idOf e →
      ((chainRecords t owner).filter fun r => r.parentId == idOf e).map (fun r => r.id) =
        (childList e).map idOf := by
  induction t with
  | null =>
    intro owner e _ he _
    simp [chainNodes] at he
  | node d c n ihc ihn =>
    intro owner e hnd he ho
    simp only [chainData, List.map_cons, List.map_append, List.nodup_cons, List.mem_append,
      not_or] at hnd
    obtain ⟨⟨hdc, hdn⟩, hcn⟩ := hnd
    rw [List.nodup_append] at hcn
    obtain ⟨hndc, hndn, hdisj⟩ := hcn
    rw [chainRecords, List.filter_cons, List.filter_append]
    have hhead : ((⟨d.id, d.name, boolToInt d.isDirectory, owner⟩ : Record).parentId == idOf e)
        = false := by
      simpa using ho
    rw [hhead]
    simp only [Bool.false_eq_true, if_false]
    rw [List.map_append]
    simp only [chainNodes, List.mem_cons, List.mem_append] at he
    rcases he with he | he | he
    · subst he
      have h1 := chainRecords_filter_outside c d.id d.id hdc
      have h2 := chainRecords_filter_outside n owner d.id hdn
      have ho1 : owner ≠ d.id := ho
      rw [if_pos rfl] at h1
      rw [if_neg ho1] at h2
      show List.map (fun r : Record => r.id)
          (List.filter (fun r : Record => r.parentId == d.id) (chainRecords c d.id)) ++
        List.map (fun r : Record => r.id)
          (List.filter (fun r : Record => r.parentId == d.id) (chainRecords n owner)) = _
      rw [h1, h2]
      simp [childList, childrenPtr]
    · have hmem := idOf_mem_of_mem_chainNodes he
      have hne : d.id ≠ idOf e := fun h => hdc (h ▸ hmem)
      have hnotn : idOf e ∉ (chainData n).map fun d => d.id := fun h => hdisj hmem h
      have h1 := ihc d.id e hndc he hne
      have h2 := chainRecords_filter_outside n owner (idOf e) hnotn
      rw [if_neg ho] at h2
      rw [h1, h2]
      simp
    · have hmem := idOf_mem_of_mem_chainNodes he
      have hne : d.id ≠ idOf e := fun h => hdn (h ▸ hmem)
      have hnotc : idOf e ∉ (chainData c).map fun d => d.id := fun h => hdisj h hmem
      have h1 := chainRecords_filter_outside c d.id (idOf e) hnotc
      rw [if_neg hne] at h1
      have h2 := ihn owner e hndn he ho
      rw [h1, h2]
      simp

/-- The records of a chain with `isDirectory` set are as many as the
directories of the chain. -/
theorem chainRecords_directories (t : FileSystemEntry) (owner : Int) :
    ((chainRecords t owner).filter fun r => r.isDirectory != 0).length =
      ((chainNodes t).filter isDir).length := by
  induction t generalizing owner with
  | null => rfl
  | node d c n ihc ihn =>
    rw [chainRecords, chainNodes, List.filter_cons, List.filter_cons, List.filter_append,
      List.filter_append]
    cases hd : d.isDirectory <;>
      simp [boolToInt, isDir, hd, ihc, ihn]

/-- The positions of the records that name `pid` as parent carry the ids of
these records. -/
theorem kids_map_ids (recs : List Record) (pid : Int) :
    (kids recs pid).map (fun q => (recs[q]?).map fun r => r.id) =
      ((recs.filter fun r => r.parentId == pid).map fun r => some r.id) := by
  induction recs using List.reverseRecOn with
  | nil => rfl
  | append_singleton done r ih =>
    rw [kids_snoc, List.map_append, List.filter_append, List.map_append]
    congr 1
    · rw [← ih]
      apply List.map_congr_left
      intro q hq
      rw [List.getElem?_append_left (kids_lt hq)]
    · by_cases h : r.parentId = pid
      · simp [h]
      · simp [h]

set_option maxRecDepth 100000 in
/-- C20, as stated, fails: the single root with id `INT_MAX` has distinct
non-negative ids and a persistable name; it is written as one line, and the
reader overflows `int` when it computes the capacity `id + 100` for it. -/
theorem roundtrip_overflows_at_largest_id :
    ((subtreeData treeLargestId).map fun d => d.id).Nodup ∧
      (∀ d ∈ subtreeData treeLargestId,
        (0 ≤ d.id ∧ d.id ≤ INT_MAX) ∧ PersistableName d.name) ∧
      freeAndWriteTree treeLargestId = "2147483647\tr\t1\t-1\n".toList ∧
      reconstructTreeFromFile (freeAndWriteTree treeLargestId) ['m'] 0 =
        .error .intOverflow :=
  ⟨by decide, by decide, by decide, rfl⟩

/-- C20 (amended): for every tree with pairwise distinct ids between 0 and
`INT_MAX - 100` and names that survive the file format, writing the tree and reading
the file back gives one cell per node, in pre-order; the cell of every node
has the id of the node, and its child list, walked front to back, carries
the ids of the children of the node in the order of the original child
list; the counter, started at 0, ends at the number of directories below
the root. -/
theorem roundtrip_sibling_order (t : FileSystemEntry) (sp : CString)
    (hroot : t ≠ null)
    (hnd : ((subtreeData t).map fun d => d.id).Nodup)
    (hd : ∀ d ∈ subtreeData t, (0 ≤ d.id ∧ d.id ≤ INT_MAX - 100) ∧ PersistableName d.name) :
    ∃ s, reconstructTreeFromFile (freeAndWriteTree t) sp 0 = .ok s ∧
      s.heap.length = (t :: descendants t).length ∧
      (∀ (i : Nat) (e : FileSystemEntry), (t :: descendants t)[i]? = some e →
        ∃ (cell : HeapEntry) (l : List Nat), s.heap[i]? = some cell ∧ cell.id = idOf e ∧
          childrenOf s.heap i = some l ∧
          l.map (fun q => (s.heap[q]?).map fun x => x.id) =
            (childList e).map fun ch => some (idOf ch)) ∧
      s.numDirectoryEntries = (((descendants t).filter isDir).length : Int) := by
  have hrecs := fileLines_freeAndWriteTree t fun d hd1 =>
    ⟨⟨(hd d hd1).1.1, by have := (hd d hd1).1.2; omega⟩, (hd d hd1).2⟩
  have hwf := treeRecords_wf t hnd fun d hd1 => (hd d hd1).1
  obtain ⟨s, hrun, hinv⟩ := reconstructRecords_wf sp 0 (treeRecords t (-1)) []
    (initialState 0) (reconInv_initial sp 0) (by simpa using hwf)
  simp only [List.nil_append] at hinv
  cases t with
  | null => exact absurd rfl hroot
  | node d c n =>
    have hids : (treeRecords (node d c n) (-1)).map (fun r => r.id) =
        (node d c n :: descendants (node d c n)).map idOf := by
      simp [treeRecords, descendants, childrenPtr, chainRecords_ids, idOf]
    simp only [subtreeData, List.map_cons, List.nodup_cons] at hnd
    obtain ⟨hdc, hndc⟩ := hnd
    refine ⟨s, ?_, ?_, ?_, ?_⟩
    · unfold reconstructTreeFromFile
      rw [hrecs]
      exact hrun
    · rw [hinv.len]
      have := congrArg List.length hids
      simpa using this
    · intro i e he
      have hr : ∃ r, (treeRecords (node d c n) (-1))[i]? = some r ∧ r.id = idOf e := by
        have h1 := congrArg (fun l => l[i]?) hids
        simp only [List.getElem?_map, he, Option.map_some'] at h1
        cases h2 : (treeRecords (node d c n) (-1))[i]? with
        | none => rw [h2] at h1; cases h1
        | some r =>
          rw [h2] at h1
          injection h1 with h1
          exact ⟨r, rfl, h1⟩
      obtain ⟨r, hr, hrid⟩ := hr
      obtain ⟨cell, hcell, hid, _, _, hch, _, _⟩ := hinv.cell i r hr
      refine ⟨cell, kids (treeRecords (node d c n) (-1)) r.id, hcell, hid.trans hrid,
        childrenOf_of_chain hcell hch (hinv.len ▸ kids_length_le _ _), ?_⟩
      have hmem : e ∈ node d c n :: descendants (node d c n) := List.getElem?_mem he
      have hfilter : ((treeRecords (node d c n) (-1)).filter
          fun x => x.parentId == idOf e).map (fun x => x.id) = (childList e).map idOf := by
        have hnonneg : 0 ≤ idOf e := by
          rw [← hrid]
          exact (hwf.2.1 r (List.getElem?_mem hr)).1
        have hhead : ((⟨d.id, d.name, boolToInt d.isDirectory, -1⟩ : Record).parentId ==
            idOf e) = false := by
          have : (-1 : Int) ≠ idOf e := by omega
          simpa using this
        rw [treeRecords, List.filter_cons, hhead]
        simp only [Bool.false_eq_true, if_false]
        rcases List.mem_cons.mp hmem with h1 | h1
        · subst h1
          have h2 := chainRecords_filter_outside c d.id d.id hdc
          rw [if_pos rfl] at h2
          exact h2
        · have h2 : d.id ≠ idOf e := fun h => hdc (h ▸ idOf_mem_of_mem_chainNodes h1)
          exact chainRecords_filter_node c d.id e hndc h1 h2
      have hheap : (kids (treeRecords (node d c n) (-1)) r.id).map
          (fun q => (s.heap[q]?).map fun x => x.id) =
          (kids (treeRecords (node d c n) (-1)) r.id).map
            (fun q => ((treeRecords (node d c n) (-1))[q]?).map fun x => x.id) := by
        apply List.map_congr_left
        intro q hq
        obtain ⟨rq, hrq, _⟩ := mem_kids.mp hq
        obtain ⟨cq, hcq, hidq, _⟩ := hinv.cell q rq hrq
        rw [hcq, hrq]
        simp [hidq]
      rw [hheap, kids_map_ids, hrid]
      have := congrArg (List.map some) hfilter
      simpa [List.map_map, Function.comp_def] using this
    · rw [hinv.count]
      simp only [attachedDirectories, treeRecords, List.tail_cons, descendants, childrenPtr]
      rw [chainRecords_directories]
      simp

set_option maxRecDepth 100000 in
/-- C20 (amended) at an example: `treeWithEmptyDir`, whose root has the children 2, 3
and 5 in this order. -/
theorem roundtrip_sibling_order_witness :
    treeWithEmptyDir ≠ null ∧
      ((subtreeData treeWithEmptyDir).map fun d => d.id).Nodup ∧
      (∀ d ∈ subtreeData treeWithEmptyDir,
        (0 ≤ d.id ∧ d.id ≤ INT_MAX - 100) ∧ PersistableName d.name) ∧
      ∃ s, reconstructTreeFromFile (freeAndWriteTree treeWithEmptyDir) ['m'] 0 = .ok s ∧
        s.heap.length = (treeWithEmptyDir :: descendants treeWithEmptyDir).length ∧
        (∀ (i : Nat) (e : FileSystemEntry),
          (treeWithEmptyDir :: descendants treeWithEmptyDir)[i]? = some e →
          ∃ (cell : HeapEntry) (l : List Nat), s.heap[i]? = some cell ∧ cell.id = idOf e ∧
            childrenOf s.heap i = some l ∧
            l.map (fun q => (s.heap[q]?).map fun x => x.id) =
              (childList e).map fun ch => some (idOf ch)) ∧
        s.numDirectoryEntries =
          (((descendants treeWithEmptyDir).filter isDir).length : Int) :=
  ⟨by decide, by decide, by decide,
    roundtrip_sibling_order treeWithEmptyDir ['m'] (by decide) (by decide) (by decide)⟩

end Kew
